import Mathlib

set_option autoImplicit false

namespace PyAssist

/-!
Verification of the storage core of the personal-assistant record store.

The development shallowly embeds the Python modules
src/personal_assistant/storage/heap_storage.py,
src/personal_assistant/storage/index_manager.py,
src/personal_assistant/storage/base_storage.py,
src/personal_assistant/storage/address_book.py and
src/personal_assistant/storage/notes_storage.py.

Python dicts are embedded as insertion-ordered association lists, JSON
document values as a small value type, and the per-file heap and the
index bucket files as dictionaries keyed by their addressing data.
-/

/-! ## Python dictionaries

Insertion-ordered association lists.  Assignment (d[k] = v) replaces the
value in place when the key is present and appends the pair otherwise,
which is exactly the CPython dict behaviour the storage code relies on. -/

/-- An insertion-ordered dictionary, the embedding of a Python dict. -/

abbrev Dict (kappa : Type) (alpha : Type) : Type := List (kappa × alpha)

variable {kappa : Type} {alpha : Type} [DecidableEq kappa]

/-- Embedding of d.get(k): the value at the first occurrence of k. -/

def dget : Dict kappa alpha → kappa → Option alpha
  | [], _ => none
  | (k, v) :: t, key => if k = key then some v else dget t key

/-- Embedding of the assignment d[k] = v. -/

def dset : Dict kappa alpha → kappa → alpha → Dict kappa alpha
  | [], key, v => [(key, v)]
  | (k, w) :: t, key, v => if k = key then (k, v) :: t else (k, w) :: dset t key v

/-- Embedding of del d[k]. -/

def derase : Dict kappa alpha → kappa → Dict kappa alpha
  | [], _ => []
  | (k, w) :: t, key => if k = key then derase t key else (k, w) :: derase t key

/-- Embedding of the membership test k in d. -/

def dhasKey (d : Dict kappa alpha) (key : kappa) : Bool := (dget d key).isSome

/-- Embedding of d.update(e): assign every pair of e in order. -/

def dupdate (d e : Dict kappa alpha) : Dict kappa alpha :=
  e.foldl (fun acc p => dset acc p.1 p.2) d

/-- The keys, in insertion order. -/

def dkeys (d : Dict kappa alpha) : List kappa := d.map Prod.fst

/-- The dictionary has no duplicate keys (true of every dict a Python
program can build). -/

def NodupKeys (d : Dict kappa alpha) : Prop := (dkeys d).Nodup

instance (d : Dict kappa alpha) : Decidable (NodupKeys d) := by
  unfold NodupKeys; infer_instance

/-! ## Python string primitives

value.lower(), value.strip(), value.startswith(p) and slicing are
embedded over the character list of a string. -/

/-- Python whitespace test used by str.strip (ASCII fragment). -/

def pyws (c : Char) : Bool := c = ' ' ∨ c = '\t' ∨ c = '\n' ∨ c = '\r'

/-- Lowercasing of one character, as str.lower acts on ASCII. -/

def pychar (c : Char) : Char := if 'A' ≤ c ∧ c ≤ 'Z' then Char.ofNat (c.toNat + 32) else c

/-- Embedding of value.lower(). -/

def pylower (s : String) : String := ⟨s.data.map pychar⟩

/-- Embedding of value.strip(). -/

def pytrim (s : String) : String :=
  ⟨((s.data.dropWhile pyws).reverse.dropWhile pyws).reverse⟩

/-- The normalization value.lower().strip() applied by the trie index. -/

def pynorm (s : String) : String := pytrim (pylower s)

/-- Embedding of s.startswith(p). -/

def pystarts (s p : String) : Bool := p.data.isPrefixOf s.data

/-- Embedding of the slice s[a:b] (total, like Python string slicing). -/

def pyslice (s : String) (a b : Nat) : String := ⟨(s.data.drop a).take (b - a)⟩

/-- Embedding of list.remove(x): drops the first occurrence only. -/

def pyRemoveFirst : List String → String → List String
  | [], _ => []
  | x :: t, u => if x = u then t else x :: pyRemoveFirst t u

/-! ## JSON document values

A heap document is a Python dict from string keys to values; a value is
a string, a list of strings, or None (the three shapes the storage layer
ever stores). -/

/-- A JSON-like value of a stored document. -/

inductive Val : Type
  | s (v : String)
  | l (vs : List String)
  | null
deriving DecidableEq, Repr

/-- Python truthiness of an optional document value (None, missing, the
empty string and the empty list are falsy). -/

def vtruthy : Option Val → Bool
  | some (.s v) => v ≠ ""
  | some (.l vs) => vs ≠ []
  | some .null => false
  | none => false

/-- A stored document: a Python dict from field names to values. -/

abbrev Doc : Type := Dict String Val

/-- Iterating a document field as a list: a stored list gives its items;
iterating a string yields its one-character strings (CPython semantics);
None and a missing key give nothing (the code only reaches this through
dict.get with default empty list). -/

def getItems (d : Doc) (key : String) : List String :=
  match dget d key with
  | some (.l vs) => vs
  | some (.s v) => v.data.map (fun c => String.mk [c])
  | _ => []

/-! ## File contents and the directory model

A record file either parses to a document or is corrupt (present but
unparseable).  A directory is a dict from file names to contents. -/

/-- Contents of one on-disk file as seen by the JSON loader. -/

inductive FileContent : Type
  | valid (d : Doc)
  | corrupt
deriving DecidableEq

/-- The Python exceptions the embedded code can raise. -/

inductive PyErr : Type
  | attributeError
  | ioFailure
deriving DecidableEq, Repr

/-! ## Atomic write protocol (HeapStorage._save_atomic and
IndexManager._atomic_write_json, whose bodies are identical)

tempfile.mkstemp creates a file named .tmp_(suffix).json in the target
directory, json.dump writes into it, then os.replace atomically renames
it onto the target; on any exception before the rename completes, the
except clause unlinks the temporary file and re-raises.  The directory
is a dict from file names to contents; an injected failure leaves the
temporary file holding whatever partial content the interrupted dump
produced. -/

/-- The temporary file name mkstemp produces from its random suffix
(prefix .tmp_ and suffix .json as in the source). -/

def tmpName (suffix : String) : String := ".tmp_" ++ suffix ++ ".json"

/-- One run of the atomic-save protocol on a directory.  fail = true
injects an exception after the temporary file exists but before the
rename; the result pairs the propagated outcome with the directory
contents after the run. -/

def save_atomic {alpha : Type} (dir : Dict String alpha) (target : String)
    (suffix : String) (content interrupted : alpha) (fail : Bool) :
    Except PyErr Unit × Dict String alpha :=
  let tmp := tmpName suffix
  if fail then
    -- dump was interrupted: unlink the temporary file, re-raise
    (Except.error PyErr.ioFailure, derase (dset dir tmp interrupted) tmp)
  else
    -- full content written, then os.replace renames tmp onto target
    (Except.ok (), dset (derase (dset dir tmp content) tmp) target content)

/-- Reading one record file from a directory (HeapStorage._load): absent
and corrupt files both give None. -/

def loadFile (dir : Dict String FileContent) (name : String) : Option Doc :=
  match dget dir name with
  | some (FileContent.valid d) => some d
  | _ => none

/-- Directory-level scan (HeapStorage.list_all): every file whose name
does not start with a dot is loaded, unparseable ones are skipped. -/

def scanDir (dir : Dict String FileContent) : List Doc :=
  dir.foldr
    (fun p acc =>
      if p.1.data.head? = some '.' then acc
      else match p.2 with
        | FileContent.valid d => d :: acc
        | FileContent.corrupt => acc)
    []

/-! ## HeapStorage

The heap of one entity category, keyed by the record uuid (the file
(uuid).json).  The contact and note CRUD methods are embedded one for
one; update_contact and update_note share the metadata helper exactly as
in the source. -/

/-- The heap of one category: uuid to file contents. -/

abbrev Heap : Type := Dict String FileContent

/-- HeapStorage.read_contact / read_note via _load: absent and corrupt
files are both absent. -/

def readRecord (heap : Heap) (uuid : String) : Option Doc :=
  match dget heap uuid with
  | some (FileContent.valid d) => some d
  | _ => none

/-- HeapStorage._add_metadata: preserve uuid and created_at from the
existing document (None / the current time when missing), restamp
updated_at. -/

def add_metadata (existing newData : Doc) (now : String) : Doc :=
  dset (dset (dset newData "uuid" ((dget existing "uuid").getD Val.null))
      "created_at" ((dget existing "created_at").getD (Val.s now)))
    "updated_at" (Val.s now)

/-- HeapStorage.create_contact: stamp uuid and both timestamps
unconditionally, then write the file.  The fresh uuid4 value and the
clock reading are parameters of the embedding. -/

def create_contact (heap : Heap) (contactData : Doc) (freshId now : String) :
    Doc × Heap :=
  let d := dset (dset (dset contactData "uuid" (Val.s freshId))
      "created_at" (Val.s now)) "updated_at" (Val.s now)
  (d, dset heap freshId (FileContent.valid d))

/-- HeapStorage.create_note: stamp uuid, stamp created_at only when the
caller did not supply one, always stamp updated_at, then write. -/

def create_note (heap : Heap) (noteData : Doc) (freshId now : String) :
    Doc × Heap :=
  let d0 := dset noteData "uuid" (Val.s freshId)
  let d1 := if dhasKey d0 "created_at" then d0 else dset d0 "created_at" (Val.s now)
  let d := dset d1 "updated_at" (Val.s now)
  (d, dset heap freshId (FileContent.valid d))

/-- HeapStorage.update_contact and update_note (their bodies are
identical): missing file gives False; an existing file is reloaded and
_add_metadata is applied to the load result — when the file is corrupt
the load result is None and accessing .get on it raises AttributeError,
which propagates. -/

def updateRecord (heap : Heap) (uuid : String) (newData : Doc) (now : String) :
    Except PyErr (Bool × Heap) :=
  match dget heap uuid with
  | none => Except.ok (false, heap)
  | some FileContent.corrupt => Except.error PyErr.attributeError
  | some (FileContent.valid existing) =>
      Except.ok (true, dset heap uuid (FileContent.valid (add_metadata existing newData now)))

/-- HeapStorage.delete_contact / delete_note: missing file gives False,
otherwise the file is unlinked (no induced I/O failures). -/

def deleteRecord (heap : Heap) (uuid : String) : Bool × Heap :=
  match dget heap uuid with
  | none => (false, heap)
  | some _ => (true, derase heap uuid)

/-- HeapStorage.list_all on the heap view: uuid-keyed files are never
dot-files, so the scan enumerates every parseable document.  Modeling
deviation: the source additionally drops a document that parses to a
falsy (empty) dict through its final `if entity:` filter; the model
keeps it, shifting the scan and the scan-length count together, and an
empty document carries no uuid and no indexed fields, so it contributes
nothing anywhere a scan result is consumed. -/

def list_all (heap : Heap) : List Doc :=
  heap.foldr
    (fun p acc =>
      match p.2 with
      | FileContent.valid d => d :: acc
      | FileContent.corrupt => acc)
    []

/-! ## IndexManager: bucket files

A bucket file of the trie or hash family maps keys (normalized values,
respectively hex digests) to lists of uuids.  The two inline
load-mutate blocks shared by add_to_trie_index / add_to_hash_index and
by remove_from_trie_index / remove_from_hash_index are factored here
verbatim. -/

/-- Contents of one trie or hash bucket file. -/

abbrev BucketData : Type := Dict String (List String)

/-- The mutation body of add_to_trie_index / add_to_hash_index on the
loaded bucket: ensure the key, then append the uuid when absent. -/

def bdAdd (data : BucketData) (key uuid : String) : BucketData :=
  let data1 := if dhasKey data key then data else dset data key []
  let cur := (dget data1 key).getD []
  if uuid ∈ cur then data1 else dset data1 key (cur ++ [uuid])

/-- The mutation body of remove_from_trie_index / remove_from_hash_index
on the loaded bucket: drop the uuid's first occurrence, delete the key
when its list becomes empty. -/

def bdRemove (data : BucketData) (key uuid : String) : BucketData :=
  match dget data key with
  | none => data
  | some l =>
      let l2 := if uuid ∈ l then pyRemoveFirst l uuid else l
      if l2 = [] then derase data key else dset data key l2

/-! ## IndexManager: trie index

A trie bucket is addressed by _get_trie_path: values whose
normalization is shorter than two characters go to the reserved file
_short/(first char or underscore).json, all others to
(first char)/(second char).json.  A trie index is the dict from bucket
addresses to bucket file contents; an absent address is an absent file
(index files written by the manager always parse, so corrupt bucket
files do not arise in the states the claims quantify over). -/

/-- Address of one trie bucket file. -/

inductive TrieBucket : Type
  | short (c : Char)
  | two (c1 c2 : Char)
deriving DecidableEq

/-- IndexManager._get_trie_path on an already normalized value. -/

def trieBucketOf (k : String) : TrieBucket :=
  match k.data with
  | [] => TrieBucket.short '_'
  | [c] => TrieBucket.short c
  | c1 :: c2 :: _ => TrieBucket.two c1 c2

/-- One trie index (one index_type directory). -/

abbrev TrieIdx : Type := Dict TrieBucket BucketData

/-- IndexManager.add_to_trie_index. -/

def add_to_trie_index (idx : TrieIdx) (value uuid : String) : TrieIdx :=
  if value = "" ∨ pytrim value = "" then idx
  else
    let normalized := pynorm value
    let b := trieBucketOf normalized
    let data := (dget idx b).getD []
    dset idx b (bdAdd data normalized uuid)

/-- IndexManager.remove_from_trie_index. -/

def remove_from_trie_index (idx : TrieIdx) (value uuid : String) : TrieIdx :=
  if value = "" ∨ pytrim value = "" then idx
  else
    let normalized := pynorm value
    let b := trieBucketOf normalized
    match dget idx b with
    | none => idx
    | some data => dset idx b (bdRemove data normalized uuid)

/-- The uuid list stored for one normalized value, read through the
value's own bucket address. -/

def trieLookup (idx : TrieIdx) (k : String) : List String :=
  (dget ((dget idx (trieBucketOf k)).getD []) k).getD []

/-- The loop body of the first-character directory scan of
search_by_prefix: bucket files of the prefix's first-character directory
are filtered by startswith and assigned into the results dict. -/

def searchFoldStep (np : String) (c : Char) (acc : BucketData)
    (e : TrieBucket × BucketData) : BucketData :=
  match e.1 with
  | TrieBucket.two c1 _ =>
      if c1 = c then dupdate acc (e.2.filter (fun kv => pystarts kv.1 np))
      else acc
  | TrieBucket.short _ => acc

/-- IndexManager.search_by_prefix: empty normalized prefix yields
nothing; a one-character prefix scans the reserved short bucket plus
every bucket file under the first-character directory; a longer prefix
reads only the bucket addressed by its first two characters.  Matching
keys are assigned into the results dict. -/

def search_by_pref (idx : TrieIdx) (pre : String) : BucketData :=
  let np := pynorm pre
  match np.data with
  | [] => []
  | [c] =>
      let shortData : BucketData :=
        match dget idx (TrieBucket.short c) with
        | none => []
        | some data => data.filter (fun kv => pystarts kv.1 np)
      idx.foldl (searchFoldStep np c) shortData
  | c :: c2 :: _ =>
      match dget idx (TrieBucket.two c c2) with
      | none => []
      | some data => data.filter (fun kv => pystarts kv.1 np)

/-- Well-formedness of a trie index as the manager maintains it: no
duplicate bucket files, no duplicate keys inside one file, duplicate-free
uuid lists, every key stored in the bucket its own address selects. -/

def TrieWF (idx : TrieIdx) : Prop :=
  NodupKeys idx ∧
    ∀ b data, dget idx b = some data →
      NodupKeys data ∧ ∀ k l, dget data k = some l → l.Nodup ∧ trieBucketOf k = b

/-- Contribution of one directory entry to the scan results at key k. -/

def contribOf (np : String) (c : Char) (e : TrieBucket × BucketData)
    (k : String) : Option (List String) :=
  match e.1 with
  | TrieBucket.two c1 _ =>
      if c1 = c then dget (e.2.filter (fun kv => pystarts kv.1 np)) k else none
  | TrieBucket.short _ => none

/-! ## IndexManager: hash index

_get_hash_path digests the value (sha1 hexdigest in the source, an
arbitrary deterministic digest function in the embedding) and addresses
the bucket by the digest's first four hex characters split into two
directory levels. -/

/-- Address of one hash bucket file: the two nested directory names. -/

abbrev HashBucket : Type := String × String

/-- One hash index (one index_type directory). -/

abbrev HashIdx : Type := Dict HashBucket BucketData

/-- The bucket address of a full digest (full_hash[:2], full_hash[2:4]). -/

def hashBucketOf (full : String) : HashBucket :=
  (pyslice full 0 2, pyslice full 2 4)

/-- IndexManager.add_to_hash_index. -/

def add_to_hash_index (digest : String → String) (idx : HashIdx)
    (value uuid : String) : HashIdx :=
  if value = "" ∨ pytrim value = "" then idx
  else
    let full := digest value
    let b := hashBucketOf full
    let data := (dget idx b).getD []
    dset idx b (bdAdd data full uuid)

/-- IndexManager.remove_from_hash_index. -/

def remove_from_hash_index (digest : String → String) (idx : HashIdx)
    (value uuid : String) : HashIdx :=
  if value = "" ∨ pytrim value = "" then idx
  else
    let full := digest value
    let b := hashBucketOf full
    match dget idx b with
    | none => idx
    | some data => dset idx b (bdRemove data full uuid)

/-- The uuid list stored for one full digest, read through the digest's
own bucket. -/

def hashLookup (idx : HashIdx) (full : String) : List String :=
  (dget ((dget idx (hashBucketOf full)).getD []) full).getD []

/-- IndexManager.search_by_exact_match. -/

def search_by_exact_match (digest : String → String) (idx : HashIdx)
    (value : String) : List String :=
  if value = "" ∨ pytrim value = "" then []
  else
    let full := digest value
    let b := hashBucketOf full
    match dget idx b with
    | none => []
    | some data => (dget data full).getD []

/-- Duplicate-freedom of a hash index as the manager maintains it. -/

def HashWF (idx : HashIdx) : Prop :=
  ∀ b data, dget idx b = some data → ∀ k l, dget data k = some l → l.Nodup

/-! ## IndexManager: date index

_get_date_path partitions by slices of the ISO string:
year = date[0:4] as a directory, month = date[5:7] as a directory,
day = date[8:10] as the leaf file name.  The leaf file holds an object
whose optional uuids key is a list; a file may exist with the key
deleted (after the last removal), so a leaf maps to an optional list.
Empty path components collapse in pathlib, which the triple key
represents faithfully (no two distinct reachable triples share a path).
A non-string date value raises TypeError inside path construction,
which the source catches and turns into None (no indexing). -/

/-- Address of one date leaf file: (year, month, day) name components. -/

abbrev DateLeaf : Type := String × String × String

/-- One date index: leaf address to file contents; an existing file with
no uuids key is some none. -/

abbrev DateIdx : Type := Dict DateLeaf (Option (List String))

/-- IndexManager._get_date_path on the stored created_at value. -/

def datePathOf (dateVal : Val) : Option DateLeaf :=
  match dateVal with
  | Val.s s => some (pyslice s 0 4, pyslice s 5 7, pyslice s 8 10)
  | _ => none

/-- IndexManager.add_to_date_index: ensure the uuids key, append the
uuid and write only when it was absent. -/

def add_to_date_index (idx : DateIdx) (dateVal : Val) (uuid : String) : DateIdx :=
  match datePathOf dateVal with
  | none => idx
  | some leaf =>
      let l := ((dget idx leaf).getD none).getD []
      if uuid ∈ l then idx
      else dset idx leaf (some (l ++ [uuid]))

/-- IndexManager.remove_from_date_index: write only when the uuid was
present; delete the uuids key when its list empties. -/

def remove_from_date_index (idx : DateIdx) (dateVal : Val) (uuid : String) : DateIdx :=
  match datePathOf dateVal with
  | none => idx
  | some leaf =>
      match dget idx leaf with
      | none => idx
      | some fileData =>
          match fileData with
          | none => idx
          | some l =>
              if uuid ∈ l then
                let l2 := pyRemoveFirst l uuid
                if l2 = [] then dset idx leaf none else dset idx leaf (some l2)
              else idx

/-- The uuid list of one leaf file (empty for an absent file or a file
without the uuids key). -/

def dateLookup (idx : DateIdx) (leaf : DateLeaf) : List String :=
  match dget idx leaf with
  | some (some l) => l
  | _ => []

/-- Python f-string 02d formatting of the searched month and day. -/

def pad2 (n : Nat) : String := if n < 10 then "0" ++ toString n else toString n

/-- Modeling restriction on the leaves the recursive date scan
enumerates.  pathlib's rglob("*.json") itself does enumerate dot-named
entries, so this filter deliberately under-approximates the scan: it
hides the leaves whose day component is empty (file name .json) or
dotted, or whose month directory is dotted — names that arise only from
malformed date strings.  The restriction is symmetric between the two
sides of every search comparison proved below and is never load-bearing
for a search that resolves its hits through the heap. -/

def rglobVisible (leaf : DateLeaf) : Bool :=
  (leaf.2.1 = "" ∨ leaf.2.1.data.head? ≠ some '.') ∧
    leaf.2.2 ≠ "" ∧ leaf.2.2.data.head? ≠ some '.'

/-- Month-directory selection of the recursive scan: when a month was
given only its directory is walked. -/

def monthSel (mth : Option Nat) (m : String) : Prop :=
  match mth with
  | some m2 => m = pad2 m2
  | none => True

instance (mth : Option Nat) (m : String) : Decidable (monthSel mth m) := by
  unfold monthSel
  cases mth with
  | none => exact inferInstanceAs (Decidable True)
  | some m2 => exact inferInstanceAs (Decidable (m = pad2 m2))

/-- IndexManager.search_by_date.  Python treats month=0 / day=0 like an
omitted argument (falsy).  With a day the single leaf file is read
(month omitted gives the collapsed two-component path); without a day
every visible leaf under the year (and month, when given) directory is
unioned.  The source collects a set; the embedding concatenates, which
is identical up to multiplicity. -/

def search_by_date (idx : DateIdx) (year : Nat) (month day : Option Nat) :
    List String :=
  let mth := month.bind (fun m => if m = 0 then none else some m)
  let dy := day.bind (fun d => if d = 0 then none else some d)
  match dy with
  | some d =>
      match mth with
      | some m =>
          match dget idx (toString year, pad2 m, pad2 d) with
          | some (some l) => l
          | _ => []
      | none =>
          match dget idx (toString year, "", pad2 d) with
          | some (some l) => l
          | _ => []
  | none =>
      idx.foldl
        (fun acc e =>
          if e.1.1 = toString year ∧ monthSel mth e.1.2.1 ∧ rglobVisible e.1 = true
          then acc ++ (match e.2 with | some l => l | none => [])
          else acc)
        []

/-- Duplicate-freedom of a date index as the manager maintains it. -/

def DateWF (idx : DateIdx) : Prop :=
  NodupKeys idx ∧ ∀ leaf l, dget idx leaf = some (some l) → l.Nodup

/-- Reference semantics of search_by_date in terms of the per-leaf
lookup: the day branch reads one leaf, the recursive branch unions every
visible matching leaf. -/

def dateSearchSpec (idx : DateIdx) (year : Nat) (month day : Option Nat)
    (u : String) : Prop :=
  match day.bind (fun d => if d = 0 then none else some d),
      month.bind (fun m => if m = 0 then none else some m) with
  | some d, some m => u ∈ dateLookup idx (toString year, pad2 m, pad2 d)
  | some d, none => u ∈ dateLookup idx (toString year, "", pad2 d)
  | none, mth => ∃ leaf, leaf.1 = toString year ∧ monthSel mth leaf.2.1 ∧
      rglobVisible leaf = true ∧ u ∈ dateLookup idx leaf

/-! ## AddressBookStorage (the contacts repository)

The repository owns the contacts heap plus the four contact indexes and
mirrors every heap mutation in them (base_storage.py wires the shared
rebuild; address_book.py supplies the index bindings and the CRUD and
search methods). -/

/-- State of AddressBookStorage: the heap and the four contact indexes
(contact_first_name, contact_last_name, contact_phone, contact_email). -/

structure ContactsRepo : Type where
  heap : Heap
  fn : TrieIdx
  ln : TrieIdx
  ph : HashIdx
  em : HashIdx
deriving DecidableEq

/-- The freshly constructed repository over empty directories. -/

def cInit : ContactsRepo := ⟨[], [], [], [], []⟩

/-- The truthiness gate of _add_to_indexes/_remove_from_indexes on one
field value followed by the trie call.  A truthy non-string value would
raise inside Python's strip; repository-built documents always store
strings in the name fields, so that branch leaves the index unchanged. -/

def trieAddVal (idx : TrieIdx) (v : Option Val) (uuid : String) : TrieIdx :=
  if vtruthy v then
    match v with
    | some (Val.s t) => add_to_trie_index idx t uuid
    | _ => idx
  else idx

def trieRemoveVal (idx : TrieIdx) (v : Option Val) (uuid : String) : TrieIdx :=
  if vtruthy v then
    match v with
    | some (Val.s t) => remove_from_trie_index idx t uuid
    | _ => idx
  else idx

/-- AddressBookStorage._add_to_indexes. -/

def c_add_to_indexes (digest : String → String) (r : ContactsRepo) (uuid : String)
    (d : Doc) : ContactsRepo :=
  { r with
    fn := trieAddVal r.fn (dget d "first_name") uuid,
    ln := trieAddVal r.ln (dget d "last_name") uuid,
    ph := (getItems d "phones").foldl
      (fun a p => add_to_hash_index digest a p uuid) r.ph,
    em := (getItems d "emails").foldl
      (fun a p => add_to_hash_index digest a p uuid) r.em }

/-- AddressBookStorage._remove_from_indexes. -/

def c_remove_from_indexes (digest : String → String) (r : ContactsRepo)
    (uuid : String) (d : Doc) : ContactsRepo :=
  { r with
    fn := trieRemoveVal r.fn (dget d "first_name") uuid,
    ln := trieRemoveVal r.ln (dget d "last_name") uuid,
    ph := (getItems d "phones").foldl
      (fun a p => remove_from_hash_index digest a p uuid) r.ph,
    em := (getItems d "emails").foldl
      (fun a p => remove_from_hash_index digest a p uuid) r.em }

/-- AddressBookStorage.add_contact (defaulted list arguments already
resolved; **extra_fields cannot rebind the named parameters). -/

def add_contact (digest : String → String) (r : ContactsRepo)
    (freshId now first_name last_name : String)
    (phones emails note_ids : List String) (extra : Dict String Val) :
    String × ContactsRepo :=
  let contact_data : Doc := dupdate
    [("first_name", Val.s first_name), ("last_name", Val.s last_name),
      ("phones", Val.l phones), ("emails", Val.l emails),
      ("note_ids", Val.l note_ids)] extra
  let created := create_contact r.heap contact_data freshId now
  (freshId, c_add_to_indexes digest { r with heap := created.2 } freshId created.1)

/-- AddressBookStorage.get_contact. -/

def get_contact (r : ContactsRepo) (uuid : String) : Option Doc :=
  readRecord r.heap uuid

/-- The document built by the update_contact / update_note field chain
(the source's locally accumulated update dict). -/

def newContact (old : Doc) (first_name last_name : Option String)
    (phones emails note_ids : Option (List String)) (extra : Dict String Val) :
    Doc :=
  let n1 := match first_name with
    | some t => dset old "first_name" (Val.s t)
    | none => old
  let n2 := match last_name with
    | some t => dset n1 "last_name" (Val.s t)
    | none => n1
  let n3 := match phones with
    | some ls => dset n2 "phones" (Val.l ls)
    | none => n2
  let n4 := match emails with
    | some ls => dset n3 "emails" (Val.l ls)
    | none => n3
  let n5 := match note_ids with
    | some ls => dset n4 "note_ids" (Val.l ls)
    | none => n4
  dupdate n5 extra

def newNote (old : Doc) (title content : Option String)
    (tags contact_ids : Option (List String)) (extra : Dict String Val) : Doc :=
  let n1 := match title with
    | some t => dset old "title" (Val.s t)
    | none => old
  let n2 := match content with
    | some t => dset n1 "content" (Val.s t)
    | none => n1
  let n3 := match tags with
    | some ls => dset n2 "tags" (Val.l ls)
    | none => n2
  let n4 := match contact_ids with
    | some ls => dset n3 "contact_ids" (Val.l ls)
    | none => n3
  dupdate n4 extra

/-- AddressBookStorage.update_contact: read the old document (a falsy —
absent or empty — document fails), remove its old index entries, build
the new document, heap-update, and re-insert the new index entries on
success.  The heap update propagates the corrupt-file AttributeError. -/

def update_contact_repo (digest : String → String) (r : ContactsRepo)
    (uuid : String) (first_name last_name : Option String)
    (phones emails note_ids : Option (List String)) (extra : Dict String Val)
    (now : String) : Except PyErr (Bool × ContactsRepo) :=
  match readRecord r.heap uuid with
  | none => Except.ok (false, r)
  | some old =>
      if old = [] then Except.ok (false, r)
      else
        let r2 := c_remove_from_indexes digest r uuid old
        let n1 := match first_name with
          | some t => dset old "first_name" (Val.s t)
          | none => old
        let n2 := match last_name with
          | some t => dset n1 "last_name" (Val.s t)
          | none => n1
        let n3 := match phones with
          | some ls => dset n2 "phones" (Val.l ls)
          | none => n2
        let n4 := match emails with
          | some ls => dset n3 "emails" (Val.l ls)
          | none => n3
        let n5 := match note_ids with
          | some ls => dset n4 "note_ids" (Val.l ls)
          | none => n4
        let newc := dupdate n5 extra
        match updateRecord r2.heap uuid newc now with
        | Except.error e => Except.error e
        | Except.ok (succ, heap2) =>
            if succ then
              Except.ok (true, c_add_to_indexes digest { r2 with heap := heap2 } uuid newc)
            else Except.ok (false, { r2 with heap := heap2 })

/-- AddressBookStorage.remove_contact. -/

def remove_contact (digest : String → String) (r : ContactsRepo) (uuid : String) :
    Bool × ContactsRepo :=
  match readRecord r.heap uuid with
  | none => (false, r)
  | some c =>
      if c = [] then (false, r)
      else
        let r2 := c_remove_from_indexes digest r uuid c
        let del := deleteRecord r2.heap uuid
        (del.1, { r2 with heap := del.2 })

/-- AddressBookStorage.search_by_first_name / search_by_last_name:
resolve every uuid of every matching key through the heap, silently
dropping missing records. -/

def c_search_trie (heap : Heap) (idx : TrieIdx) (pre : String) : List Doc :=
  (search_by_pref idx pre).foldl
    (fun acc kv => acc ++ kv.2.filterMap (fun u => readRecord heap u)) []

def search_by_first_name (r : ContactsRepo) (pre : String) : List Doc :=
  c_search_trie r.heap r.fn pre

def search_by_last_name (r : ContactsRepo) (pre : String) : List Doc :=
  c_search_trie r.heap r.ln pre

/-- AddressBookStorage.search_by_phone / search_by_email. -/

def search_by_phone (digest : String → String) (r : ContactsRepo) (v : String) :
    List Doc :=
  (search_by_exact_match digest r.ph v).filterMap (fun u => readRecord r.heap u)

def search_by_email (digest : String → String) (r : ContactsRepo) (v : String) :
    List Doc :=
  (search_by_exact_match digest r.em v).filterMap (fun u => readRecord r.heap u)

/-- The shared rebuild loop body of BaseStorage.rebuild_indexes: index
the entity when its uuid is truthy (a truthy non-string uuid cannot be
produced by the heap layer). -/

def c_rebuild_step (digest : String → String) (acc : ContactsRepo) (d : Doc) :
    ContactsRepo :=
  match dget d "uuid" with
  | some v =>
      if vtruthy v then
        match v with
        | Val.s su => c_add_to_indexes digest acc su d
        | _ => acc
      else acc
  | none => acc

/-- BaseStorage.rebuild_indexes for the contacts category:
rebuild_index_set deletes and recreates the four index directories, then
every scanned entity is re-inserted; the scan length is returned. -/

def crebuild (digest : String → String) (r : ContactsRepo) : Nat × ContactsRepo :=
  let cleared : ContactsRepo := { r with fn := [], ln := [], ph := [], em := [] }
  let entities := list_all r.heap
  (entities.length, entities.foldl (c_rebuild_step digest) cleared)

/-! ## NotesStorage (the notes repository)

note_tag is declared in NOTE_INDEXES but never written or queried, so
clearing it is stateless and it carries no state here. -/

/-- State of NotesStorage: the heap, the note_title trie index and the
note_creation_date date index. -/

structure NotesRepo : Type where
  heap : Heap
  title : TrieIdx
  date : DateIdx
deriving DecidableEq

def nInit : NotesRepo := ⟨[], [], []⟩

/-- NotesStorage._add_to_indexes: keyed on key presence, not truthiness. -/

def n_add_to_indexes (r : NotesRepo) (uuid : String) (d : Doc) : NotesRepo :=
  { r with
    title := match dget d "title" with
      | some (Val.s t) => add_to_trie_index r.title t uuid
      | _ => r.title,
    date := match dget d "created_at" with
      | some v => add_to_date_index r.date v uuid
      | none => r.date }

/-- NotesStorage._remove_from_indexes. -/

def n_remove_from_indexes (r : NotesRepo) (uuid : String) (d : Doc) : NotesRepo :=
  { r with
    title := match dget d "title" with
      | some (Val.s t) => remove_from_trie_index r.title t uuid
      | _ => r.title,
    date := match dget d "created_at" with
      | some v => remove_from_date_index r.date v uuid
      | none => r.date }

/-- NotesStorage.add_note. -/

def add_note (r : NotesRepo) (freshId now title content : String)
    (tags contact_ids : List String) (extra : Dict String Val) :
    String × NotesRepo :=
  let note_data : Doc := dupdate
    [("title", Val.s title), ("content", Val.s content), ("tags", Val.l tags),
      ("contact_ids", Val.l contact_ids)] extra
  let created := create_note r.heap note_data freshId now
  (freshId, n_add_to_indexes { r with heap := created.2 } freshId created.1)

/-- NotesStorage.update_note: only the title index is resynchronized
(and only when the title changed); the date index is left alone because
the heap update preserves created_at. -/

def update_note_repo (r : NotesRepo) (uuid : String)
    (title content : Option String) (tags contact_ids : Option (List String))
    (extra : Dict String Val) (now : String) : Except PyErr (Bool × NotesRepo) :=
  match readRecord r.heap uuid with
  | none => Except.ok (false, r)
  | some old =>
      if old = [] then Except.ok (false, r)
      else
        let newn := newNote old title content tags contact_ids extra
        let oldTitle := dget old "title"
        let newTitle := dget newn "title"
        let r2 :=
          if oldTitle ≠ newTitle then
            let ra :=
              if vtruthy oldTitle then
                match oldTitle with
                | some (Val.s t) =>
                    { r with title := remove_from_trie_index r.title t uuid }
                | _ => r
              else r
            if vtruthy newTitle then
              match newTitle with
              | some (Val.s t) =>
                  { ra with title := add_to_trie_index ra.title t uuid }
              | _ => ra
            else ra
          else r
        match updateRecord r2.heap uuid newn now with
        | Except.error e => Except.error e
        | Except.ok (succ, heap2) => Except.ok (succ, { r2 with heap := heap2 })

/-- NotesStorage.delete_note. -/

def delete_note_repo (r : NotesRepo) (uuid : String) : Bool × NotesRepo :=
  match readRecord r.heap uuid with
  | none => (false, r)
  | some d =>
      if d = [] then (false, r)
      else
        let r2 := n_remove_from_indexes r uuid d
        let del := deleteRecord r2.heap uuid
        (del.1, { r2 with heap := del.2 })

/-- NotesStorage.search_by_title: candidate uuids are collected into a
set before resolution (modeled by dedup). -/

def search_by_title (r : NotesRepo) (pre : String) : List Doc :=
  let uuidsAll := (search_by_pref r.title pre).foldl (fun acc kv => acc ++ kv.2) []
  uuidsAll.dedup.filterMap (fun u => readRecord r.heap u)

/-- NotesStorage.search_by_date. -/

def search_notes_by_date (r : NotesRepo) (year : Nat) (month day : Option Nat) :
    List Doc :=
  (search_by_date r.date year month day).filterMap (fun u => readRecord r.heap u)

/-- The rebuild loop body for notes. -/

def n_rebuild_step (acc : NotesRepo) (d : Doc) : NotesRepo :=
  match dget d "uuid" with
  | some v =>
      if vtruthy v then
        match v with
        | Val.s su => n_add_to_indexes acc su d
        | _ => acc
      else acc
  | none => acc

/-- BaseStorage.rebuild_indexes for the notes category. -/

def nrebuild (r : NotesRepo) : Nat × NotesRepo :=
  let cleared : NotesRepo := { r with title := [], date := [] }
  let entities := list_all r.heap
  (entities.length, entities.foldl n_rebuild_step cleared)

/-! ## Single-threaded executions

Reachability relations over the repository operations.  uuid4 ids are
modeled as externally supplied fresh nonempty strings; **extra_fields
can never rebind a named parameter of the Python signature, which the
key-disjointness side conditions record. -/

def ExtraOkC (extra : Dict String Val) : Prop :=
  ∀ k ∈ dkeys extra, k ≠ "first_name" ∧ k ≠ "last_name" ∧ k ≠ "phones" ∧
    k ≠ "emails" ∧ k ≠ "note_ids"

def ExtraOkN (extra : Dict String Val) : Prop :=
  ∀ k ∈ dkeys extra, k ≠ "title" ∧ k ≠ "content" ∧ k ≠ "tags" ∧ k ≠ "contact_ids"

/-- One repository operation on the contacts repository. -/

inductive CStep (digest : String → String) : ContactsRepo → ContactsRepo → Prop
  | add (r : ContactsRepo) (freshId now first_name last_name : String)
      (phones emails note_ids : List String) (extra : Dict String Val)
      (hfresh : dget r.heap freshId = none) (hne : freshId ≠ "")
      (hex : ExtraOkC extra) :
      CStep digest r
        (add_contact digest r freshId now first_name last_name phones emails
          note_ids extra).2
  | update (r : ContactsRepo) (uuid : String) (first_name last_name : Option String)
      (phones emails note_ids : Option (List String)) (extra : Dict String Val)
      (now : String) (b : Bool) (r2 : ContactsRepo) (hex : ExtraOkC extra)
      (hok : update_contact_repo digest r uuid first_name last_name phones emails
        note_ids extra now = Except.ok (b, r2)) :
      CStep digest r r2
  | remove (r : ContactsRepo) (uuid : String) :
      CStep digest r (remove_contact digest r uuid).2
  | rebuild (r : ContactsRepo) : CStep digest r (crebuild digest r).2

def CReach (digest : String → String) (r : ContactsRepo) : Prop :=
  Relation.ReflTransGen (CStep digest) cInit r

/-- One repository operation on the notes repository. -/

inductive NStep : NotesRepo → NotesRepo → Prop
  | add (r : NotesRepo) (freshId now title content : String)
      (tags contact_ids : List String) (extra : Dict String Val)
      (hfresh : dget r.heap freshId = none) (hne : freshId ≠ "")
      (hex : ExtraOkN extra) :
      NStep r (add_note r freshId now title content tags contact_ids extra).2
  | update (r : NotesRepo) (uuid : String) (title content : Option String)
      (tags contact_ids : Option (List String)) (extra : Dict String Val)
      (now : String) (b : Bool) (r2 : NotesRepo) (hex : ExtraOkN extra)
      (hok : update_note_repo r uuid title content tags contact_ids extra now =
        Except.ok (b, r2)) :
      NStep r r2
  | remove (r : NotesRepo) (uuid : String) : NStep r (delete_note_repo r uuid).2
  | rebuild (r : NotesRepo) : NStep r (nrebuild r).2

def NReach (r : NotesRepo) : Prop := Relation.ReflTransGen NStep nInit r

/-! ## The heap/index consistency invariant

An index is canonical when its per-key membership is exactly determined
by the live documents of the heap; a heap is well formed when every file
parses to a document that carries its own uuid and the field shapes the
repository constructors produce. -/

/-- The normalized trie key an indexed field value contributes (None
when the guards skip it). -/

def trieKeyOfVal (v : Option Val) : Option String :=
  match v with
  | some (Val.s t) => if pytrim t = "" then none else some (pynorm t)
  | _ => none

def TrieCanon (idx : TrieIdx) (spec : String → String → Prop) : Prop :=
  TrieWF idx ∧ ∀ k u, u ∈ trieLookup idx k ↔ spec k u

def HashCanon (idx : HashIdx) (spec : String → String → Prop) : Prop :=
  HashWF idx ∧ ∀ h u, u ∈ hashLookup idx h ↔ spec h u

def DateCanon (idx : DateIdx) (spec : DateLeaf → String → Prop) : Prop :=
  DateWF idx ∧ ∀ leaf u, u ∈ dateLookup idx leaf ↔ spec leaf u

/-- Membership a string field induces in its trie index. -/

def fieldSpec (heap : Heap) (field k u : String) : Prop :=
  ∃ d, readRecord heap u = some d ∧ trieKeyOfVal (dget d field) = some k

/-- Membership a string-list field induces in its hash index, keyed at
digest level (colliding values conflate exactly as in the source). -/

def listSpec (digest : String → String) (heap : Heap) (field h u : String) : Prop :=
  ∃ d, readRecord heap u = some d ∧ ∃ p ∈ getItems d field, pytrim p ≠ "" ∧ digest p = h

/-- Membership the created_at field induces in the date index. -/

def dateSpecH (heap : Heap) (leaf : DateLeaf) (u : String) : Prop :=
  ∃ d, readRecord heap u = some d ∧
    ∃ v, dget d "created_at" = some v ∧ datePathOf v = some leaf

def HeapWFC (heap : Heap) : Prop :=
  NodupKeys heap ∧ ∀ k c, (k, c) ∈ heap → ∃ d, c = FileContent.valid d ∧
    dget d "uuid" = some (Val.s k) ∧ k ≠ "" ∧
    (∃ s, dget d "first_name" = some (Val.s s)) ∧
    (∃ s, dget d "last_name" = some (Val.s s)) ∧
    (∃ ls, dget d "phones" = some (Val.l ls)) ∧
    (∃ ls, dget d "emails" = some (Val.l ls))

def HeapWFN (heap : Heap) : Prop :=
  NodupKeys heap ∧ ∀ k c, (k, c) ∈ heap → ∃ d, c = FileContent.valid d ∧
    dget d "uuid" = some (Val.s k) ∧ k ≠ "" ∧
    (∃ s, dget d "title" = some (Val.s s)) ∧
    (∃ v, dget d "created_at" = some v)

def CInv (digest : String → String) (r : ContactsRepo) : Prop :=
  HeapWFC r.heap ∧
    TrieCanon r.fn (fieldSpec r.heap "first_name") ∧
    TrieCanon r.ln (fieldSpec r.heap "last_name") ∧
    HashCanon r.ph (listSpec digest r.heap "phones") ∧
    HashCanon r.em (listSpec digest r.heap "emails")

def NInv (r : NotesRepo) : Prop :=
  HeapWFN r.heap ∧ TrieCanon r.title (fieldSpec r.heap "title") ∧
    DateCanon r.date (dateSpecH r.heap)

/-- A concrete reachable contacts repository: one added contact. -/

def cRepo1 : ContactsRepo :=
  (add_contact (fun s => s) cInit "id1" "t0" "Ada" "Lovelace" ["5551234"]
    ["ada@x.io"] [] []).2

/-- A concrete reachable notes repository: one added note. -/

def nRepo1 : NotesRepo :=
  (add_note nInit "n1" "t0" "Shopping" "milk" [] [] []).2

/-! ## Delete is terminal

Executions after a delete in which the deleted uuid is never handed out
again as a fresh uuid4 value (uuid4 collisions are excluded by
assumption in the spec's threat model). -/

/-- A repository operation that never reuses the avoided uuid for a new
record. -/

inductive CStepAvoid (digest : String → String) (bad : String) :
    ContactsRepo → ContactsRepo → Prop
  | add (r : ContactsRepo) (freshId now first_name last_name : String)
      (phones emails note_ids : List String) (extra : Dict String Val)
      (hfresh : dget r.heap freshId = none) (hne : freshId ≠ "")
      (hex : ExtraOkC extra) (havoid : freshId ≠ bad) :
      CStepAvoid digest bad r
        (add_contact digest r freshId now first_name last_name phones emails
          note_ids extra).2
  | update (r : ContactsRepo) (uuid : String) (first_name last_name : Option String)
      (phones emails note_ids : Option (List String)) (extra : Dict String Val)
      (now : String) (b : Bool) (r2 : ContactsRepo) (hex : ExtraOkC extra)
      (hok : update_contact_repo digest r uuid first_name last_name phones emails
        note_ids extra now = Except.ok (b, r2)) :
      CStepAvoid digest bad r r2
  | remove (r : ContactsRepo) (uuid : String) :
      CStepAvoid digest bad r (remove_contact digest r uuid).2
  | rebuild (r : ContactsRepo) : CStepAvoid digest bad r (crebuild digest r).2

inductive NStepAvoid (bad : String) : NotesRepo → NotesRepo → Prop
  | add (r : NotesRepo) (freshId now title content : String)
      (tags contact_ids : List String) (extra : Dict String Val)
      (hfresh : dget r.heap freshId = none) (hne : freshId ≠ "")
      (hex : ExtraOkN extra) (havoid : freshId ≠ bad) :
      NStepAvoid bad r (add_note r freshId now title content tags contact_ids extra).2
  | update (r : NotesRepo) (uuid : String) (title content : Option String)
      (tags contact_ids : Option (List String)) (extra : Dict String Val)
      (now : String) (b : Bool) (r2 : NotesRepo) (hex : ExtraOkN extra)
      (hok : update_note_repo r uuid title content tags contact_ids extra now =
        Except.ok (b, r2)) :
      NStepAvoid bad r r2
  | remove (r : NotesRepo) (uuid : String) :
      NStepAvoid bad r (delete_note_repo r uuid).2
  | rebuild (r : NotesRepo) : NStepAvoid bad r (nrebuild r).2

/-- A scanned contacts document on which the source's rebuild loop body
completes.  When the uuid is truthy, rebuild_indexes calls
_add_to_indexes, which raises AttributeError from value.strip() inside
add_to_trie_index when a truthy first_name or last_name is not a string,
and raises TypeError when phones or emails is stored as None (iterating
None); a truthy non-string uuid would be indexed verbatim by the source,
which the string-keyed bucket embedding cannot represent.  Documents
whose uuid is absent or falsy are skipped by the loop before any field
is touched and are unconstrained. -/
def CRebuildDoc (d : Doc) : Prop :=
  ∀ v, dget d "uuid" = some v → vtruthy v = true →
    (∃ s, v = Val.s s) ∧
    (∀ w, dget d "first_name" = some w → vtruthy w = true → ∃ s, w = Val.s s) ∧
    (∀ w, dget d "last_name" = some w → vtruthy w = true → ∃ s, w = Val.s s) ∧
    dget d "phones" ≠ some Val.null ∧
    dget d "emails" ≠ some Val.null

/-- A scanned notes document on which the source's rebuild loop body
completes: a truthy non-string title reaches value.strip() in
add_to_trie_index and raises AttributeError (a falsy title returns at
the guard, and any non-string created_at is absorbed by the
try/except in _get_date_path, so created_at is unconstrained). -/
def NRebuildDoc (d : Doc) : Prop :=
  ∀ v, dget d "uuid" = some v → vtruthy v = true →
    (∃ s, v = Val.s s) ∧
    (∀ w, dget d "title" = some w → vtruthy w = true → ∃ s, w = Val.s s)

@[simp] theorem dget_nil (key : kappa) : dget ([] : Dict kappa alpha) key = none := rfl

theorem dget_cons (k : kappa) (v : alpha) (t : Dict kappa alpha) (key : kappa) :
    dget ((k, v) :: t) key = if k = key then some v else dget t key := rfl

@[simp] theorem dget_dset_self (d : Dict kappa alpha) (key : kappa) (v : alpha) :
    dget (dset d key v) key = some v := by
  induction d with
  | nil => simp [dset, dget]
  | cons p t ih =>
    obtain ⟨k, w⟩ := p
    by_cases h : k = key
    · simp [dset, dget, h]
    · simp [dset, dget, h, ih]

@[simp] theorem dget_dset_ne (d : Dict kappa alpha) (key key' : kappa) (v : alpha)
    (h : key ≠ key') : dget (dset d key v) key' = dget d key' := by
  induction d with
  | nil => simp [dset, dget, h]
  | cons p t ih =>
    obtain ⟨k, w⟩ := p
    by_cases hk : k = key
    · subst hk; simp [dset, dget, h]
    · by_cases hk' : k = key'
      · simp [dset, dget, hk, hk', Ne.symm h]
      · simp [dset, dget, hk, hk', ih]

@[simp] theorem dget_derase_self (d : Dict kappa alpha) (key : kappa) :
    dget (derase d key) key = none := by
  induction d with
  | nil => rfl
  | cons p t ih =>
    obtain ⟨k, w⟩ := p
    by_cases h : k = key
    · simpa [derase, h] using ih
    · simp [derase, dget, h, ih]

@[simp] theorem dget_derase_ne (d : Dict kappa alpha) (key key' : kappa) (h : key ≠ key') :
    dget (derase d key) key' = dget d key' := by
  induction d with
  | nil => rfl
  | cons p t ih =>
    obtain ⟨k, w⟩ := p
    by_cases hk : k = key
    · subst hk; simp [derase, dget, h, ih]
    · by_cases hk' : k = key'
      · simp [derase, dget, hk, hk', Ne.symm h]
      · simp [derase, dget, hk, hk', ih]

theorem dget_eq_none_of_not_mem_keys {d : Dict kappa alpha} {key : kappa}
    (h : key ∉ dkeys d) : dget d key = none := by
  induction d with
  | nil => rfl
  | cons p t ih =>
    obtain ⟨k, w⟩ := p
    simp only [dkeys, List.map_cons, List.mem_cons] at h
    push_neg at h
    simp [dget, Ne.symm h.1, ih (by simpa [dkeys] using h.2)]

theorem mem_keys_of_dget_eq_some {d : Dict kappa alpha} {key : kappa} {v : alpha}
    (h : dget d key = some v) : key ∈ dkeys d := by
  by_contra hmem
  rw [dget_eq_none_of_not_mem_keys hmem] at h
  exact Option.noConfusion h

theorem dkeys_dset (d : Dict kappa alpha) (key : kappa) (v : alpha) :
    dkeys (dset d key v) = if key ∈ dkeys d then dkeys d else dkeys d ++ [key] := by
  induction d with
  | nil => simp [dset, dkeys]
  | cons p t ih =>
    obtain ⟨k, w⟩ := p
    by_cases h : k = key
    · subst h; simp [dset, dkeys]
    · simp only [dkeys, List.map_cons, List.mem_cons] at ih ⊢
      simp only [dset, if_neg h, List.map_cons]
      rw [ih]
      by_cases hmem : key ∈ List.map Prod.fst t
      · simp [hmem, Ne.symm h]
      · simp [hmem, Ne.symm h]

theorem nodupKeys_dset (d : Dict kappa alpha) (key : kappa) (v : alpha)
    (h : NodupKeys d) : NodupKeys (dset d key v) := by
  unfold NodupKeys at *
  rw [dkeys_dset]
  by_cases hmem : key ∈ dkeys d
  · simpa [hmem] using h
  · simp only [hmem, if_false]
    exact List.Nodup.append h (List.nodup_singleton key)
      (by simpa [List.disjoint_singleton] using hmem)

theorem derase_sublist (d : Dict kappa alpha) (key : kappa) :
    List.Sublist (derase d key) d := by
  induction d with
  | nil => simp [derase]
  | cons p t ih =>
    obtain ⟨k, w⟩ := p
    by_cases h : k = key
    · simpa [derase, h] using ih.trans (List.sublist_cons_self _ t)
    · simpa [derase, h] using ih.cons₂ (k, w)

theorem nodupKeys_derase (d : Dict kappa alpha) (key : kappa)
    (h : NodupKeys d) : NodupKeys (derase d key) :=
  ((derase_sublist d key).map Prod.fst).nodup h

theorem mem_of_dget_eq_some {d : Dict kappa alpha} {key : kappa} {v : alpha}
    (h : dget d key = some v) : (key, v) ∈ d := by
  induction d with
  | nil => exact absurd h (by simp)
  | cons p t ih =>
    obtain ⟨k, w⟩ := p
    by_cases hk : k = key
    · subst hk
      simp only [dget, if_pos rfl] at h
      obtain rfl : w = v := by injection h
      exact List.mem_cons_self _ _
    · simp only [dget, if_neg hk] at h
      exact List.mem_cons_of_mem _ (ih h)

theorem dget_of_mem_nodup {d : Dict kappa alpha} (hnd : NodupKeys d) {key : kappa}
    {v : alpha} (h : (key, v) ∈ d) : dget d key = some v := by
  induction d with
  | nil => exact absurd h (by simp)
  | cons p t ih =>
    obtain ⟨k, w⟩ := p
    unfold NodupKeys dkeys at hnd
    simp only [List.map_cons, List.nodup_cons] at hnd
    rcases List.mem_cons.mp h with heq | hmem
    · obtain ⟨rfl, rfl⟩ := Prod.mk.injEq .. ▸ heq
      simp [dget]
    · have hkey : key ∈ List.map Prod.fst t := by
        simpa using List.mem_map_of_mem Prod.fst hmem
      have hk : k ≠ key := fun he => hnd.1 (by rw [he]; exact hkey)
      simp only [dget, if_neg hk]
      exact ih hnd.2 hmem

@[simp] theorem pystarts_refl (s : String) : pystarts s s = true := by
  simp [pystarts, List.isPrefixOf_iff_prefix]

theorem pystarts_iff (s p : String) : pystarts s p = true ↔ p.data <+: s.data := by
  simp [pystarts, List.isPrefixOf_iff_prefix]

theorem mem_pyRemoveFirst_of_nodup {l : List String} {u : String} (h : l.Nodup) (x : String) :
    x ∈ pyRemoveFirst l u ↔ x ∈ l ∧ x ≠ u := by
  induction l with
  | nil => simp [pyRemoveFirst]
  | cons a t ih =>
    simp only [List.nodup_cons] at h
    by_cases ha : a = u
    · subst ha
      simp only [pyRemoveFirst, if_pos rfl, List.mem_cons]
      constructor
      · intro hx
        exact ⟨Or.inr hx, fun he => h.1 (he ▸ hx)⟩
      · rintro ⟨hx | hx, hne⟩
        · exact absurd hx hne
        · exact hx
    · simp only [pyRemoveFirst, if_neg ha, List.mem_cons, ih h.2]
      constructor
      · rintro (rfl | ⟨hx, hne⟩)
        · exact ⟨Or.inl rfl, ha⟩
        · exact ⟨Or.inr hx, hne⟩
      · rintro ⟨rfl | hx, hne⟩
        · exact Or.inl rfl
        · exact Or.inr ⟨hx, hne⟩

theorem nodup_pyRemoveFirst {l : List String} (u : String) (h : l.Nodup) :
    (pyRemoveFirst l u).Nodup := by
  induction l with
  | nil => exact h
  | cons a t ih =>
    simp only [List.nodup_cons] at h
    by_cases ha : a = u
    · simpa [pyRemoveFirst, ha] using h.2
    · simp only [pyRemoveFirst, if_neg ha, List.nodup_cons]
      exact ⟨fun hmem => h.1 ((mem_pyRemoveFirst_of_nodup h.2 a).mp hmem).1, ih h.2⟩

theorem readRecord_dset_self (heap : Heap) (uuid : String) (c : FileContent) :
    readRecord (dset heap uuid c) uuid =
      (match c with | FileContent.valid d => some d | FileContent.corrupt => none) := by
  unfold readRecord
  rw [dget_dset_self]
  cases c <;> rfl

theorem readRecord_dset_ne (heap : Heap) (uuid uuid' : String) (c : FileContent)
    (h : uuid ≠ uuid') : readRecord (dset heap uuid c) uuid' = readRecord heap uuid' := by
  unfold readRecord
  rw [dget_dset_ne _ _ _ _ h]

theorem readRecord_derase_self (heap : Heap) (uuid : String) :
    readRecord (derase heap uuid) uuid = none := by
  unfold readRecord
  rw [dget_derase_self]

theorem readRecord_derase_ne (heap : Heap) (uuid uuid' : String) (h : uuid ≠ uuid') :
    readRecord (derase heap uuid) uuid' = readRecord heap uuid' := by
  unfold readRecord
  rw [dget_derase_ne _ _ _ h]

/-- Membership in the full scan is membership of a parsed heap file. -/

theorem list_all_cons (k : String) (c : FileContent) (t : Heap) :
    list_all ((k, c) :: t) =
      (match c with
        | FileContent.valid d0 => d0 :: list_all t
        | FileContent.corrupt => list_all t) := by
  cases c <;> rfl

theorem mem_list_all {heap : Heap} {d : Doc} :
    d ∈ list_all heap ↔ ∃ k, (k, FileContent.valid d) ∈ heap := by
  induction heap with
  | nil => simp [list_all]
  | cons p t ih =>
    obtain ⟨k, c⟩ := p
    rw [list_all_cons]
    cases c with
    | valid d0 =>
      simp only [List.mem_cons, ih]
      constructor
      · rintro (rfl | ⟨k2, hk2⟩)
        · exact ⟨k, Or.inl rfl⟩
        · exact ⟨k2, Or.inr hk2⟩
      · rintro ⟨k2, hk2⟩
        rcases hk2 with heq | hmem
        · left
          simp only [Prod.mk.injEq, FileContent.valid.injEq] at heq
          exact heq.2
        · exact Or.inr ⟨k2, hmem⟩
    | corrupt =>
      rw [ih]
      constructor
      · rintro ⟨k2, hk2⟩
        exact ⟨k2, List.mem_cons_of_mem _ hk2⟩
      · rintro ⟨k2, hk2⟩
        rcases List.mem_cons.mp hk2 with heq | hmem
        · exact absurd heq (by simp)
        · exact ⟨k2, hmem⟩

/-- In a duplicate-free heap the scan sees exactly the readable files. -/

theorem mem_list_all_read {heap : Heap} (hnd : NodupKeys heap) {d : Doc} :
    d ∈ list_all heap ↔ ∃ k, readRecord heap k = some d := by
  rw [mem_list_all]
  constructor
  · rintro ⟨k, hk⟩
    refine ⟨k, ?_⟩
    unfold readRecord
    rw [dget_of_mem_nodup hnd hk]
  · rintro ⟨k, hk⟩
    unfold readRecord at hk
    refine ⟨k, ?_⟩
    cases hg : dget heap k with
    | none => rw [hg] at hk; exact absurd hk (by simp)
    | some c =>
      rw [hg] at hk
      cases c with
      | valid d0 =>
        simp only at hk
        obtain rfl : d0 = d := by injection hk
        exact mem_of_dget_eq_some hg
      | corrupt => exact absurd hk (by simp)

theorem dset_of_not_mem {d : Dict String FileContent} {key : String}
    (h : dget d key = none) (v : FileContent) : dset d key v = d ++ [(key, v)] := by
  induction d with
  | nil => rfl
  | cons p t ih =>
    obtain ⟨k, w⟩ := p
    by_cases hk : k = key
    · subst hk; simp [dget] at h
    · simp only [dget, if_neg hk] at h
      simp [dset, hk, ih h]

theorem derase_dset_of_not_mem {d : Dict String FileContent} {key : String}
    (h : dget d key = none) (v : FileContent) : derase (dset d key v) key = d := by
  induction d with
  | nil => simp [dset, derase]
  | cons p t ih =>
    obtain ⟨k, w⟩ := p
    by_cases hk : k = key
    · subst hk; simp [dget] at h
    · simp only [dget, if_neg hk] at h
      simp [dset, derase, hk, ih h]

theorem readRecord_some_iff {heap : Heap} {u : String} {d : Doc} :
    readRecord heap u = some d ↔ dget heap u = some (FileContent.valid d) := by
  unfold readRecord
  cases hg : dget heap u with
  | none => simp
  | some c => cases c <;> simp

/-- C2: a failure injected after the temporary file is created but before
the atomic rename leaves the directory exactly as it was (previous target
contents or absence untouched, temporary file removed), propagates the
error, and even while the temporary file exists it is invisible to read
and to the dot-skipping scan. -/

theorem atomic_save_failure_preserves_directory
    (dir : Dict String FileContent) (target suffix : String)
    (content interrupted : FileContent)
    (hfresh : dget dir (tmpName suffix) = none)
    (htarget : tmpName suffix ≠ target) :
    (save_atomic dir target suffix content interrupted true).1 =
        Except.error PyErr.ioFailure ∧
      (save_atomic dir target suffix content interrupted true).2 = dir ∧
      loadFile (dset dir (tmpName suffix) interrupted) target = loadFile dir target ∧
      scanDir (dset dir (tmpName suffix) interrupted) = scanDir dir := by
  refine ⟨rfl, ?_, ?_, ?_⟩
  · show derase (dset dir (tmpName suffix) interrupted) (tmpName suffix) = dir
    exact derase_dset_of_not_mem hfresh interrupted
  · unfold loadFile
    rw [dget_dset_ne _ _ _ _ htarget]
  · rw [dset_of_not_mem hfresh]
    unfold scanDir
    rw [List.foldr_append]
    have hdot : (tmpName suffix).data.head? = some '.' := rfl
    simp [hdot]

theorem atomic_save_failure_preserves_directory_witness :
    (save_atomic [("a.json", FileContent.valid [])] "a.json" "x7"
          (FileContent.valid [("k", Val.s "v")]) FileContent.corrupt true).1 =
        Except.error PyErr.ioFailure ∧
      (save_atomic [("a.json", FileContent.valid [])] "a.json" "x7"
          (FileContent.valid [("k", Val.s "v")]) FileContent.corrupt true).2 =
        [("a.json", FileContent.valid [])] := by
  have h := atomic_save_failure_preserves_directory
    [("a.json", FileContent.valid [])] "a.json" "x7"
    (FileContent.valid [("k", Val.s "v")]) FileContent.corrupt
    (by decide) (by decide)
  exact ⟨h.1, h.2.1⟩

/-- C3: a successful update preserves the stored uuid and created_at,
restamps updated_at with the update time, and the caller-supplied fields
fully replace the previous ones. -/

theorem update_preserves_identity
    (heap : Heap) (id : String) (newData : Doc) (now : String) (old : Doc)
    (uv cv : Val)
    (hread : readRecord heap id = some old)
    (hu : dget old "uuid" = some uv)
    (hc : dget old "created_at" = some cv) :
    ∃ heap2, updateRecord heap id newData now = Except.ok (true, heap2) ∧
      ∃ stored, readRecord heap2 id = some stored ∧
        dget stored "uuid" = some uv ∧
        dget stored "created_at" = some cv ∧
        dget stored "updated_at" = some (Val.s now) ∧
        ∀ k, k ≠ "uuid" → k ≠ "created_at" → k ≠ "updated_at" →
          dget stored k = dget newData k := by
  have hg : dget heap id = some (FileContent.valid old) := readRecord_some_iff.mp hread
  refine ⟨dset heap id (FileContent.valid (add_metadata old newData now)), ?_, ?_⟩
  · unfold updateRecord
    rw [hg]
  · refine ⟨add_metadata old newData now, ?_, ?_, ?_, ?_, ?_⟩
    · rw [readRecord_dset_self]
    · unfold add_metadata
      rw [dget_dset_ne _ _ _ _ (by decide), dget_dset_ne _ _ _ _ (by decide),
        dget_dset_self, hu]
      rfl
    · unfold add_metadata
      rw [dget_dset_ne _ _ _ _ (by decide), dget_dset_self, hc]
      rfl
    · unfold add_metadata
      rw [dget_dset_self]
    · intro k hk1 hk2 hk3
      unfold add_metadata
      rw [dget_dset_ne _ _ _ _ (Ne.symm hk3), dget_dset_ne _ _ _ _ (Ne.symm hk2),
        dget_dset_ne _ _ _ _ (Ne.symm hk1)]

theorem update_preserves_identity_witness :
    ∃ heap2,
      updateRecord
          [("id1", FileContent.valid
            [("uuid", Val.s "id1"), ("created_at", Val.s "t0"),
             ("first_name", Val.s "Ann")])]
          "id1" [("first_name", Val.s "Bo")] "t1" = Except.ok (true, heap2) ∧
      ∃ stored, readRecord heap2 "id1" = some stored ∧
        dget stored "uuid" = some (Val.s "id1") ∧
        dget stored "created_at" = some (Val.s "t0") ∧
        dget stored "updated_at" = some (Val.s "t1") ∧
        ∀ k, k ≠ "uuid" → k ≠ "created_at" → k ≠ "updated_at" →
          dget stored k = dget [("first_name", Val.s "Bo")] k :=
  update_preserves_identity _ "id1" _ "t1" _ _ _ rfl rfl rfl

/-- C5: read and the full scan do treat corruption as absence and delete
returns a boolean, but update on an existing file whose contents fail to
parse raises AttributeError (the load result None reaches
_add_metadata), contradicting the claim that update never raises. -/

theorem corrupt_update_raises_attributeError :
    readRecord [("id1", FileContent.corrupt)] "id1" = none ∧
      list_all [("id1", FileContent.corrupt)] = [] ∧
      deleteRecord [("id1", FileContent.corrupt)] "id1" = (true, []) ∧
      updateRecord [("id1", FileContent.corrupt)] "id1" [] "t1" =
        Except.error PyErr.attributeError :=
  ⟨rfl, rfl, rfl, rfl⟩

/-- C7 counterexample: create for the notes category does not override a
caller-supplied created_at, so create does not stamp both timestamps
with the current time in every category. -/

theorem create_stamps_timestamps_cex :
    dget (create_note [] [("created_at", Val.s "t0")] "id1" "t1").1 "created_at" =
        some (Val.s "t0") ∧
      (Val.s "t0" : Val) ≠ Val.s "t1" :=
  ⟨rfl, by decide⟩

/-- C7 amended: create stamps a fresh uuid and updated_at in both
categories and returns exactly the written document; created_at is
always stamped for contacts, but for notes only when the caller did not
supply one; all other caller fields are preserved; other records are
untouched. -/

theorem create_generates_id_and_timestamps
    (heap : Heap) (data : Doc) (freshId now : String) :
    (dget (create_contact heap data freshId now).1 "uuid" = some (Val.s freshId) ∧
      dget (create_contact heap data freshId now).1 "created_at" = some (Val.s now) ∧
      dget (create_contact heap data freshId now).1 "updated_at" = some (Val.s now) ∧
      (∀ k, k ≠ "uuid" → k ≠ "created_at" → k ≠ "updated_at" →
        dget (create_contact heap data freshId now).1 k = dget data k) ∧
      readRecord (create_contact heap data freshId now).2 freshId =
        some (create_contact heap data freshId now).1 ∧
      (∀ u, u ≠ freshId →
        readRecord (create_contact heap data freshId now).2 u = readRecord heap u)) ∧
    (dget (create_note heap data freshId now).1 "uuid" = some (Val.s freshId) ∧
      dget (create_note heap data freshId now).1 "updated_at" = some (Val.s now) ∧
      (dhasKey data "created_at" = true →
        dget (create_note heap data freshId now).1 "created_at" = dget data "created_at") ∧
      (dhasKey data "created_at" = false →
        dget (create_note heap data freshId now).1 "created_at" = some (Val.s now)) ∧
      (∀ k, k ≠ "uuid" → k ≠ "created_at" → k ≠ "updated_at" →
        dget (create_note heap data freshId now).1 k = dget data k) ∧
      readRecord (create_note heap data freshId now).2 freshId =
        some (create_note heap data freshId now).1 ∧
      (∀ u, u ≠ freshId →
        readRecord (create_note heap data freshId now).2 u = readRecord heap u)) := by
  have hcc1 : (create_contact heap data freshId now).1 =
      dset (dset (dset data "uuid" (Val.s freshId)) "created_at" (Val.s now))
        "updated_at" (Val.s now) := rfl
  have hcc2 : (create_contact heap data freshId now).2 =
      dset heap freshId (FileContent.valid
        (dset (dset (dset data "uuid" (Val.s freshId)) "created_at" (Val.s now))
          "updated_at" (Val.s now))) := rfl
  have hkey : dhasKey (dset data "uuid" (Val.s freshId)) "created_at" =
      dhasKey data "created_at" := by
    unfold dhasKey
    rw [dget_dset_ne _ _ _ _ (by decide)]
  constructor
  · rw [hcc1, hcc2]
    refine ⟨?_, ?_, ?_, ?_, ?_, ?_⟩
    · rw [dget_dset_ne _ _ _ _ (by decide), dget_dset_ne _ _ _ _ (by decide),
        dget_dset_self]
    · rw [dget_dset_ne _ _ _ _ (by decide), dget_dset_self]
    · rw [dget_dset_self]
    · intro k h1 h2 h3
      rw [dget_dset_ne _ _ _ _ (Ne.symm h3), dget_dset_ne _ _ _ _ (Ne.symm h2),
        dget_dset_ne _ _ _ _ (Ne.symm h1)]
    · rw [readRecord_some_iff, dget_dset_self]
    · intro u hu
      exact readRecord_dset_ne _ _ _ _ (Ne.symm hu)
  · cases hd : dhasKey data "created_at" with
    | true =>
      have hcn : create_note heap data freshId now =
          (dset (dset data "uuid" (Val.s freshId)) "updated_at" (Val.s now),
            dset heap freshId (FileContent.valid
              (dset (dset data "uuid" (Val.s freshId)) "updated_at" (Val.s now)))) := by
        simp only [create_note]
        rw [hkey, hd]
        simp
      have hcn1 : (create_note heap data freshId now).1 =
          dset (dset data "uuid" (Val.s freshId)) "updated_at" (Val.s now) := by
        rw [hcn]
      have hcn2 : (create_note heap data freshId now).2 =
          dset heap freshId (FileContent.valid
            (dset (dset data "uuid" (Val.s freshId)) "updated_at" (Val.s now))) := by
        rw [hcn]
      rw [hcn1, hcn2]
      refine ⟨?_, ?_, ?_, ?_, ?_, ?_, ?_⟩
      · rw [dget_dset_ne _ _ _ _ (by decide), dget_dset_self]
      · rw [dget_dset_self]
      · intro _
        rw [dget_dset_ne _ _ _ _ (by decide), dget_dset_ne _ _ _ _ (by decide)]
      · intro hfk
        exact absurd hfk (by decide)
      · intro k h1 h2 h3
        rw [dget_dset_ne _ _ _ _ (Ne.symm h3), dget_dset_ne _ _ _ _ (Ne.symm h1)]
      · rw [readRecord_some_iff, dget_dset_self]
      · intro u hu
        exact readRecord_dset_ne _ _ _ _ (Ne.symm hu)
    | false =>
      have hcn : create_note heap data freshId now =
          (dset (dset (dset data "uuid" (Val.s freshId)) "created_at" (Val.s now))
              "updated_at" (Val.s now),
            dset heap freshId (FileContent.valid
              (dset (dset (dset data "uuid" (Val.s freshId)) "created_at" (Val.s now))
                "updated_at" (Val.s now)))) := by
        simp only [create_note]
        rw [hkey, hd]
        simp
      have hcn1 : (create_note heap data freshId now).1 =
          dset (dset (dset data "uuid" (Val.s freshId)) "created_at" (Val.s now))
            "updated_at" (Val.s now) := by
        rw [hcn]
      have hcn2 : (create_note heap data freshId now).2 =
          dset heap freshId (FileContent.valid
            (dset (dset (dset data "uuid" (Val.s freshId)) "created_at" (Val.s now))
              "updated_at" (Val.s now))) := by
        rw [hcn]
      rw [hcn1, hcn2]
      refine ⟨?_, ?_, ?_, ?_, ?_, ?_, ?_⟩
      · rw [dget_dset_ne _ _ _ _ (by decide), dget_dset_ne _ _ _ _ (by decide),
          dget_dset_self]
      · rw [dget_dset_self]
      · intro hfk
        exact absurd hfk (by decide)
      · intro _
        rw [dget_dset_ne _ _ _ _ (by decide), dget_dset_self]
      · intro k h1 h2 h3
        rw [dget_dset_ne _ _ _ _ (Ne.symm h3), dget_dset_ne _ _ _ _ (Ne.symm h2),
          dget_dset_ne _ _ _ _ (Ne.symm h1)]
      · rw [readRecord_some_iff, dget_dset_self]
      · intro u hu
        exact readRecord_dset_ne _ _ _ _ (Ne.symm hu)

theorem create_generates_id_and_timestamps_witness :
    dget (create_contact [] [("first_name", Val.s "Ann")] "id1" "t1").1 "uuid" =
        some (Val.s "id1") ∧
      dget (create_note [] [("title", Val.s "n")] "id2" "t1").1 "created_at" =
        some (Val.s "t1") :=
  ⟨(create_generates_id_and_timestamps [] [("first_name", Val.s "Ann")] "id1" "t1").1.1,
    ((create_generates_id_and_timestamps [] [("title", Val.s "n")] "id2" "t1").2.2.2.2.1)
      (by decide)⟩

theorem dhasKey_true_of_some {data : BucketData} {key : String} {l : List String}
    (hg : dget data key = some l) : dhasKey data key = true := by
  unfold dhasKey
  rw [hg]
  rfl

theorem dhasKey_false_of_none {data : BucketData} {key : String}
    (hg : dget data key = none) : dhasKey data key = false := by
  unfold dhasKey
  rw [hg]
  rfl

theorem bdAdd_eq_none {data : BucketData} {key : String} (uuid : String)
    (hg : dget data key = none) :
    bdAdd data key uuid = dset (dset data key []) key [uuid] := by
  unfold bdAdd
  simp [dhasKey_false_of_none hg]

theorem bdAdd_eq_mem {data : BucketData} {key : String} {uuid : String} {l : List String}
    (hg : dget data key = some l) (hu : uuid ∈ l) :
    bdAdd data key uuid = data := by
  unfold bdAdd
  simp [dhasKey_true_of_some hg, hg, hu]

theorem bdAdd_eq_notmem {data : BucketData} {key : String} {uuid : String}
    {l : List String} (hg : dget data key = some l) (hu : uuid ∉ l) :
    bdAdd data key uuid = dset data key (l ++ [uuid]) := by
  unfold bdAdd
  simp [dhasKey_true_of_some hg, hg, hu]

theorem dget_bdAdd_ne (data : BucketData) (key uuid k : String) (h : k ≠ key) :
    dget (bdAdd data key uuid) k = dget data k := by
  cases hg : dget data key with
  | none =>
    rw [bdAdd_eq_none uuid hg, dget_dset_ne _ _ _ _ (Ne.symm h),
      dget_dset_ne _ _ _ _ (Ne.symm h)]
  | some l =>
    by_cases hu : uuid ∈ l
    · rw [bdAdd_eq_mem hg hu]
    · rw [bdAdd_eq_notmem hg hu, dget_dset_ne _ _ _ _ (Ne.symm h)]

theorem dget_bdRemove_ne (data : BucketData) (key uuid k : String) (h : k ≠ key) :
    dget (bdRemove data key uuid) k = dget data k := by
  unfold bdRemove
  cases hg : dget data key with
  | none => rfl
  | some l =>
    simp only
    by_cases hemp : (if uuid ∈ l then pyRemoveFirst l uuid else l) = []
    · rw [if_pos hemp, dget_derase_ne _ _ _ (Ne.symm h)]
    · rw [if_neg hemp, dget_dset_ne _ _ _ _ (Ne.symm h)]

theorem mem_bdAdd_self (data : BucketData) (key uuid u : String) :
    (u ∈ (dget (bdAdd data key uuid) key).getD []) ↔
      u ∈ (dget data key).getD [] ∨ u = uuid := by
  cases hg : dget data key with
  | none =>
    rw [bdAdd_eq_none uuid hg, dget_dset_self]
    simp
  | some l =>
    by_cases hu : uuid ∈ l
    · rw [bdAdd_eq_mem hg hu, hg]
      simp only [Option.getD_some]
      constructor
      · exact Or.inl
      · rintro (hm | rfl)
        · exact hm
        · exact hu
    · rw [bdAdd_eq_notmem hg hu, dget_dset_self]
      simp

theorem mem_bdRemove_self (data : BucketData) (key uuid u : String)
    (hnd : ∀ l, dget data key = some l → l.Nodup) :
    (u ∈ (dget (bdRemove data key uuid) key).getD []) ↔
      u ∈ (dget data key).getD [] ∧ u ≠ uuid := by
  unfold bdRemove
  cases hg : dget data key with
  | none => simp [hg]
  | some l =>
    have hl := hnd l hg
    simp only [Option.getD_some]
    by_cases hu : uuid ∈ l
    · rw [if_pos hu]
      by_cases hemp : pyRemoveFirst l uuid = []
      · rw [if_pos hemp]
        simp only [dget_derase_self, Option.getD_none, List.not_mem_nil, false_iff]
        rintro ⟨hm, hne⟩
        have hmem : u ∈ pyRemoveFirst l uuid :=
          (mem_pyRemoveFirst_of_nodup hl u).mpr ⟨hm, hne⟩
        rw [hemp] at hmem
        exact absurd hmem (List.not_mem_nil u)
      · rw [if_neg hemp]
        simp only [dget_dset_self, Option.getD_some]
        exact mem_pyRemoveFirst_of_nodup hl u
    · rw [if_neg hu]
      by_cases hemp : l = []
      · subst hemp
        rw [if_pos rfl]
        simp
      · rw [if_neg hemp]
        simp only [dget_dset_self, Option.getD_some]
        constructor
        · intro hm
          exact ⟨hm, fun he => hu (he ▸ hm)⟩
        · exact And.left

theorem trieWF_nil : TrieWF [] :=
  ⟨List.nodup_nil, fun b data h => absurd h (by simp)⟩

theorem pytrim_empty : pytrim "" = "" := rfl

/-- The add/remove guard not value or not value.strip() is equivalent
to the strip being empty. -/

theorem trie_guard_iff (value : String) :
    (value = "" ∨ pytrim value = "") ↔ pytrim value = "" := by
  constructor
  · rintro (rfl | h)
    · rfl
    · exact h
  · exact Or.inr

theorem mem_trieLookup_add (idx : TrieIdx) (v u k u' : String) :
    u' ∈ trieLookup (add_to_trie_index idx v u) k ↔
      u' ∈ trieLookup idx k ∨ (pytrim v ≠ "" ∧ k = pynorm v ∧ u' = u) := by
  by_cases hg : v = "" ∨ pytrim v = ""
  · have ht := (trie_guard_iff v).mp hg
    unfold add_to_trie_index
    rw [if_pos hg]
    simp [ht]
  · have ht : pytrim v ≠ "" := fun h => hg (Or.inr h)
    unfold add_to_trie_index
    rw [if_neg hg]
    simp only
    by_cases hb : trieBucketOf k = trieBucketOf (pynorm v)
    · by_cases hk : k = pynorm v
      · subst hk
        unfold trieLookup
        rw [dget_dset_self]
        simp only [Option.getD_some]
        rw [mem_bdAdd_self]
        tauto
      · unfold trieLookup
        rw [hb, dget_dset_self]
        simp only [Option.getD_some]
        rw [dget_bdAdd_ne _ _ _ _ hk]
        constructor
        · exact fun hm => Or.inl hm
        · rintro (hm | ⟨_, hk2, _⟩)
          · exact hm
          · exact absurd hk2 hk
    · have hk : k ≠ pynorm v := fun he => hb (he ▸ rfl)
      unfold trieLookup
      rw [dget_dset_ne _ _ _ _ (fun he => hb he.symm)]
      constructor
      · exact fun hm => Or.inl hm
      · rintro (hm | ⟨_, hk2, _⟩)
        · exact hm
        · exact absurd hk2 hk

theorem trieLookup_remove_ne_key (idx : TrieIdx) (v u k : String)
    (hk : k ≠ pynorm v) :
    trieLookup (remove_from_trie_index idx v u) k = trieLookup idx k := by
  by_cases hg : v = "" ∨ pytrim v = ""
  · unfold remove_from_trie_index
    rw [if_pos hg]
  · unfold remove_from_trie_index
    rw [if_neg hg]
    simp only
    cases hd : dget idx (trieBucketOf (pynorm v)) with
    | none => rfl
    | some data =>
      simp only
      by_cases hb : trieBucketOf k = trieBucketOf (pynorm v)
      · unfold trieLookup
        rw [hb, dget_dset_self, hd]
        simp only [Option.getD_some]
        rw [dget_bdRemove_ne _ _ _ _ hk]
      · unfold trieLookup
        rw [dget_dset_ne _ _ _ _ (fun he => hb he.symm)]

theorem mem_pyRemoveFirst_ne {l : List String} {u u' : String} (h : u' ≠ u) :
    u' ∈ pyRemoveFirst l u ↔ u' ∈ l := by
  induction l with
  | nil => simp [pyRemoveFirst]
  | cons a t ih =>
    by_cases ha : a = u
    · subst ha
      simp only [pyRemoveFirst, if_pos rfl, List.mem_cons]
      exact ⟨Or.inr, fun hm => hm.resolve_left h⟩
    · simp only [pyRemoveFirst, if_neg ha, List.mem_cons, ih]

theorem mem_bdRemove_other (data : BucketData) (key uuid k u' : String)
    (h : u' ≠ uuid) :
    (u' ∈ (dget (bdRemove data key uuid) k).getD []) ↔
      u' ∈ (dget data k).getD [] := by
  by_cases hk : k = key
  · subst hk
    unfold bdRemove
    cases hd : dget data k with
    | none => rw [hd]
    | some l =>
      simp only
      by_cases hemp : (if uuid ∈ l then pyRemoveFirst l uuid else l) = []
      · rw [if_pos hemp, dget_derase_self]
        simp only [Option.getD_none, Option.getD_some, List.not_mem_nil, false_iff]
        intro hm
        have hmem : u' ∈ (if uuid ∈ l then pyRemoveFirst l uuid else l) := by
          by_cases hu : uuid ∈ l
          · rw [if_pos hu, mem_pyRemoveFirst_ne h]
            exact hm
          · rw [if_neg hu]
            exact hm
        rw [hemp] at hmem
        exact absurd hmem (List.not_mem_nil u')
      · rw [if_neg hemp, dget_dset_self]
        simp only [Option.getD_some]
        by_cases hu : uuid ∈ l
        · rw [if_pos hu, mem_pyRemoveFirst_ne h]
        · rw [if_neg hu]
  · rw [dget_bdRemove_ne _ _ _ _ hk]

theorem mem_trieLookup_remove_other (idx : TrieIdx) (v u k u' : String)
    (h : u' ≠ u) :
    u' ∈ trieLookup (remove_from_trie_index idx v u) k ↔ u' ∈ trieLookup idx k := by
  by_cases hg : v = "" ∨ pytrim v = ""
  · unfold remove_from_trie_index
    rw [if_pos hg]
  · unfold remove_from_trie_index
    rw [if_neg hg]
    simp only
    cases hd : dget idx (trieBucketOf (pynorm v)) with
    | none => rfl
    | some data =>
      simp only
      by_cases hb : trieBucketOf k = trieBucketOf (pynorm v)
      · unfold trieLookup
        rw [hb, dget_dset_self, hd]
        simp only [Option.getD_some]
        exact mem_bdRemove_other data (pynorm v) u k u' h
      · unfold trieLookup
        rw [dget_dset_ne _ _ _ _ (fun he => hb he.symm)]

theorem not_mem_trieLookup_remove_self (idx : TrieIdx) (v u : String)
    (hw : TrieWF idx) (ht : pytrim v ≠ "") :
    u ∉ trieLookup (remove_from_trie_index idx v u) (pynorm v) := by
  have hg : ¬(v = "" ∨ pytrim v = "") := by
    rw [trie_guard_iff]
    exact ht
  unfold remove_from_trie_index
  rw [if_neg hg]
  simp only
  cases hd : dget idx (trieBucketOf (pynorm v)) with
  | none =>
    unfold trieLookup
    rw [hd]
    simp
  | some data =>
    simp only
    unfold trieLookup
    rw [dget_dset_self]
    simp only [Option.getD_some]
    rw [mem_bdRemove_self data (pynorm v) u u
      (fun l hl => ((hw.2 _ data hd).2 _ l hl).1)]
    rintro ⟨_, hne⟩
    exact hne rfl

theorem nodupKeys_bdAdd (data : BucketData) (key uuid : String)
    (h : NodupKeys data) : NodupKeys (bdAdd data key uuid) := by
  cases hg : dget data key with
  | none =>
    rw [bdAdd_eq_none uuid hg]
    exact nodupKeys_dset _ _ _ (nodupKeys_dset _ _ _ h)
  | some l =>
    by_cases hu : uuid ∈ l
    · rw [bdAdd_eq_mem hg hu]
      exact h
    · rw [bdAdd_eq_notmem hg hu]
      exact nodupKeys_dset _ _ _ h

theorem nodupKeys_bdRemove (data : BucketData) (key uuid : String)
    (h : NodupKeys data) : NodupKeys (bdRemove data key uuid) := by
  unfold bdRemove
  cases dget data key with
  | none => exact h
  | some l =>
    simp only
    by_cases hemp : (if uuid ∈ l then pyRemoveFirst l uuid else l) = []
    · rw [if_pos hemp]
      exact nodupKeys_derase _ _ h
    · rw [if_neg hemp]
      exact nodupKeys_dset _ _ _ h

theorem bdAdd_entries {P : String → Prop} (data : BucketData) (key uuid : String)
    (hq : ∀ k l, dget data k = some l → l.Nodup ∧ P k) (hk : P key) :
    ∀ k l, dget (bdAdd data key uuid) k = some l → l.Nodup ∧ P k := by
  intro k l hget
  by_cases hke : k = key
  · subst hke
    cases hg : dget data k with
    | none =>
      rw [bdAdd_eq_none uuid hg, dget_dset_self] at hget
      obtain rfl : [uuid] = l := by injection hget
      exact ⟨List.nodup_singleton uuid, hk⟩
    | some l0 =>
      by_cases hu : uuid ∈ l0
      · rw [bdAdd_eq_mem hg hu] at hget
        exact hq k l hget
      · rw [bdAdd_eq_notmem hg hu, dget_dset_self] at hget
        obtain rfl : l0 ++ [uuid] = l := by injection hget
        refine ⟨?_, hk⟩
        have hnd := (hq k l0 hg).1
        simp [List.nodup_append, hnd, hu]
  · rw [dget_bdAdd_ne _ _ _ _ hke] at hget
    exact hq k l hget

theorem bdRemove_entries {P : String → Prop} (data : BucketData) (key uuid : String)
    (hq : ∀ k l, dget data k = some l → l.Nodup ∧ P k) :
    ∀ k l, dget (bdRemove data key uuid) k = some l → l.Nodup ∧ P k := by
  intro k l hget
  by_cases hke : k = key
  · subst hke
    unfold bdRemove at hget
    cases hg : dget data k with
    | none =>
      rw [hg] at hget
      exact hq k l hget
    | some l0 =>
      rw [hg] at hget
      simp only at hget
      by_cases hemp : (if uuid ∈ l0 then pyRemoveFirst l0 uuid else l0) = []
      · rw [if_pos hemp, dget_derase_self] at hget
        exact absurd hget (by simp)
      · rw [if_neg hemp, dget_dset_self] at hget
        obtain rfl : (if uuid ∈ l0 then pyRemoveFirst l0 uuid else l0) = l := by
          injection hget
        have hnd := (hq k l0 hg).1
        refine ⟨?_, (hq k l0 hg).2⟩
        by_cases hu : uuid ∈ l0
        · rw [if_pos hu]
          exact nodup_pyRemoveFirst uuid hnd
        · rw [if_neg hu]
          exact hnd
  · rw [dget_bdRemove_ne _ _ _ _ hke] at hget
    exact hq k l hget

theorem trieWF_add (idx : TrieIdx) (v u : String) (hw : TrieWF idx) :
    TrieWF (add_to_trie_index idx v u) := by
  by_cases hg : v = "" ∨ pytrim v = ""
  · unfold add_to_trie_index
    rw [if_pos hg]
    exact hw
  · unfold add_to_trie_index
    rw [if_neg hg]
    simp only
    refine ⟨nodupKeys_dset _ _ _ hw.1, ?_⟩
    intro b' data' hget
    by_cases hb : b' = trieBucketOf (pynorm v)
    · subst hb
      rw [dget_dset_self] at hget
      obtain rfl : bdAdd ((dget idx (trieBucketOf (pynorm v))).getD []) (pynorm v) u =
          data' := by
        injection hget
      cases hd : dget idx (trieBucketOf (pynorm v)) with
      | none =>
        simp only [Option.getD_none]
        refine ⟨nodupKeys_bdAdd _ _ _ (by simp [NodupKeys, dkeys]), ?_⟩
        exact bdAdd_entries [] (pynorm v) u (fun k l h => absurd h (by simp)) rfl
      | some data0 =>
        simp only [Option.getD_some]
        have hwf := hw.2 (trieBucketOf (pynorm v)) data0 hd
        exact ⟨nodupKeys_bdAdd _ _ _ hwf.1,
          bdAdd_entries data0 (pynorm v) u hwf.2 rfl⟩
    · rw [dget_dset_ne _ _ _ _ (fun he => hb he.symm)] at hget
      exact hw.2 b' data' hget

theorem trieWF_remove (idx : TrieIdx) (v u : String) (hw : TrieWF idx) :
    TrieWF (remove_from_trie_index idx v u) := by
  by_cases hg : v = "" ∨ pytrim v = ""
  · unfold remove_from_trie_index
    rw [if_pos hg]
    exact hw
  · unfold remove_from_trie_index
    rw [if_neg hg]
    simp only
    cases hd : dget idx (trieBucketOf (pynorm v)) with
    | none => exact hw
    | some data0 =>
      simp only
      refine ⟨nodupKeys_dset _ _ _ hw.1, ?_⟩
      intro b' data' hget
      by_cases hb : b' = trieBucketOf (pynorm v)
      · subst hb
        rw [dget_dset_self] at hget
        obtain rfl : bdRemove data0 (pynorm v) u = data' := by injection hget
        have hwf := hw.2 (trieBucketOf (pynorm v)) data0 hd
        exact ⟨nodupKeys_bdRemove _ _ _ hwf.1, bdRemove_entries data0 (pynorm v) u hwf.2⟩
      · rw [dget_dset_ne _ _ _ _ (fun he => hb he.symm)] at hget
        exact hw.2 b' data' hget

/-! Characterization of search_by_prefix over well-formed indexes. -/

theorem dget_filter_key (d : BucketData) (pred : String → Bool) (k : String) :
    dget (d.filter (fun kv => pred kv.1)) k = if pred k then dget d k else none := by
  induction d with
  | nil => simp [dget]
  | cons p t ih =>
    obtain ⟨k0, v0⟩ := p
    rw [List.filter_cons]
    by_cases hp : pred k0
    · rw [if_pos (by simpa using hp)]
      by_cases hk : k0 = k
      · subst hk
        rw [show pred k0 = true from hp]
        simp [dget]
      · simp only [dget, if_neg hk]
        exact ih
    · rw [if_neg (by simpa using hp), ih]
      by_cases hk : k0 = k
      · subst hk
        rw [show pred k0 = false from by simpa using hp]
        simp
      · simp [dget, hk]

theorem nodupKeys_filter (d : BucketData) (pred : String × List String → Bool)
    (h : NodupKeys d) : NodupKeys (d.filter pred) :=
  ((List.filter_sublist d).map Prod.fst).nodup h

theorem dget_dupdate_none {kappa2 alpha2 : Type} [DecidableEq kappa2]
    {e : Dict kappa2 alpha2} {k : kappa2}
    (he : dget e k = none) (d : Dict kappa2 alpha2) :
    dget (dupdate d e) k = dget d k := by
  induction e generalizing d with
  | nil => rfl
  | cons p rest ih =>
    obtain ⟨k0, v0⟩ := p
    have hk0 : k0 ≠ k := by
      intro he2
      rw [show dget ((k0, v0) :: rest) k = if k0 = k then some v0 else dget rest k
        from rfl, if_pos he2] at he
      exact Option.noConfusion he
    rw [show dget ((k0, v0) :: rest) k = if k0 = k then some v0 else dget rest k
      from rfl, if_neg hk0] at he
    show dget (dupdate (dset d k0 v0) rest) k = dget d k
    rw [ih he, dget_dset_ne _ _ _ _ hk0]

theorem dget_dupdate_some {kappa2 alpha2 : Type} [DecidableEq kappa2]
    {e : Dict kappa2 alpha2} {k : kappa2} {v : alpha2}
    (hnk : NodupKeys e) (he : dget e k = some v) (d : Dict kappa2 alpha2) :
    dget (dupdate d e) k = some v := by
  induction e generalizing d with
  | nil => exact absurd he (by simp)
  | cons p rest ih =>
    obtain ⟨k0, v0⟩ := p
    unfold NodupKeys dkeys at hnk
    simp only [List.map_cons, List.nodup_cons] at hnk
    by_cases hk : k0 = k
    · subst hk
      simp only [dget, if_pos rfl] at he
      have hv : v0 = v := by injection he
      subst hv
      show dget (dupdate (dset d k0 v0) rest) k0 = some v0
      have hrest : dget rest k0 = none :=
        dget_eq_none_of_not_mem_keys (by simpa [dkeys] using hnk.1)
      rw [dget_dupdate_none hrest, dget_dset_self]
    · simp only [dget, if_neg hk] at he
      show dget (dupdate (dset d k0 v0) rest) k = some v
      exact ih hnk.2 he (dset d k0 v0)

theorem dget_searchFoldStep_none {np : String} {c : Char}
    {e : TrieBucket × BucketData} {k : String}
    (h : contribOf np c e k = none) (acc : BucketData) :
    dget (searchFoldStep np c acc e) k = dget acc k := by
  obtain ⟨b, data⟩ := e
  cases b with
  | short c0 => rfl
  | two c1 c2 =>
    have h2 : (if c1 = c then dget (data.filter (fun kv => pystarts kv.1 np)) k
        else none) = none := h
    show dget (if c1 = c then dupdate acc (data.filter (fun kv => pystarts kv.1 np))
      else acc) k = dget acc k
    by_cases hc : c1 = c
    · rw [if_pos hc] at h2 ⊢
      exact dget_dupdate_none h2 acc
    · rw [if_neg hc]

theorem dget_searchFoldStep_some {np : String} {c : Char}
    {e : TrieBucket × BucketData} {k : String} {v : List String}
    (h : contribOf np c e k = some v) (hnk : NodupKeys e.2) (acc : BucketData) :
    dget (searchFoldStep np c acc e) k = some v := by
  obtain ⟨b, data⟩ := e
  cases b with
  | short c0 => exact absurd h (by simp [contribOf])
  | two c1 c2 =>
    have h2 : (if c1 = c then dget (data.filter (fun kv => pystarts kv.1 np)) k
        else none) = some v := h
    have hnk2 : NodupKeys data := hnk
    show dget (if c1 = c then dupdate acc (data.filter (fun kv => pystarts kv.1 np))
      else acc) k = some v
    by_cases hc : c1 = c
    · rw [if_pos hc] at h2 ⊢
      exact dget_dupdate_some (nodupKeys_filter _ _ hnk2) h2 acc
    · rw [if_neg hc] at h2
      exact absurd h2 (by simp)

theorem dget_searchFold_none {np : String} {c : Char}
    (l : List (TrieBucket × BucketData)) (acc : BucketData) (k : String)
    (hn : ∀ e ∈ l, contribOf np c e k = none) :
    dget (List.foldl (searchFoldStep np c) acc l) k = dget acc k := by
  induction l generalizing acc with
  | nil => rfl
  | cons e rest ih =>
    rw [List.foldl_cons, ih _ (fun e2 h2 => hn e2 (List.mem_cons_of_mem _ h2)),
      dget_searchFoldStep_none (hn e (List.mem_cons_self _ _)) acc]

theorem dget_searchFold_some {np : String} {c : Char} {v : List String}
    (l : List (TrieBucket × BucketData)) (acc : BucketData) (k : String)
    (hall : ∀ e ∈ l, contribOf np c e k = none ∨
      (contribOf np c e k = some v ∧ NodupKeys e.2))
    (hsome : dget acc k = some v ∨ ∃ e ∈ l, contribOf np c e k = some v) :
    dget (List.foldl (searchFoldStep np c) acc l) k = some v := by
  induction l generalizing acc with
  | nil =>
    rcases hsome with h | ⟨e, he, _⟩
    · exact h
    · exact absurd he (by simp)
  | cons e rest ih =>
    rw [List.foldl_cons]
    rcases hall e (List.mem_cons_self _ _) with hnone | ⟨hsome2, hnk⟩
    · refine ih _ (fun e2 h2 => hall e2 (List.mem_cons_of_mem _ h2)) ?_
      rcases hsome with h | ⟨e2, he2, hc2⟩
      · rw [dget_searchFoldStep_none hnone acc]
        exact Or.inl h
      · rcases List.mem_cons.mp he2 with rfl | hmem
        · rw [hnone] at hc2
          exact absurd hc2 (by simp)
        · exact Or.inr ⟨e2, hmem, hc2⟩
    · refine ih _ (fun e2 h2 => hall e2 (List.mem_cons_of_mem _ h2)) ?_
      exact Or.inl (dget_searchFoldStep_some hsome2 hnk acc)

theorem string_empty_iff_data {s : String} : s = "" ↔ s.data = [] := by
  constructor
  · intro h
    rw [h]
  · intro h
    apply String.ext
    rw [h]

theorem trieBucketOf_of_data {k : String} {c c2 : Char} {rest : List Char}
    (h : k.data = c :: c2 :: rest) : trieBucketOf k = TrieBucket.two c c2 := by
  unfold trieBucketOf
  rw [h]

theorem trieBucketOf_of_single {k : String} {c : Char}
    (h : k.data = [c]) : trieBucketOf k = TrieBucket.short c := by
  unfold trieBucketOf
  rw [h]

theorem pystarts_data {k np : String} (h : pystarts k np = true) :
    ∃ t, k.data = np.data ++ t := by
  rw [pystarts_iff] at h
  obtain ⟨t, ht⟩ := h
  exact ⟨t, ht.symm⟩

theorem dget_filter_starts (d : BucketData) (np k : String) :
    dget (d.filter (fun kv => pystarts kv.1 np)) k =
      if pystarts k np = true then dget d k else none :=
  dget_filter_key d (fun s => pystarts s np) k

theorem search_by_pref_nil (idx : TrieIdx) (pre : String)
    (h : (pynorm pre).data = []) : search_by_pref idx pre = [] := by
  unfold search_by_pref
  simp only [h]

theorem search_by_pref_two (idx : TrieIdx) (pre : String) (c c2 : Char)
    (t : List Char) (h : (pynorm pre).data = c :: c2 :: t) :
    search_by_pref idx pre =
      (match dget idx (TrieBucket.two c c2) with
        | none => []
        | some data => data.filter (fun kv => pystarts kv.1 (pynorm pre))) := by
  unfold search_by_pref
  simp only [h]

theorem search_by_pref_single (idx : TrieIdx) (pre : String) (c : Char)
    (h : (pynorm pre).data = [c]) :
    search_by_pref idx pre =
      idx.foldl (searchFoldStep (pynorm pre) c)
        (match dget idx (TrieBucket.short c) with
          | none => []
          | some data => data.filter (fun kv => pystarts kv.1 (pynorm pre))) := by
  unfold search_by_pref
  simp only [h]

/-- Over a well-formed trie index the bucket-addressing scheme of
search_by_prefix is exhaustive and exact: for a prefix whose
normalization is nonempty, a uuid is returned under stored value k
exactly when k starts with the normalized prefix and the uuid is in k's
own bucket entry. -/

theorem mem_search_by_pref (idx : TrieIdx) (hw : TrieWF idx) (pre k u : String) :
    u ∈ (dget (search_by_pref idx pre) k).getD [] ↔
      pynorm pre ≠ "" ∧ pystarts k (pynorm pre) = true ∧ u ∈ trieLookup idx k := by
  rcases hnp : (pynorm pre).data with _ | ⟨c, _ | ⟨c2, t⟩⟩
  · rw [search_by_pref_nil idx pre hnp]
    have hne : pynorm pre = "" := string_empty_iff_data.mpr hnp
    simp [hne, dget]
  · -- one-character normalized prefix: short bucket plus directory scan
    rw [search_by_pref_single idx pre c hnp]
    have hne : pynorm pre ≠ "" := by
      intro h
      have hd2 := string_empty_iff_data.mp h
      rw [hnp] at hd2
      exact List.noConfusion hd2
    by_cases hps : pystarts k (pynorm pre) = true
    · obtain ⟨tk, htk⟩ := pystarts_data hps
      rw [hnp] at htk
      cases tk with
      | nil =>
        have hbk : trieBucketOf k = TrieBucket.short c :=
          trieBucketOf_of_single (by simpa using htk)
        have hcontrib : ∀ e ∈ idx, contribOf (pynorm pre) c e k = none := by
          intro e he
          obtain ⟨b, data⟩ := e
          cases b with
          | short c0 => rfl
          | two c1 c2x =>
            show (if c1 = c then
              dget (data.filter (fun kv => pystarts kv.1 (pynorm pre))) k else none) = none
            by_cases hc : c1 = c
            · rw [if_pos hc, dget_filter_starts, if_pos hps]
              cases hdk : dget data k with
              | none => rfl
              | some l =>
                exfalso
                have hdg : dget idx (TrieBucket.two c1 c2x) = some data :=
                  dget_of_mem_nodup hw.1 he
                have hpl := ((hw.2 _ data hdg).2 k l hdk).2
                rw [hbk] at hpl
                exact TrieBucket.noConfusion hpl
            · rw [if_neg hc]
        rw [dget_searchFold_none idx _ k hcontrib]
        cases hd : dget idx (TrieBucket.short c) with
        | none => simp [trieLookup, hbk, hd, hne, hps, dget]
        | some sdata =>
          rw [dget_filter_starts, if_pos hps]
          simp [trieLookup, hbk, hd, hne, hps]
      | cons c2 t2 =>
        have hbk : trieBucketOf k = TrieBucket.two c c2 :=
          trieBucketOf_of_data (by simpa using htk)
        have hshort : dget
            (match dget idx (TrieBucket.short c) with
              | none => []
              | some data => data.filter (fun kv => pystarts kv.1 (pynorm pre))) k =
            none := by
          cases hd : dget idx (TrieBucket.short c) with
          | none => rfl
          | some sdata =>
            simp only
            rw [dget_filter_starts, if_pos hps]
            cases hdk : dget sdata k with
            | none => rfl
            | some l =>
              exfalso
              have hpl := ((hw.2 _ sdata hd).2 k l hdk).2
              rw [hbk] at hpl
              exact TrieBucket.noConfusion hpl
        cases hd : dget idx (TrieBucket.two c c2) with
        | none =>
          have hcontrib : ∀ e ∈ idx, contribOf (pynorm pre) c e k = none := by
            intro e he
            obtain ⟨b, data⟩ := e
            cases b with
            | short c0 => rfl
            | two c1 c2x =>
              show (if c1 = c then
                dget (data.filter (fun kv => pystarts kv.1 (pynorm pre))) k else none) = none
              by_cases hc : c1 = c
              · rw [if_pos hc, dget_filter_starts, if_pos hps]
                cases hdk : dget data k with
                | none => rfl
                | some l =>
                  exfalso
                  have hdg : dget idx (TrieBucket.two c1 c2x) = some data :=
                    dget_of_mem_nodup hw.1 he
                  have hpl := ((hw.2 _ data hdg).2 k l hdk).2
                  rw [hbk] at hpl
                  obtain ⟨rfl, rfl⟩ : c = c1 ∧ c2 = c2x := by
                    injection hpl with h1 h2
                    exact ⟨h1, h2⟩
                  rw [hdg] at hd
                  exact Option.noConfusion hd
              · rw [if_neg hc]
          rw [dget_searchFold_none idx _ k hcontrib, hshort]
          simp [trieLookup, hbk, hd, hne, hps, dget]
        | some data0 =>
          cases hdk : dget data0 k with
          | none =>
            have hcontrib : ∀ e ∈ idx, contribOf (pynorm pre) c e k = none := by
              intro e he
              obtain ⟨b, data⟩ := e
              cases b with
              | short c0 => rfl
              | two c1 c2x =>
                show (if c1 = c then
                  dget (data.filter (fun kv => pystarts kv.1 (pynorm pre))) k else none) =
                    none
                by_cases hc : c1 = c
                · rw [if_pos hc, dget_filter_starts, if_pos hps]
                  cases hdk2 : dget data k with
                  | none => rfl
                  | some l =>
                    exfalso
                    have hdg : dget idx (TrieBucket.two c1 c2x) = some data :=
                      dget_of_mem_nodup hw.1 he
                    have hpl := ((hw.2 _ data hdg).2 k l hdk2).2
                    rw [hbk] at hpl
                    obtain ⟨rfl, rfl⟩ : c = c1 ∧ c2 = c2x := by
                      injection hpl with h1 h2
                      exact ⟨h1, h2⟩
                    rw [hdg] at hd
                    obtain rfl : data = data0 := by injection hd
                    rw [hdk2] at hdk
                    exact Option.noConfusion hdk
                · rw [if_neg hc]
            rw [dget_searchFold_none idx _ k hcontrib, hshort]
            simp [trieLookup, hbk, hd, hdk, hne, hps]
          | some l0 =>
            have hall : ∀ e ∈ idx, contribOf (pynorm pre) c e k = none ∨
                (contribOf (pynorm pre) c e k = some l0 ∧ NodupKeys e.2) := by
              intro e he
              obtain ⟨b, data⟩ := e
              cases b with
              | short c0 => exact Or.inl rfl
              | two c1 c2x =>
                by_cases hc : c1 = c
                · have hctr : contribOf (pynorm pre) c (TrieBucket.two c1 c2x, data) k =
                      dget data k := by
                    show (if c1 = c then
                      dget (data.filter (fun kv => pystarts kv.1 (pynorm pre))) k
                      else none) = dget data k
                    rw [if_pos hc, dget_filter_starts, if_pos hps]
                  cases hdk2 : dget data k with
                  | none => exact Or.inl (by rw [hctr, hdk2])
                  | some l =>
                    have hdg : dget idx (TrieBucket.two c1 c2x) = some data :=
                      dget_of_mem_nodup hw.1 he
                    have hpl := ((hw.2 _ data hdg).2 k l hdk2).2
                    rw [hbk] at hpl
                    obtain ⟨rfl, rfl⟩ : c = c1 ∧ c2 = c2x := by
                      injection hpl with h1 h2
                      exact ⟨h1, h2⟩
                    rw [hdg] at hd
                    obtain rfl : data = data0 := by injection hd
                    rw [hdk2] at hdk
                    obtain rfl : l = l0 := by injection hdk
                    exact Or.inr ⟨by rw [hctr, hdk2], (hw.2 _ data hdg).1⟩
                · exact Or.inl (by
                    show (if c1 = c then
                      dget (data.filter (fun kv => pystarts kv.1 (pynorm pre))) k
                      else none) = none
                    rw [if_neg hc])
            have hsome : ∃ e ∈ idx, contribOf (pynorm pre) c e k = some l0 := by
              refine ⟨(TrieBucket.two c c2, data0), mem_of_dget_eq_some hd, ?_⟩
              show (if c = c then
                dget (data0.filter (fun kv => pystarts kv.1 (pynorm pre))) k
                else none) = some l0
              rw [if_pos rfl, dget_filter_starts, if_pos hps, hdk]
            rw [dget_searchFold_some idx _ k hall (Or.inr hsome)]
            simp [trieLookup, hbk, hd, hdk, hne, hps]
    · -- the stored value does not start with the prefix: never returned
      have hcontrib : ∀ e ∈ idx, contribOf (pynorm pre) c e k = none := by
        intro e he
        obtain ⟨b, data⟩ := e
        cases b with
        | short c0 => rfl
        | two c1 c2x =>
          show (if c1 = c then
            dget (data.filter (fun kv => pystarts kv.1 (pynorm pre))) k else none) = none
          by_cases hc : c1 = c
          · rw [if_pos hc, dget_filter_starts, if_neg hps]
          · rw [if_neg hc]
      rw [dget_searchFold_none idx _ k hcontrib]
      cases hd : dget idx (TrieBucket.short c) with
      | none => simp [hps, dget]
      | some sdata =>
        simp only
        rw [dget_filter_starts, if_neg hps]
        simp [hps]
  · -- prefix of normalized length at least two: single bucket
    rw [search_by_pref_two idx pre c c2 t hnp]
    have hne : pynorm pre ≠ "" := by
      intro h
      have hd2 := string_empty_iff_data.mp h
      rw [hnp] at hd2
      exact List.noConfusion hd2
    by_cases hps : pystarts k (pynorm pre) = true
    · obtain ⟨tk, htk⟩ := pystarts_data hps
      rw [hnp] at htk
      have hbk : trieBucketOf k = TrieBucket.two c c2 :=
        trieBucketOf_of_data (by simpa using htk)
      cases hd : dget idx (TrieBucket.two c c2) with
      | none => simp [trieLookup, hbk, hd, hne, hps, dget]
      | some data =>
        simp only
        rw [dget_filter_starts, if_pos hps]
        simp [trieLookup, hbk, hd, hne, hps]
    · cases hd : dget idx (TrieBucket.two c c2) with
      | none => simp [hps, dget]
      | some data =>
        simp only
        rw [dget_filter_starts, if_neg hps]
        simp [hps]

theorem hashWF_nil : HashWF [] := fun _ _ h => absurd h (by simp)

theorem search_by_exact_match_eq (digest : String → String) (idx : HashIdx)
    (value : String) :
    search_by_exact_match digest idx value =
      if pytrim value = "" then [] else hashLookup idx (digest value) := by
  by_cases hg : value = "" ∨ pytrim value = ""
  · unfold search_by_exact_match
    rw [if_pos hg, if_pos ((trie_guard_iff value).mp hg)]
  · have ht : ¬pytrim value = "" := fun h => hg (Or.inr h)
    unfold search_by_exact_match
    rw [if_neg hg, if_neg ht]
    unfold hashLookup
    cases hd : dget idx (hashBucketOf (digest value)) with
    | none =>
      simp only [hd]
      simp [dget]
    | some data =>
      simp only [hd]
      simp

theorem mem_hashLookup_add (digest : String → String) (idx : HashIdx)
    (v u k u' : String) :
    u' ∈ hashLookup (add_to_hash_index digest idx v u) k ↔
      u' ∈ hashLookup idx k ∨ (pytrim v ≠ "" ∧ k = digest v ∧ u' = u) := by
  by_cases hg : v = "" ∨ pytrim v = ""
  · have ht := (trie_guard_iff v).mp hg
    unfold add_to_hash_index
    rw [if_pos hg]
    simp [ht]
  · have ht : pytrim v ≠ "" := fun h => hg (Or.inr h)
    unfold add_to_hash_index
    rw [if_neg hg]
    simp only
    by_cases hb : hashBucketOf k = hashBucketOf (digest v)
    · by_cases hk : k = digest v
      · subst hk
        unfold hashLookup
        rw [dget_dset_self]
        simp only [Option.getD_some]
        rw [mem_bdAdd_self]
        tauto
      · unfold hashLookup
        rw [hb, dget_dset_self]
        simp only [Option.getD_some]
        rw [dget_bdAdd_ne _ _ _ _ hk]
        constructor
        · exact fun hm => Or.inl hm
        · rintro (hm | ⟨_, hk2, _⟩)
          · exact hm
          · exact absurd hk2 hk
    · have hk : k ≠ digest v := fun he => hb (he ▸ rfl)
      unfold hashLookup
      rw [dget_dset_ne _ _ _ _ (fun he => hb he.symm)]
      constructor
      · exact fun hm => Or.inl hm
      · rintro (hm | ⟨_, hk2, _⟩)
        · exact hm
        · exact absurd hk2 hk

theorem hashLookup_remove_ne_key (digest : String → String) (idx : HashIdx)
    (v u k : String) (hk : k ≠ digest v) :
    hashLookup (remove_from_hash_index digest idx v u) k = hashLookup idx k := by
  by_cases hg : v = "" ∨ pytrim v = ""
  · unfold remove_from_hash_index
    rw [if_pos hg]
  · unfold remove_from_hash_index
    rw [if_neg hg]
    simp only
    cases hd : dget idx (hashBucketOf (digest v)) with
    | none => rfl
    | some data =>
      simp only
      by_cases hb : hashBucketOf k = hashBucketOf (digest v)
      · unfold hashLookup
        rw [hb, dget_dset_self, hd]
        simp only [Option.getD_some]
        rw [dget_bdRemove_ne _ _ _ _ hk]
      · unfold hashLookup
        rw [dget_dset_ne _ _ _ _ (fun he => hb he.symm)]

theorem mem_hashLookup_remove_other (digest : String → String) (idx : HashIdx)
    (v u k u' : String) (h : u' ≠ u) :
    u' ∈ hashLookup (remove_from_hash_index digest idx v u) k ↔
      u' ∈ hashLookup idx k := by
  by_cases hg : v = "" ∨ pytrim v = ""
  · unfold remove_from_hash_index
    rw [if_pos hg]
  · unfold remove_from_hash_index
    rw [if_neg hg]
    simp only
    cases hd : dget idx (hashBucketOf (digest v)) with
    | none => rfl
    | some data =>
      simp only
      by_cases hb : hashBucketOf k = hashBucketOf (digest v)
      · unfold hashLookup
        rw [hb, dget_dset_self, hd]
        simp only [Option.getD_some]
        exact mem_bdRemove_other data (digest v) u k u' h
      · unfold hashLookup
        rw [dget_dset_ne _ _ _ _ (fun he => hb he.symm)]

theorem not_mem_hashLookup_remove_self (digest : String → String) (idx : HashIdx)
    (v u : String) (hw : HashWF idx) (ht : pytrim v ≠ "") :
    u ∉ hashLookup (remove_from_hash_index digest idx v u) (digest v) := by
  have hg : ¬(v = "" ∨ pytrim v = "") := by
    rw [trie_guard_iff]
    exact ht
  unfold remove_from_hash_index
  rw [if_neg hg]
  simp only
  cases hd : dget idx (hashBucketOf (digest v)) with
  | none =>
    unfold hashLookup
    rw [hd]
    simp
  | some data =>
    simp only
    unfold hashLookup
    rw [dget_dset_self]
    simp only [Option.getD_some]
    rw [mem_bdRemove_self data (digest v) u u (fun l hl => hw _ data hd _ l hl)]
    rintro ⟨_, hne⟩
    exact hne rfl

theorem hashWF_add (digest : String → String) (idx : HashIdx) (v u : String)
    (hw : HashWF idx) : HashWF (add_to_hash_index digest idx v u) := by
  by_cases hg : v = "" ∨ pytrim v = ""
  · unfold add_to_hash_index
    rw [if_pos hg]
    exact hw
  · unfold add_to_hash_index
    rw [if_neg hg]
    simp only
    intro b' data' hget k l hkl
    by_cases hb : b' = hashBucketOf (digest v)
    · subst hb
      rw [dget_dset_self] at hget
      obtain rfl : bdAdd ((dget idx (hashBucketOf (digest v))).getD []) (digest v) u =
          data' := by injection hget
      cases hd : dget idx (hashBucketOf (digest v)) with
      | none =>
        rw [hd] at hkl
        simp only [Option.getD_none] at hkl
        exact (bdAdd_entries (P := fun _ => True) [] (digest v) u
          (fun k2 l2 h2 => absurd h2 (by simp)) trivial k l hkl).1
      | some data0 =>
        rw [hd] at hkl
        simp only [Option.getD_some] at hkl
        exact (bdAdd_entries (P := fun _ => True) data0 (digest v) u
          (fun k2 l2 h2 => ⟨hw _ data0 hd k2 l2 h2, trivial⟩) trivial k l hkl).1
    · rw [dget_dset_ne _ _ _ _ (fun he => hb he.symm)] at hget
      exact hw b' data' hget k l hkl

theorem hashWF_remove (digest : String → String) (idx : HashIdx) (v u : String)
    (hw : HashWF idx) : HashWF (remove_from_hash_index digest idx v u) := by
  by_cases hg : v = "" ∨ pytrim v = ""
  · unfold remove_from_hash_index
    rw [if_pos hg]
    exact hw
  · unfold remove_from_hash_index
    rw [if_neg hg]
    simp only
    cases hd : dget idx (hashBucketOf (digest v)) with
    | none => exact hw
    | some data0 =>
      simp only
      intro b' data' hget k l hkl
      by_cases hb : b' = hashBucketOf (digest v)
      · subst hb
        rw [dget_dset_self] at hget
        obtain rfl : bdRemove data0 (digest v) u = data' := by injection hget
        exact (bdRemove_entries (P := fun _ => True) data0 (digest v) u
          (fun k2 l2 h2 => ⟨hw _ data0 hd k2 l2 h2, trivial⟩) k l hkl).1
      · rw [dget_dset_ne _ _ _ _ (fun he => hb he.symm)] at hget
        exact hw b' data' hget k l hkl

theorem dateWF_nil : DateWF [] :=
  ⟨List.nodup_nil, fun _ l h => absurd h (by simp)⟩

theorem mem_dateLookup_add (idx : DateIdx) (dateVal : Val) (u u' : String)
    (leaf : DateLeaf) :
    u' ∈ dateLookup (add_to_date_index idx dateVal u) leaf ↔
      u' ∈ dateLookup idx leaf ∨ (datePathOf dateVal = some leaf ∧ u' = u) := by
  cases hp : datePathOf dateVal with
  | none =>
    unfold add_to_date_index
    rw [hp]
    simp
  | some leaf0 =>
    unfold add_to_date_index
    rw [hp]
    simp only
    by_cases hu : u ∈ ((dget idx leaf0).getD none).getD []
    · rw [if_pos hu]
      constructor
      · exact Or.inl
      · rintro (hm | ⟨he, rfl⟩)
        · exact hm
        · obtain rfl : leaf0 = leaf := by injection he
          unfold dateLookup
          cases hd : dget idx leaf0 with
          | none =>
            rw [hd] at hu
            simp at hu
          | some fd =>
            cases fd with
            | none =>
              rw [hd] at hu
              simp at hu
            | some l =>
              rw [hd] at hu
              simpa using hu
    · rw [if_neg hu]
      by_cases hl : leaf = leaf0
      · subst hl
        unfold dateLookup
        rw [dget_dset_self]
        simp only
        cases hd : dget idx leaf with
        | none =>
          rw [hd] at hu
          simp only [Option.getD_none] at hu
          simp
        | some fd =>
          cases fd with
          | none =>
            rw [hd] at hu
            simp only [Option.getD_some, Option.getD_none] at hu
            simp
          | some l =>
            rw [hd] at hu
            simp only [Option.getD_some] at hu
            simp
      · unfold dateLookup
        rw [dget_dset_ne _ _ _ _ (fun he => hl he.symm)]
        constructor
        · exact Or.inl
        · rintro (hm | ⟨he, rfl⟩)
          · exact hm
          · exact absurd (by injection he : leaf0 = leaf) (fun he2 => hl he2.symm)

theorem dateLookup_add_ne (idx : DateIdx) (dateVal : Val) (u : String)
    (leaf : DateLeaf) (h : datePathOf dateVal ≠ some leaf) :
    dateLookup (add_to_date_index idx dateVal u) leaf = dateLookup idx leaf := by
  cases hp : datePathOf dateVal with
  | none =>
    unfold add_to_date_index
    rw [hp]
  | some leaf0 =>
    have hne : leaf ≠ leaf0 := fun he => h (hp.trans (by rw [he]))
    unfold add_to_date_index
    rw [hp]
    simp only
    by_cases hu : u ∈ ((dget idx leaf0).getD none).getD []
    · rw [if_pos hu]
    · rw [if_neg hu]
      unfold dateLookup
      rw [dget_dset_ne _ _ _ _ (fun he => hne he.symm)]

theorem dateLookup_remove_ne (idx : DateIdx) (dateVal : Val) (u : String)
    (leaf : DateLeaf) (h : datePathOf dateVal ≠ some leaf) :
    dateLookup (remove_from_date_index idx dateVal u) leaf = dateLookup idx leaf := by
  cases hp : datePathOf dateVal with
  | none =>
    unfold remove_from_date_index
    rw [hp]
  | some leaf0 =>
    have hne : leaf ≠ leaf0 := fun he => h (hp.trans (by rw [he]))
    unfold remove_from_date_index
    rw [hp]
    simp only
    cases hd : dget idx leaf0 with
    | none => rfl
    | some fd =>
      cases fd with
      | none => rfl
      | some l =>
        simp only
        by_cases hu : u ∈ l
        · rw [if_pos hu]
          by_cases hemp : pyRemoveFirst l u = []
          · rw [if_pos hemp]
            unfold dateLookup
            rw [dget_dset_ne _ _ _ _ (fun he => hne he.symm)]
          · rw [if_neg hemp]
            unfold dateLookup
            rw [dget_dset_ne _ _ _ _ (fun he => hne he.symm)]
        · rw [if_neg hu]

theorem mem_dateLookup_remove_other (idx : DateIdx) (dateVal : Val) (u u' : String)
    (leaf : DateLeaf) (h : u' ≠ u) :
    u' ∈ dateLookup (remove_from_date_index idx dateVal u) leaf ↔
      u' ∈ dateLookup idx leaf := by
  cases hp : datePathOf dateVal with
  | none =>
    unfold remove_from_date_index
    rw [hp]
  | some leaf0 =>
    by_cases hl : leaf = leaf0
    · subst hl
      unfold remove_from_date_index
      rw [hp]
      simp only
      cases hd : dget idx leaf with
      | none => rfl
      | some fd =>
        cases fd with
        | none => rfl
        | some l =>
          simp only
          by_cases hu : u ∈ l
          · rw [if_pos hu]
            by_cases hemp : pyRemoveFirst l u = []
            · rw [if_pos hemp]
              unfold dateLookup
              rw [dget_dset_self, hd]
              simp only [List.not_mem_nil, false_iff]
              intro hm
              have hm2 : u' ∈ pyRemoveFirst l u := (mem_pyRemoveFirst_ne h).mpr hm
              rw [hemp] at hm2
              exact absurd hm2 (List.not_mem_nil u')
            · rw [if_neg hemp]
              unfold dateLookup
              rw [dget_dset_self, hd]
              simp only
              exact mem_pyRemoveFirst_ne h
          · rw [if_neg hu]
    · unfold remove_from_date_index
      rw [hp]
      simp only
      cases hd : dget idx leaf0 with
      | none => rfl
      | some fd =>
        cases fd with
        | none => rfl
        | some l =>
          simp only
          by_cases hu : u ∈ l
          · rw [if_pos hu]
            by_cases hemp : pyRemoveFirst l u = []
            · rw [if_pos hemp]
              unfold dateLookup
              rw [dget_dset_ne _ _ _ _ (fun he => hl he.symm)]
            · rw [if_neg hemp]
              unfold dateLookup
              rw [dget_dset_ne _ _ _ _ (fun he => hl he.symm)]
          · rw [if_neg hu]

theorem not_mem_dateLookup_remove_self (idx : DateIdx) (dateVal : Val) (u : String)
    (leaf : DateLeaf) (hw : DateWF idx) (hp : datePathOf dateVal = some leaf) :
    u ∉ dateLookup (remove_from_date_index idx dateVal u) leaf := by
  unfold remove_from_date_index
  rw [hp]
  simp only
  cases hd : dget idx leaf with
  | none =>
    unfold dateLookup
    rw [hd]
    simp
  | some fd =>
    cases fd with
    | none =>
      unfold dateLookup
      rw [hd]
      simp
    | some l =>
      simp only
      have hl : l.Nodup := hw.2 leaf l hd
      by_cases hu : u ∈ l
      · rw [if_pos hu]
        by_cases hemp : pyRemoveFirst l u = []
        · rw [if_pos hemp]
          unfold dateLookup
          rw [dget_dset_self]
          simp
        · rw [if_neg hemp]
          unfold dateLookup
          rw [dget_dset_self]
          simp only
          intro hm
          exact ((mem_pyRemoveFirst_of_nodup hl u).mp hm).2 rfl
      · rw [if_neg hu]
        unfold dateLookup
        rw [hd]
        exact hu

theorem dateWF_add (idx : DateIdx) (dateVal : Val) (u : String)
    (hw : DateWF idx) : DateWF (add_to_date_index idx dateVal u) := by
  cases hp : datePathOf dateVal with
  | none =>
    unfold add_to_date_index
    rw [hp]
    exact hw
  | some leaf0 =>
    unfold add_to_date_index
    rw [hp]
    simp only
    by_cases hu : u ∈ ((dget idx leaf0).getD none).getD []
    · rw [if_pos hu]
      exact hw
    · rw [if_neg hu]
      refine ⟨nodupKeys_dset _ _ _ hw.1, ?_⟩
      intro leaf l hget
      by_cases hl : leaf = leaf0
      · subst hl
        rw [dget_dset_self] at hget
        obtain hle : some (((dget idx leaf).getD none).getD [] ++ [u]) = some l := by
          injection hget
        obtain rfl : ((dget idx leaf).getD none).getD [] ++ [u] = l := by injection hle
        cases hd : dget idx leaf with
        | none => simp
        | some fd =>
          cases fd with
          | none => simp
          | some l0 =>
            rw [hd] at hu
            simp only [Option.getD_some] at hu ⊢
            have hnd := hw.2 leaf l0 hd
            simp [List.nodup_append, hnd, hu]
      · rw [dget_dset_ne _ _ _ _ (fun he => hl he.symm)] at hget
        exact hw.2 leaf l hget

theorem dateWF_remove (idx : DateIdx) (dateVal : Val) (u : String)
    (hw : DateWF idx) : DateWF (remove_from_date_index idx dateVal u) := by
  cases hp : datePathOf dateVal with
  | none =>
    unfold remove_from_date_index
    rw [hp]
    exact hw
  | some leaf0 =>
    unfold remove_from_date_index
    rw [hp]
    simp only
    cases hd : dget idx leaf0 with
    | none => exact hw
    | some fd =>
      cases fd with
      | none => exact hw
      | some l =>
        simp only
        by_cases hu : u ∈ l
        · rw [if_pos hu]
          have hl : l.Nodup := hw.2 leaf0 l hd
          by_cases hemp : pyRemoveFirst l u = []
          · rw [if_pos hemp]
            refine ⟨nodupKeys_dset _ _ _ hw.1, ?_⟩
            intro leaf l2 hget
            by_cases hlf : leaf = leaf0
            · subst hlf
              rw [dget_dset_self] at hget
              exact absurd hget (by simp)
            · rw [dget_dset_ne _ _ _ _ (fun he => hlf he.symm)] at hget
              exact hw.2 leaf l2 hget
          · rw [if_neg hemp]
            refine ⟨nodupKeys_dset _ _ _ hw.1, ?_⟩
            intro leaf l2 hget
            by_cases hlf : leaf = leaf0
            · subst hlf
              rw [dget_dset_self] at hget
              obtain hle : some (pyRemoveFirst l u) = some l2 := by injection hget
              obtain rfl : pyRemoveFirst l u = l2 := by injection hle
              exact nodup_pyRemoveFirst u hl
            · rw [dget_dset_ne _ _ _ _ (fun he => hlf he.symm)] at hget
              exact hw.2 leaf l2 hget
        · rw [if_neg hu]
          exact hw

theorem mem_dateFold (mth : Option Nat) (year : Nat)
    (l : List (DateLeaf × Option (List String))) (acc : List String) (u : String) :
    u ∈ List.foldl
        (fun acc e =>
          if e.1.1 = toString year ∧ monthSel mth e.1.2.1 ∧ rglobVisible e.1 = true
          then acc ++ (match e.2 with | some l2 => l2 | none => [])
          else acc)
        acc l ↔
      u ∈ acc ∨ ∃ e ∈ l,
        (e.1.1 = toString year ∧ monthSel mth e.1.2.1 ∧ rglobVisible e.1 = true) ∧
          u ∈ (match e.2 with | some l2 => l2 | none => ([] : List String)) := by
  induction l generalizing acc with
  | nil => simp
  | cons e rest ih =>
    rw [List.foldl_cons, ih]
    by_cases hc : e.1.1 = toString year ∧ monthSel mth e.1.2.1 ∧ rglobVisible e.1 = true
    · rw [if_pos hc]
      simp only [List.mem_append, List.mem_cons]
      constructor
      · rintro ((hm | hm) | ⟨e2, he2, hc2, hm2⟩)
        · exact Or.inl hm
        · exact Or.inr ⟨e, Or.inl rfl, hc, hm⟩
        · exact Or.inr ⟨e2, Or.inr he2, hc2, hm2⟩
      · rintro (hm | ⟨e2, he2, hc2, hm2⟩)
        · exact Or.inl (Or.inl hm)
        · rcases he2 with rfl | hmem
          · exact Or.inl (Or.inr hm2)
          · exact Or.inr ⟨e2, hmem, hc2, hm2⟩
    · rw [if_neg hc]
      constructor
      · rintro (hm | ⟨e2, he2, hc2, hm2⟩)
        · exact Or.inl hm
        · exact Or.inr ⟨e2, List.mem_cons_of_mem _ he2, hc2, hm2⟩
      · rintro (hm | ⟨e2, he2, hc2, hm2⟩)
        · exact Or.inl hm
        · rcases List.mem_cons.mp he2 with heq | hmem
          · subst heq
            exact absurd hc2 hc
          · exact Or.inr ⟨e2, hmem, hc2, hm2⟩

theorem mem_search_by_date (idx : DateIdx) (hw : DateWF idx) (year : Nat)
    (month day : Option Nat) (u : String) :
    u ∈ search_by_date idx year month day ↔ dateSearchSpec idx year month day u := by
  unfold search_by_date dateSearchSpec
  cases hdy : day.bind (fun d => if d = 0 then none else some d) with
  | some d =>
    cases hmth : month.bind (fun m => if m = 0 then none else some m) with
    | some m =>
      simp only
      unfold dateLookup
      cases dget idx (toString year, pad2 m, pad2 d) with
      | none => simp
      | some fd => cases fd <;> simp
    | none =>
      simp only
      unfold dateLookup
      cases dget idx (toString year, "", pad2 d) with
      | none => simp
      | some fd => cases fd <;> simp
  | none =>
    simp only
    rw [mem_dateFold]
    simp only [List.not_mem_nil, false_or]
    constructor
    · rintro ⟨e, he, hc, hm⟩
      refine ⟨e.1, hc.1, hc.2.1, hc.2.2, ?_⟩
      unfold dateLookup
      rw [dget_of_mem_nodup hw.1 (show (e.1, e.2) ∈ idx from he)]
      cases he2 : e.2 with
      | none =>
        rw [he2] at hm
        exact absurd hm (List.not_mem_nil u)
      | some l2 =>
        rw [he2] at hm
        exact hm
    · rintro ⟨leaf, h1, h2, h3, hm⟩
      unfold dateLookup at hm
      cases hd : dget idx leaf with
      | none =>
        rw [hd] at hm
        exact absurd hm (List.not_mem_nil u)
      | some fd =>
        cases fd with
        | none =>
          rw [hd] at hm
          exact absurd hm (List.not_mem_nil u)
        | some l2 =>
          rw [hd] at hm
          exact ⟨(leaf, some l2), mem_of_dget_eq_some hd, ⟨h1, h2, h3⟩, hm⟩

theorem dset_dget_self_eq {kappa2 alpha2 : Type} [DecidableEq kappa2]
    {d : Dict kappa2 alpha2} {k : kappa2} {v : alpha2}
    (h : dget d k = some v) : dset d k v = d := by
  induction d with
  | nil => exact absurd h (by simp)
  | cons p t ih =>
    obtain ⟨k0, v0⟩ := p
    by_cases hk : k0 = k
    · subst hk
      simp only [dget, if_pos rfl] at h
      obtain rfl : v0 = v := by injection h
      simp [dset]
    · simp only [dget, if_neg hk] at h
      simp [dset, hk, ih h]

/-- C9: adding an already-present association leaves every index family's
bucket contents unchanged, and add and remove in every family preserve
well-formedness, so no bucket list ever holds the same identifier twice. -/

theorem index_add_idempotent_nodup (digest : String → String) :
    (∀ (idx : TrieIdx) (v u : String), u ∈ trieLookup idx (pynorm v) →
        add_to_trie_index idx v u = idx) ∧
      (∀ (idx : HashIdx) (v u : String), u ∈ hashLookup idx (digest v) →
        add_to_hash_index digest idx v u = idx) ∧
      (∀ (idx : DateIdx) (dv : Val) (u : String) (leaf : DateLeaf),
        datePathOf dv = some leaf → u ∈ dateLookup idx leaf →
        add_to_date_index idx dv u = idx) ∧
      (∀ (idx : TrieIdx) (v u : String), TrieWF idx →
        TrieWF (add_to_trie_index idx v u) ∧ TrieWF (remove_from_trie_index idx v u)) ∧
      (∀ (idx : HashIdx) (v u : String), HashWF idx →
        HashWF (add_to_hash_index digest idx v u) ∧
          HashWF (remove_from_hash_index digest idx v u)) ∧
      (∀ (idx : DateIdx) (dv : Val) (u : String), DateWF idx →
        DateWF (add_to_date_index idx dv u) ∧
          DateWF (remove_from_date_index idx dv u)) := by
  refine ⟨?_, ?_, ?_, ?_, ?_, ?_⟩
  · intro idx v u hm
    by_cases hg : v = "" ∨ pytrim v = ""
    · unfold add_to_trie_index
      rw [if_pos hg]
    · unfold trieLookup at hm
      cases hd : dget idx (trieBucketOf (pynorm v)) with
      | none =>
        rw [hd] at hm
        simp at hm
      | some data =>
        rw [hd] at hm
        simp only [Option.getD_some] at hm
        cases hdk : dget data (pynorm v) with
        | none =>
          rw [hdk] at hm
          simp at hm
        | some l =>
          rw [hdk] at hm
          simp only [Option.getD_some] at hm
          unfold add_to_trie_index
          rw [if_neg hg]
          simp only [hd, Option.getD_some]
          rw [bdAdd_eq_mem hdk hm]
          exact dset_dget_self_eq hd
  · intro idx v u hm
    by_cases hg : v = "" ∨ pytrim v = ""
    · unfold add_to_hash_index
      rw [if_pos hg]
    · unfold hashLookup at hm
      cases hd : dget idx (hashBucketOf (digest v)) with
      | none =>
        rw [hd] at hm
        simp at hm
      | some data =>
        rw [hd] at hm
        simp only [Option.getD_some] at hm
        cases hdk : dget data (digest v) with
        | none =>
          rw [hdk] at hm
          simp at hm
        | some l =>
          rw [hdk] at hm
          simp only [Option.getD_some] at hm
          unfold add_to_hash_index
          rw [if_neg hg]
          simp only [hd, Option.getD_some]
          rw [bdAdd_eq_mem hdk hm]
          exact dset_dget_self_eq hd
  · intro idx dv u leaf hp hm
    unfold add_to_date_index
    rw [hp]
    simp only
    unfold dateLookup at hm
    cases hd : dget idx leaf with
    | none =>
      rw [hd] at hm
      exact absurd hm (List.not_mem_nil u)
    | some fd =>
      cases fd with
      | none =>
        rw [hd] at hm
        exact absurd hm (List.not_mem_nil u)
      | some l =>
        rw [hd] at hm
        simp only at hm
        simp only [Option.getD_some]
        rw [if_pos hm]
  · exact fun idx v u hw => ⟨trieWF_add idx v u hw, trieWF_remove idx v u hw⟩
  · exact fun idx v u hw =>
      ⟨hashWF_add digest idx v u hw, hashWF_remove digest idx v u hw⟩
  · exact fun idx dv u hw => ⟨dateWF_add idx dv u hw, dateWF_remove idx dv u hw⟩

theorem index_add_idempotent_nodup_witness :
    add_to_trie_index [(TrieBucket.two 'j' 'o', [("jo", ["u1"])])] "Jo" "u1" =
        [(TrieBucket.two 'j' 'o', [("jo", ["u1"])])] ∧
      add_to_date_index [((("2024", "06", "05") : DateLeaf), some ["u1"])]
          (Val.s "2024-06-05") "u1" =
        [((("2024", "06", "05") : DateLeaf), some ["u1"])] :=
  ⟨(index_add_idempotent_nodup (fun s => s)).1
      [(TrieBucket.two 'j' 'o', [("jo", ["u1"])])] "Jo" "u1" (by decide),
    (index_add_idempotent_nodup (fun s => s)).2.2.1
      [((("2024", "06", "05") : DateLeaf), some ["u1"])]
      (Val.s "2024-06-05") "u1" ("2024", "06", "05") (by decide) (by decide)⟩

/-- C10 counterexample: the date family has no empty-value guard; adding
with an empty date string writes a bucket file, so the claim fails for
the date index family. -/

theorem index_empty_value_guard_cex :
    add_to_date_index [] (Val.s "") "u1" =
        [((("", "", "") : DateLeaf), some ["u1"])] ∧
      ([((("", "", "") : DateLeaf), some ["u1"])] : DateIdx) ≠ [] :=
  ⟨rfl, by decide⟩

/-- C10 amended: for the prefix and hash families, add and remove with a
value that is empty or whitespace-only return without touching any index
state, and an exact-match search for such a value returns the empty set;
the date family performs no such guard. -/

theorem index_empty_value_guard (digest : String → String) (tidx : TrieIdx)
    (hidx : HashIdx) (v u : String) (hv : pytrim v = "") :
    add_to_trie_index tidx v u = tidx ∧
      remove_from_trie_index tidx v u = tidx ∧
      add_to_hash_index digest hidx v u = hidx ∧
      remove_from_hash_index digest hidx v u = hidx ∧
      search_by_exact_match digest hidx v = [] := by
  have hg : v = "" ∨ pytrim v = "" := Or.inr hv
  refine ⟨?_, ?_, ?_, ?_, ?_⟩
  · unfold add_to_trie_index
    rw [if_pos hg]
  · unfold remove_from_trie_index
    rw [if_pos hg]
  · unfold add_to_hash_index
    rw [if_pos hg]
  · unfold remove_from_hash_index
    rw [if_pos hg]
  · unfold search_by_exact_match
    rw [if_pos hg]

theorem index_empty_value_guard_witness :
    add_to_trie_index [(TrieBucket.two 'j' 'o', [("jo", ["u1"])])] "  " "u2" =
        [(TrieBucket.two 'j' 'o', [("jo", ["u1"])])] ∧
      search_by_exact_match (fun s => s) [] "  " = [] :=
  ⟨(index_empty_value_guard (fun s => s)
      [(TrieBucket.two 'j' 'o', [("jo", ["u1"])])] [] "  " "u2" (by decide)).1,
    (index_empty_value_guard (fun s => s)
      [(TrieBucket.two 'j' 'o', [("jo", ["u1"])])] [] "  " "u2" (by decide)).2.2.2.2⟩

/-- C4 counterexample: for the empty search prefix the claimed
equivalence fails; the value jo is indexed and starts with the empty
prefix but search_by_prefix returns nothing. -/

theorem prefix_search_correct_cex :
    search_by_pref [(TrieBucket.two 'j' 'o', [("jo", ["u1"])])] "" = [] ∧
      pystarts "jo" (pynorm "") = true ∧
      trieLookup [(TrieBucket.two 'j' 'o', [("jo", ["u1"])])] "jo" = ["u1"] :=
  ⟨rfl, by decide, by decide⟩

/-- C4 amended: for every prefix whose normalization is nonempty and
every well-formed trie index, a uuid indexed under value k is returned
by search_by_prefix exactly when k starts with the normalized prefix —
the bucket-addressing scheme (single two-character bucket for long
prefixes, first-character directory scan plus the reserved short bucket
for one-character prefixes) never misses a matching value. -/

theorem prefix_search_correct (idx : TrieIdx) (hw : TrieWF idx)
    (pre k u : String) (hne : pynorm pre ≠ "") :
    u ∈ (dget (search_by_pref idx pre) k).getD [] ↔
      pystarts k (pynorm pre) = true ∧ u ∈ trieLookup idx k := by
  rw [mem_search_by_pref idx hw pre k u]
  simp [hne]

theorem prefix_search_correct_witness :
    "u1" ∈ (dget (search_by_pref (add_to_trie_index [] "Jo" "u1") "J") "jo").getD [] :=
  (prefix_search_correct (add_to_trie_index [] "Jo" "u1")
      (trieWF_add [] "Jo" "u1" trieWF_nil) "J" "jo" "u1" (by decide)).mpr
    ⟨by decide, by decide⟩

/-! Helper lemmas reducing the composite index wiring to the
per-operation membership lemmas. -/

theorem trieAddVal_eq (idx : TrieIdx) (s uuid : String) :
    trieAddVal idx (some (Val.s s)) uuid = add_to_trie_index idx s uuid := by
  unfold trieAddVal
  by_cases hs : s = ""
  · subst hs
    rw [if_neg (by simp [vtruthy])]
    unfold add_to_trie_index
    rw [if_pos (Or.inl rfl)]
  · rw [if_pos (by simp [vtruthy, hs])]

theorem trieRemoveVal_eq (idx : TrieIdx) (s uuid : String) :
    trieRemoveVal idx (some (Val.s s)) uuid = remove_from_trie_index idx s uuid := by
  unfold trieRemoveVal
  by_cases hs : s = ""
  · subst hs
    rw [if_neg (by simp [vtruthy])]
    unfold remove_from_trie_index
    rw [if_pos (Or.inl rfl)]
  · rw [if_pos (by simp [vtruthy, hs])]

theorem trieKeyOfVal_s (s k : String) :
    trieKeyOfVal (some (Val.s s)) = some k ↔ pytrim s ≠ "" ∧ k = pynorm s := by
  show (if pytrim s = "" then none else some (pynorm s)) = some k ↔
    pytrim s ≠ "" ∧ k = pynorm s
  by_cases ht : pytrim s = ""
  · rw [if_pos ht]
    simp [ht]
  · rw [if_neg ht]
    constructor
    · intro h
      exact ⟨ht, by injection h with h2; exact h2.symm⟩
    · rintro ⟨_, rfl⟩
      rfl

theorem mem_trieAdd_s (idx : TrieIdx) (s uuid k u' : String) :
    u' ∈ trieLookup (add_to_trie_index idx s uuid) k ↔
      u' ∈ trieLookup idx k ∨
        (trieKeyOfVal (some (Val.s s)) = some k ∧ u' = uuid) := by
  rw [mem_trieLookup_add]
  constructor
  · rintro (hm | ⟨ht, rfl, rfl⟩)
    · exact Or.inl hm
    · exact Or.inr ⟨(trieKeyOfVal_s s (pynorm s)).mpr ⟨ht, rfl⟩, rfl⟩
  · rintro (hm | ⟨hk, rfl⟩)
    · exact Or.inl hm
    · obtain ⟨ht, rfl⟩ := (trieKeyOfVal_s s k).mp hk
      exact Or.inr ⟨ht, rfl, rfl⟩

theorem not_mem_trieRemove_s (idx : TrieIdx) (s uuid k : String) (hw : TrieWF idx)
    (hk : trieKeyOfVal (some (Val.s s)) = some k) :
    uuid ∉ trieLookup (remove_from_trie_index idx s uuid) k := by
  obtain ⟨ht, rfl⟩ := (trieKeyOfVal_s s k).mp hk
  exact not_mem_trieLookup_remove_self idx s uuid hw ht

theorem trieRemove_s_ne_key (idx : TrieIdx) (s uuid k : String)
    (hk : trieKeyOfVal (some (Val.s s)) ≠ some k) :
    trieLookup (remove_from_trie_index idx s uuid) k = trieLookup idx k := by
  by_cases ht : pytrim s = ""
  · unfold remove_from_trie_index
    rw [if_pos (Or.inr ht)]
  · refine trieLookup_remove_ne_key idx s uuid k ?_
    intro he
    exact hk (by rw [trieKeyOfVal_s]; exact ⟨ht, he⟩)

theorem mem_trieRemove_s_other (idx : TrieIdx) (s uuid k u' : String)
    (h : u' ≠ uuid) :
    u' ∈ trieLookup (remove_from_trie_index idx s uuid) k ↔
      u' ∈ trieLookup idx k :=
  mem_trieLookup_remove_other idx s uuid k u' h

theorem mem_hashFoldAdd (digest : String → String) (ps : List String)
    (idx : HashIdx) (uuid h u' : String) :
    u' ∈ hashLookup (ps.foldl (fun a p => add_to_hash_index digest a p uuid) idx) h ↔
      u' ∈ hashLookup idx h ∨ (u' = uuid ∧ ∃ p ∈ ps, pytrim p ≠ "" ∧ digest p = h) := by
  induction ps generalizing idx with
  | nil => simp
  | cons p rest ih =>
    rw [List.foldl_cons, ih, mem_hashLookup_add]
    constructor
    · rintro ((hm | ⟨ht, rfl, rfl⟩) | ⟨rfl, q, hq, hqt, hqd⟩)
      · exact Or.inl hm
      · exact Or.inr ⟨rfl, p, List.mem_cons_self _ _, ht, rfl⟩
      · exact Or.inr ⟨rfl, q, List.mem_cons_of_mem _ hq, hqt, hqd⟩
    · rintro (hm | ⟨rfl, q, hq, hqt, hqd⟩)
      · exact Or.inl (Or.inl hm)
      · rcases List.mem_cons.mp hq with rfl | hmem
        · exact Or.inl (Or.inr ⟨hqt, hqd.symm, rfl⟩)
        · exact Or.inr ⟨rfl, q, hmem, hqt, hqd⟩

theorem hash_remove_guard (digest : String → String) (idx : HashIdx)
    (p uuid : String) (ht : pytrim p = "") :
    remove_from_hash_index digest idx p uuid = idx := by
  unfold remove_from_hash_index
  rw [if_pos (Or.inr ht)]

theorem hashWF_foldAdd (digest : String → String) (ps : List String)
    (idx : HashIdx) (uuid : String) (hw : HashWF idx) :
    HashWF (ps.foldl (fun a p => add_to_hash_index digest a p uuid) idx) := by
  induction ps generalizing idx with
  | nil => exact hw
  | cons p rest ih =>
    rw [List.foldl_cons]
    exact ih _ (hashWF_add digest idx p uuid hw)

theorem hashWF_foldRemove (digest : String → String) (ps : List String)
    (idx : HashIdx) (uuid : String) (hw : HashWF idx) :
    HashWF (ps.foldl (fun a p => remove_from_hash_index digest a p uuid) idx) := by
  induction ps generalizing idx with
  | nil => exact hw
  | cons p rest ih =>
    rw [List.foldl_cons]
    exact ih _ (hashWF_remove digest idx p uuid hw)

theorem mem_hashFoldRemove_other (digest : String → String) (ps : List String)
    (idx : HashIdx) (uuid h u' : String) (hne : u' ≠ uuid) :
    u' ∈ hashLookup (ps.foldl (fun a p => remove_from_hash_index digest a p uuid) idx) h ↔
      u' ∈ hashLookup idx h := by
  induction ps generalizing idx with
  | nil => exact Iff.rfl
  | cons p rest ih =>
    rw [List.foldl_cons, ih, mem_hashLookup_remove_other digest idx p uuid h u' hne]

theorem mem_hashFoldRemove_self (digest : String → String) (ps : List String)
    (idx : HashIdx) (uuid h : String) (hw : HashWF idx) :
    uuid ∈ hashLookup (ps.foldl (fun a p => remove_from_hash_index digest a p uuid) idx) h ↔
      uuid ∈ hashLookup idx h ∧ ¬∃ p ∈ ps, pytrim p ≠ "" ∧ digest p = h := by
  induction ps generalizing idx with
  | nil => simp
  | cons p rest ih =>
    rw [List.foldl_cons, ih _ (hashWF_remove digest idx p uuid hw)]
    by_cases hp : pytrim p = ""
    · rw [hash_remove_guard digest idx p uuid hp]
      constructor
      · rintro ⟨hm, hrest⟩
        refine ⟨hm, ?_⟩
        rintro ⟨q, hq, hqt, hqd⟩
        rcases List.mem_cons.mp hq with rfl | hmem
        · exact hqt hp
        · exact hrest ⟨q, hmem, hqt, hqd⟩
      · rintro ⟨hm, hall⟩
        exact ⟨hm, fun ⟨q, hq, hqt, hqd⟩ => hall ⟨q, List.mem_cons_of_mem _ hq, hqt, hqd⟩⟩
    · by_cases hd : digest p = h
      · subst hd
        constructor
        · rintro ⟨hm, _⟩
          exact absurd hm (not_mem_hashLookup_remove_self digest idx p uuid hw hp)
        · rintro ⟨_, hall⟩
          exact absurd ⟨p, List.mem_cons_self _ _, hp, rfl⟩ hall
      · rw [hashLookup_remove_ne_key digest idx p uuid h (fun he => hd he.symm)]
        constructor
        · rintro ⟨hm, hrest⟩
          refine ⟨hm, ?_⟩
          rintro ⟨q, hq, hqt, hqd⟩
          rcases List.mem_cons.mp hq with rfl | hmem
          · exact hd hqd
          · exact hrest ⟨q, hmem, hqt, hqd⟩
        · rintro ⟨hm, hall⟩
          exact ⟨hm, fun ⟨q, hq, hqt, hqd⟩ =>
            hall ⟨q, List.mem_cons_of_mem _ hq, hqt, hqd⟩⟩

theorem fieldSpec_iff_some {heap : Heap} {field k u : String} {d : Doc}
    (h : readRecord heap u = some d) :
    fieldSpec heap field k u ↔ trieKeyOfVal (dget d field) = some k := by
  constructor
  · rintro ⟨d2, h2, hk⟩
    rw [h] at h2
    obtain rfl : d = d2 := by injection h2
    exact hk
  · exact fun hk => ⟨d, h, hk⟩

theorem fieldSpec_none {heap : Heap} {field k u : String}
    (h : readRecord heap u = none) : ¬fieldSpec heap field k u := by
  rintro ⟨d2, h2, _⟩
  rw [h] at h2
  exact Option.noConfusion h2

theorem listSpec_iff_some {digest : String → String} {heap : Heap}
    {field h u : String} {d : Doc} (hr : readRecord heap u = some d) :
    listSpec digest heap field h u ↔
      ∃ p ∈ getItems d field, pytrim p ≠ "" ∧ digest p = h := by
  constructor
  · rintro ⟨d2, h2, hp⟩
    rw [hr] at h2
    obtain rfl : d = d2 := by injection h2
    exact hp
  · exact fun hp => ⟨d, hr, hp⟩

theorem listSpec_none {digest : String → String} {heap : Heap} {field h u : String}
    (hr : readRecord heap u = none) : ¬listSpec digest heap field h u := by
  rintro ⟨d2, h2, _⟩
  rw [hr] at h2
  exact Option.noConfusion h2

theorem dateSpecH_iff_some {heap : Heap} {leaf : DateLeaf} {u : String} {d : Doc}
    (hr : readRecord heap u = some d) :
    dateSpecH heap leaf u ↔
      ∃ v, dget d "created_at" = some v ∧ datePathOf v = some leaf := by
  constructor
  · rintro ⟨d2, h2, hp⟩
    rw [hr] at h2
    obtain rfl : d = d2 := by injection h2
    exact hp
  · exact fun hp => ⟨d, hr, hp⟩

theorem dateSpecH_none {heap : Heap} {leaf : DateLeaf} {u : String}
    (hr : readRecord heap u = none) : ¬dateSpecH heap leaf u := by
  rintro ⟨d2, h2, _⟩
  rw [hr] at h2
  exact Option.noConfusion h2

theorem mem_dset_iff {d : Heap} {key : String} {v : FileContent}
    (hnd : NodupKeys d) {k : String} {c : FileContent} :
    (k, c) ∈ dset d key v ↔ ((k, c) ∈ d ∧ k ≠ key) ∨ (k = key ∧ c = v) := by
  induction d with
  | nil =>
    simp only [dset, List.mem_singleton, List.not_mem_nil, false_and, false_or,
      Prod.mk.injEq]
  | cons p t ih =>
    obtain ⟨k0, w⟩ := p
    unfold NodupKeys dkeys at hnd
    simp only [List.map_cons, List.nodup_cons] at hnd
    by_cases hk0 : k0 = key
    · subst hk0
      have hds : dset ((k0, w) :: t) k0 v = (k0, v) :: t := by simp [dset]
      rw [hds]
      simp only [List.mem_cons, Prod.mk.injEq]
      constructor
      · rintro (⟨rfl, rfl⟩ | hm)
        · exact Or.inr ⟨rfl, rfl⟩
        · refine Or.inl ⟨Or.inr hm, ?_⟩
          intro rfl2
          exact hnd.1 (by subst rfl2; exact List.mem_map_of_mem Prod.fst hm)
      · rintro (⟨(⟨rfl, rfl⟩ | hm), hne⟩ | ⟨rfl, rfl⟩)
        · exact absurd rfl hne
        · exact Or.inr hm
        · exact Or.inl ⟨rfl, rfl⟩
    · have hds : dset ((k0, w) :: t) key v = (k0, w) :: dset t key v := by
        simp [dset, hk0]
      rw [hds]
      simp only [List.mem_cons, Prod.mk.injEq]
      rw [ih hnd.2]
      constructor
      · rintro (⟨rfl, rfl⟩ | ⟨hm, hne⟩ | ⟨rfl, rfl⟩)
        · exact Or.inl ⟨Or.inl ⟨rfl, rfl⟩, hk0⟩
        · exact Or.inl ⟨Or.inr hm, hne⟩
        · exact Or.inr ⟨rfl, rfl⟩
      · rintro (⟨(⟨rfl, rfl⟩ | hm), hne⟩ | ⟨rfl, rfl⟩)
        · exact Or.inl ⟨rfl, rfl⟩
        · exact Or.inr (Or.inl ⟨hm, hne⟩)
        · exact Or.inr (Or.inr ⟨rfl, rfl⟩)

theorem mem_derase {d : Heap} {key k : String} {c : FileContent}
    (h : (k, c) ∈ derase d key) : (k, c) ∈ d :=
  (derase_sublist d key).mem h

theorem heapWFC_read {heap : Heap} (hw : HeapWFC heap) {u : String} {d : Doc}
    (h : readRecord heap u = some d) :
    dget d "uuid" = some (Val.s u) ∧ u ≠ "" ∧
      (∃ s, dget d "first_name" = some (Val.s s)) ∧
      (∃ s, dget d "last_name" = some (Val.s s)) ∧
      (∃ ls, dget d "phones" = some (Val.l ls)) ∧
      (∃ ls, dget d "emails" = some (Val.l ls)) := by
  have hg := readRecord_some_iff.mp h
  have hm := mem_of_dget_eq_some hg
  obtain ⟨d2, hval, rest⟩ := hw.2 u (FileContent.valid d) hm
  obtain rfl : d = d2 := by injection hval
  exact rest

theorem heapWFN_read {heap : Heap} (hw : HeapWFN heap) {u : String} {d : Doc}
    (h : readRecord heap u = some d) :
    dget d "uuid" = some (Val.s u) ∧ u ≠ "" ∧
      (∃ s, dget d "title" = some (Val.s s)) ∧
      (∃ v, dget d "created_at" = some v) := by
  have hg := readRecord_some_iff.mp h
  have hm := mem_of_dget_eq_some hg
  obtain ⟨d2, hval, rest⟩ := hw.2 u (FileContent.valid d) hm
  obtain rfl : d = d2 := by injection hval
  exact rest

/-! Per-component preservation of trie canonicity under the repository
operations. -/

theorem trieCanon_add_fresh {idx : TrieIdx} {heap : Heap} {field : String}
    (hc : TrieCanon idx (fieldSpec heap field)) (freshId : String) {d : Doc}
    (s : String) (hfresh : readRecord heap freshId = none)
    (hdf : dget d field = some (Val.s s)) :
    TrieCanon (add_to_trie_index idx s freshId)
      (fieldSpec (dset heap freshId (FileContent.valid d)) field) := by
  refine ⟨trieWF_add idx s freshId hc.1, ?_⟩
  intro k u
  rw [mem_trieAdd_s]
  by_cases hu : u = freshId
  · subst hu
    have hr2 : readRecord (dset heap u (FileContent.valid d)) u = some d := by
      rw [readRecord_some_iff, dget_dset_self]
    rw [fieldSpec_iff_some hr2, hdf]
    have hnot : ¬(u ∈ trieLookup idx k) := by
      rw [hc.2 k u]
      exact fieldSpec_none hfresh
    constructor
    · rintro (hm | ⟨hk, _⟩)
      · exact absurd hm hnot
      · exact hk
    · exact fun hk => Or.inr ⟨hk, rfl⟩
  · have hr2 : readRecord (dset heap freshId (FileContent.valid d)) u =
        readRecord heap u := readRecord_dset_ne _ _ _ _ (Ne.symm hu)
    unfold fieldSpec
    rw [hr2]
    have hold := hc.2 k u
    unfold fieldSpec at hold
    rw [hold]
    constructor
    · rintro (hm | ⟨_, he⟩)
      · exact hm
      · exact absurd he hu
    · exact Or.inl

theorem trieCanon_update {idx : TrieIdx} {heap : Heap} {field : String}
    (hc : TrieCanon idx (fieldSpec heap field)) (uuid : String) {old stored : Doc}
    (sold snew : String) (hread : readRecord heap uuid = some old)
    (holdf : dget old field = some (Val.s sold))
    (hstoredf : dget stored field = some (Val.s snew)) :
    TrieCanon (add_to_trie_index (remove_from_trie_index idx sold uuid) snew uuid)
      (fieldSpec (dset heap uuid (FileContent.valid stored)) field) := by
  refine ⟨trieWF_add _ snew uuid (trieWF_remove idx sold uuid hc.1), ?_⟩
  intro k u
  rw [mem_trieAdd_s]
  by_cases hu : u = uuid
  · subst hu
    have hnot : ¬(u ∈ trieLookup (remove_from_trie_index idx sold u) k) := by
      by_cases hko : trieKeyOfVal (some (Val.s sold)) = some k
      · exact not_mem_trieRemove_s idx sold u k hc.1 hko
      · rw [trieRemove_s_ne_key idx sold u k hko, hc.2 k u,
          fieldSpec_iff_some hread, holdf]
        exact hko
    have hr2 : readRecord (dset heap u (FileContent.valid stored)) u = some stored := by
      rw [readRecord_some_iff, dget_dset_self]
    rw [fieldSpec_iff_some hr2, hstoredf]
    constructor
    · rintro (hm | ⟨hk, _⟩)
      · exact absurd hm hnot
      · exact hk
    · exact fun hk => Or.inr ⟨hk, rfl⟩
  · have hr2 : readRecord (dset heap uuid (FileContent.valid stored)) u =
        readRecord heap u := readRecord_dset_ne _ _ _ _ (Ne.symm hu)
    rw [mem_trieRemove_s_other idx sold uuid k u hu]
    unfold fieldSpec
    rw [hr2]
    have hold := hc.2 k u
    unfold fieldSpec at hold
    rw [hold]
    constructor
    · rintro (hm | ⟨_, he⟩)
      · exact hm
      · exact absurd he hu
    · exact Or.inl

theorem trieCanon_delete {idx : TrieIdx} {heap : Heap} {field : String}
    (hc : TrieCanon idx (fieldSpec heap field)) (uuid : String) {old : Doc}
    (sold : String) (hread : readRecord heap uuid = some old)
    (holdf : dget old field = some (Val.s sold)) :
    TrieCanon (remove_from_trie_index idx sold uuid)
      (fieldSpec (derase heap uuid) field) := by
  refine ⟨trieWF_remove idx sold uuid hc.1, ?_⟩
  intro k u
  by_cases hu : u = uuid
  · subst hu
    have hnot : ¬(u ∈ trieLookup (remove_from_trie_index idx sold u) k) := by
      by_cases hko : trieKeyOfVal (some (Val.s sold)) = some k
      · exact not_mem_trieRemove_s idx sold u k hc.1 hko
      · rw [trieRemove_s_ne_key idx sold u k hko, hc.2 k u,
          fieldSpec_iff_some hread, holdf]
        exact hko
    have hr2 : readRecord (derase heap u) u = none := readRecord_derase_self heap u
    constructor
    · exact fun hm => absurd hm hnot
    · exact fun hs => absurd hs (fieldSpec_none hr2)
  · have hr2 : readRecord (derase heap uuid) u = readRecord heap u :=
      readRecord_derase_ne _ _ _ (Ne.symm hu)
    rw [mem_trieRemove_s_other idx sold uuid k u hu]
    unfold fieldSpec
    rw [hr2]
    have hold := hc.2 k u
    unfold fieldSpec at hold
    rw [hold]

/-! Per-component preservation of hash canonicity. -/

theorem hashCanon_add_fresh (digest : String → String) {idx : HashIdx} {heap : Heap}
    {field : String} (hc : HashCanon idx (listSpec digest heap field))
    (freshId : String) (d : Doc) (hfresh : readRecord heap freshId = none) :
    HashCanon
      ((getItems d field).foldl (fun a p => add_to_hash_index digest a p freshId) idx)
      (listSpec digest (dset heap freshId (FileContent.valid d)) field) := by
  refine ⟨hashWF_foldAdd digest _ idx freshId hc.1, ?_⟩
  intro h u
  rw [mem_hashFoldAdd]
  by_cases hu : u = freshId
  · subst hu
    have hr2 : readRecord (dset heap u (FileContent.valid d)) u = some d := by
      rw [readRecord_some_iff, dget_dset_self]
    rw [listSpec_iff_some hr2]
    have hnot : ¬(u ∈ hashLookup idx h) := by
      rw [hc.2 h u]
      exact listSpec_none hfresh
    constructor
    · rintro (hm | ⟨_, hp⟩)
      · exact absurd hm hnot
      · exact hp
    · exact fun hp => Or.inr ⟨rfl, hp⟩
  · have hr2 : readRecord (dset heap freshId (FileContent.valid d)) u =
        readRecord heap u := readRecord_dset_ne _ _ _ _ (Ne.symm hu)
    unfold listSpec
    rw [hr2]
    have hold := hc.2 h u
    unfold listSpec at hold
    rw [hold]
    constructor
    · rintro (hm | ⟨he, _⟩)
      · exact hm
      · exact absurd he hu
    · exact Or.inl

theorem hashCanon_update (digest : String → String) {idx : HashIdx} {heap : Heap}
    {field : String} (hc : HashCanon idx (listSpec digest heap field))
    (uuid : String) {old : Doc} (newd stored : Doc)
    (hread : readRecord heap uuid = some old)
    (hsf : getItems stored field = getItems newd field) :
    HashCanon
      ((getItems newd field).foldl (fun a p => add_to_hash_index digest a p uuid)
        ((getItems old field).foldl (fun a p => remove_from_hash_index digest a p uuid) idx))
      (listSpec digest (dset heap uuid (FileContent.valid stored)) field) := by
  refine ⟨hashWF_foldAdd digest _ _ uuid
    (hashWF_foldRemove digest _ idx uuid hc.1), ?_⟩
  intro h u
  rw [mem_hashFoldAdd]
  by_cases hu : u = uuid
  · subst hu
    have hr2 : readRecord (dset heap u (FileContent.valid stored)) u = some stored := by
      rw [readRecord_some_iff, dget_dset_self]
    rw [listSpec_iff_some hr2, hsf,
      mem_hashFoldRemove_self digest _ idx u h hc.1, hc.2 h u,
      listSpec_iff_some hread]
    constructor
    · rintro (⟨hm, hnot⟩ | ⟨_, hp⟩)
      · exact absurd hm hnot
      · exact hp
    · exact fun hp => Or.inr ⟨rfl, hp⟩
  · have hr2 : readRecord (dset heap uuid (FileContent.valid stored)) u =
        readRecord heap u := readRecord_dset_ne _ _ _ _ (Ne.symm hu)
    rw [mem_hashFoldRemove_other digest _ idx uuid h u hu]
    unfold listSpec
    rw [hr2]
    have hold := hc.2 h u
    unfold listSpec at hold
    rw [hold]
    constructor
    · rintro (hm | ⟨he, _⟩)
      · exact hm
      · exact absurd he hu
    · exact Or.inl

theorem hashCanon_delete (digest : String → String) {idx : HashIdx} {heap : Heap}
    {field : String} (hc : HashCanon idx (listSpec digest heap field))
    (uuid : String) {old : Doc} (hread : readRecord heap uuid = some old) :
    HashCanon
      ((getItems old field).foldl (fun a p => remove_from_hash_index digest a p uuid) idx)
      (listSpec digest (derase heap uuid) field) := by
  refine ⟨hashWF_foldRemove digest _ idx uuid hc.1, ?_⟩
  intro h u
  by_cases hu : u = uuid
  · subst hu
    rw [mem_hashFoldRemove_self digest _ idx u h hc.1, hc.2 h u,
      listSpec_iff_some hread]
    have hr2 : readRecord (derase heap u) u = none := readRecord_derase_self heap u
    constructor
    · rintro ⟨hm, hnot⟩
      exact absurd hm hnot
    · exact fun hs => absurd hs (listSpec_none hr2)
  · have hr2 : readRecord (derase heap uuid) u = readRecord heap u :=
      readRecord_derase_ne _ _ _ (Ne.symm hu)
    rw [mem_hashFoldRemove_other digest _ idx uuid h u hu]
    unfold listSpec
    rw [hr2]
    have hold := hc.2 h u
    unfold listSpec at hold
    rw [hold]

/-! Per-component preservation of date canonicity. -/

theorem dateCanon_add_fresh {idx : DateIdx} {heap : Heap}
    (hc : DateCanon idx (dateSpecH heap)) (freshId : String) {d : Doc} (v : Val)
    (hfresh : readRecord heap freshId = none)
    (hdv : dget d "created_at" = some v) :
    DateCanon (add_to_date_index idx v freshId)
      (dateSpecH (dset heap freshId (FileContent.valid d))) := by
  refine ⟨dateWF_add idx v freshId hc.1, ?_⟩
  intro leaf u
  rw [mem_dateLookup_add]
  by_cases hu : u = freshId
  · subst hu
    have hr2 : readRecord (dset heap u (FileContent.valid d)) u = some d := by
      rw [readRecord_some_iff, dget_dset_self]
    rw [dateSpecH_iff_some hr2]
    have hnot : ¬(u ∈ dateLookup idx leaf) := by
      rw [hc.2 leaf u]
      exact dateSpecH_none hfresh
    constructor
    · rintro (hm | ⟨hp, _⟩)
      · exact absurd hm hnot
      · exact ⟨v, hdv, hp⟩
    · rintro ⟨w, hw, hp⟩
      rw [hdv] at hw
      obtain rfl : v = w := by injection hw
      exact Or.inr ⟨hp, rfl⟩
  · have hr2 : readRecord (dset heap freshId (FileContent.valid d)) u =
        readRecord heap u := readRecord_dset_ne _ _ _ _ (Ne.symm hu)
    unfold dateSpecH
    rw [hr2]
    have hold := hc.2 leaf u
    unfold dateSpecH at hold
    rw [hold]
    constructor
    · rintro (hm | ⟨_, he⟩)
      · exact hm
      · exact absurd he hu
    · exact Or.inl

theorem dateCanon_delete {idx : DateIdx} {heap : Heap}
    (hc : DateCanon idx (dateSpecH heap)) (uuid : String) {old : Doc} (v : Val)
    (hread : readRecord heap uuid = some old)
    (hdv : dget old "created_at" = some v) :
    DateCanon (remove_from_date_index idx v uuid)
      (dateSpecH (derase heap uuid)) := by
  refine ⟨dateWF_remove idx v uuid hc.1, ?_⟩
  intro leaf u
  by_cases hu : u = uuid
  · subst hu
    have hnot : ¬(u ∈ dateLookup (remove_from_date_index idx v u) leaf) := by
      by_cases hp : datePathOf v = some leaf
      · exact not_mem_dateLookup_remove_self idx v u leaf hc.1 hp
      · rw [dateLookup_remove_ne idx v u leaf hp, hc.2 leaf u,
          dateSpecH_iff_some hread]
        rintro ⟨w, hw, hpw⟩
        rw [hdv] at hw
        obtain rfl : v = w := by injection hw
        exact hp hpw
    have hr2 : readRecord (derase heap u) u = none := readRecord_derase_self heap u
    constructor
    · exact fun hm => absurd hm hnot
    · exact fun hs => absurd hs (dateSpecH_none hr2)
  · have hr2 : readRecord (derase heap uuid) u = readRecord heap u :=
      readRecord_derase_ne _ _ _ (Ne.symm hu)
    rw [mem_dateLookup_remove_other idx v uuid u leaf hu]
    unfold dateSpecH
    rw [hr2]
    have hold := hc.2 leaf u
    unfold dateSpecH at hold
    rw [hold]

/-! Canonicity is stable under a heap update that does not change the
indexed field (the notes date index across update_note, and the title
index when the title is unchanged). -/

theorem dateCanon_heap_update {idx : DateIdx} {heap : Heap}
    (hc : DateCanon idx (dateSpecH heap)) (uuid : String) {old : Doc}
    (stored : Doc) (hread : readRecord heap uuid = some old)
    (hsame : dget stored "created_at" = dget old "created_at") :
    DateCanon idx (dateSpecH (dset heap uuid (FileContent.valid stored))) := by
  refine ⟨hc.1, ?_⟩
  intro leaf u
  rw [hc.2 leaf u]
  by_cases hu : u = uuid
  · subst hu
    have hr2 : readRecord (dset heap u (FileContent.valid stored)) u = some stored := by
      rw [readRecord_some_iff, dget_dset_self]
    rw [dateSpecH_iff_some hread, dateSpecH_iff_some hr2, hsame]
  · have hr2 : readRecord (dset heap uuid (FileContent.valid stored)) u =
        readRecord heap u := readRecord_dset_ne _ _ _ _ (Ne.symm hu)
    unfold dateSpecH
    rw [hr2]

theorem trieCanon_heap_update {idx : TrieIdx} {heap : Heap} {field : String}
    (hc : TrieCanon idx (fieldSpec heap field)) (uuid : String) {old : Doc}
    (stored : Doc) (hread : readRecord heap uuid = some old)
    (hsame : dget stored field = dget old field) :
    TrieCanon idx (fieldSpec (dset heap uuid (FileContent.valid stored)) field) := by
  refine ⟨hc.1, ?_⟩
  intro k u
  rw [hc.2 k u]
  by_cases hu : u = uuid
  · subst hu
    have hr2 : readRecord (dset heap u (FileContent.valid stored)) u = some stored := by
      rw [readRecord_some_iff, dget_dset_self]
    rw [fieldSpec_iff_some hread, fieldSpec_iff_some hr2, hsame]
  · have hr2 : readRecord (dset heap uuid (FileContent.valid stored)) u =
        readRecord heap u := readRecord_dset_ne _ _ _ _ (Ne.symm hu)
    unfold fieldSpec
    rw [hr2]

/-! Heap well-formedness is preserved by writing a well-shaped document
and by unlinking a file. -/

theorem heapWFC_dset {heap : Heap} (hw : HeapWFC heap) {k : String} {d : Doc}
    (hu : dget d "uuid" = some (Val.s k)) (hk : k ≠ "")
    (hfn : ∃ s, dget d "first_name" = some (Val.s s))
    (hln : ∃ s, dget d "last_name" = some (Val.s s))
    (hph : ∃ ls, dget d "phones" = some (Val.l ls))
    (hem : ∃ ls, dget d "emails" = some (Val.l ls)) :
    HeapWFC (dset heap k (FileContent.valid d)) := by
  refine ⟨nodupKeys_dset heap k _ hw.1, ?_⟩
  intro k2 c hm
  rw [mem_dset_iff hw.1] at hm
  rcases hm with ⟨hm, _⟩ | ⟨rfl, rfl⟩
  · exact hw.2 k2 c hm
  · exact ⟨d, rfl, hu, hk, hfn, hln, hph, hem⟩

theorem heapWFC_derase {heap : Heap} (hw : HeapWFC heap) (k : String) :
    HeapWFC (derase heap k) :=
  ⟨nodupKeys_derase heap k hw.1, fun k2 c hm => hw.2 k2 c (mem_derase hm)⟩

theorem heapWFN_dset {heap : Heap} (hw : HeapWFN heap) {k : String} {d : Doc}
    (hu : dget d "uuid" = some (Val.s k)) (hk : k ≠ "")
    (ht : ∃ s, dget d "title" = some (Val.s s))
    (hcr : ∃ v, dget d "created_at" = some v) :
    HeapWFN (dset heap k (FileContent.valid d)) := by
  refine ⟨nodupKeys_dset heap k _ hw.1, ?_⟩
  intro k2 c hm
  rw [mem_dset_iff hw.1] at hm
  rcases hm with ⟨hm, _⟩ | ⟨rfl, rfl⟩
  · exact hw.2 k2 c hm
  · exact ⟨d, rfl, hu, hk, ht, hcr⟩

theorem heapWFN_derase {heap : Heap} (hw : HeapWFN heap) (k : String) :
    HeapWFN (derase heap k) :=
  ⟨nodupKeys_derase heap k hw.1, fun k2 c hm => hw.2 k2 c (mem_derase hm)⟩

/-! What _add_metadata leaves in each field. -/

theorem dget_add_metadata_uuid (existing newData : Doc) (now : String) :
    dget (add_metadata existing newData now) "uuid" =
      some ((dget existing "uuid").getD Val.null) := by
  unfold add_metadata
  rw [dget_dset_ne _ _ _ _ (by decide), dget_dset_ne _ _ _ _ (by decide),
    dget_dset_self]

theorem dget_add_metadata_created (existing newData : Doc) (now : String) :
    dget (add_metadata existing newData now) "created_at" =
      some ((dget existing "created_at").getD (Val.s now)) := by
  unfold add_metadata
  rw [dget_dset_ne _ _ _ _ (by decide), dget_dset_self]

theorem dget_add_metadata_other (existing newData : Doc) (now field : String)
    (h1 : field ≠ "uuid") (h2 : field ≠ "created_at") (h3 : field ≠ "updated_at") :
    dget (add_metadata existing newData now) field = dget newData field := by
  unfold add_metadata
  rw [dget_dset_ne _ _ _ _ (fun h => h3 h.symm),
    dget_dset_ne _ _ _ _ (fun h => h2 h.symm),
    dget_dset_ne _ _ _ _ (fun h => h1 h.symm)]

theorem getItems_congr {d1 d2 : Doc} (key : String)
    (h : dget d1 key = dget d2 key) : getItems d1 key = getItems d2 key := by
  unfold getItems
  rw [h]

theorem dget_newContact_first (old : Doc) (fn0 ln0 : Option String)
    (ph0 em0 ni0 : Option (List String)) (extra : Dict String Val)
    (hex : ExtraOkC extra) :
    dget (newContact old fn0 ln0 ph0 em0 ni0 extra) "first_name" =
      (match fn0 with | some t => some (Val.s t) | none => dget old "first_name") := by
  have he : dget extra "first_name" = none :=
    dget_eq_none_of_not_mem_keys (fun hm => (hex _ hm).1 rfl)
  unfold newContact
  rw [dget_dupdate_none he]
  cases ni0 <;> cases em0 <;> cases ph0 <;> cases ln0 <;> cases fn0 <;> simp

theorem dget_newContact_last (old : Doc) (fn0 ln0 : Option String)
    (ph0 em0 ni0 : Option (List String)) (extra : Dict String Val)
    (hex : ExtraOkC extra) :
    dget (newContact old fn0 ln0 ph0 em0 ni0 extra) "last_name" =
      (match ln0 with | some t => some (Val.s t) | none => dget old "last_name") := by
  have he : dget extra "last_name" = none :=
    dget_eq_none_of_not_mem_keys (fun hm => (hex _ hm).2.1 rfl)
  unfold newContact
  rw [dget_dupdate_none he]
  cases ni0 <;> cases em0 <;> cases ph0 <;> cases ln0 <;> cases fn0 <;> simp

theorem dget_newContact_phones (old : Doc) (fn0 ln0 : Option String)
    (ph0 em0 ni0 : Option (List String)) (extra : Dict String Val)
    (hex : ExtraOkC extra) :
    dget (newContact old fn0 ln0 ph0 em0 ni0 extra) "phones" =
      (match ph0 with | some ls => some (Val.l ls) | none => dget old "phones") := by
  have he : dget extra "phones" = none :=
    dget_eq_none_of_not_mem_keys (fun hm => (hex _ hm).2.2.1 rfl)
  unfold newContact
  rw [dget_dupdate_none he]
  cases ni0 <;> cases em0 <;> cases ph0 <;> cases ln0 <;> cases fn0 <;> simp

theorem dget_newContact_emails (old : Doc) (fn0 ln0 : Option String)
    (ph0 em0 ni0 : Option (List String)) (extra : Dict String Val)
    (hex : ExtraOkC extra) :
    dget (newContact old fn0 ln0 ph0 em0 ni0 extra) "emails" =
      (match em0 with | some ls => some (Val.l ls) | none => dget old "emails") := by
  have he : dget extra "emails" = none :=
    dget_eq_none_of_not_mem_keys (fun hm => (hex _ hm).2.2.2.1 rfl)
  unfold newContact
  rw [dget_dupdate_none he]
  cases ni0 <;> cases em0 <;> cases ph0 <;> cases ln0 <;> cases fn0 <;> simp

theorem dget_newNote_title (old : Doc) (t0 c0 : Option String)
    (g0 i0 : Option (List String)) (extra : Dict String Val)
    (hex : ExtraOkN extra) :
    dget (newNote old t0 c0 g0 i0 extra) "title" =
      (match t0 with | some t => some (Val.s t) | none => dget old "title") := by
  have he : dget extra "title" = none :=
    dget_eq_none_of_not_mem_keys (fun hm => (hex _ hm).1 rfl)
  unfold newNote
  rw [dget_dupdate_none he]
  cases i0 <;> cases g0 <;> cases c0 <;> cases t0 <;> simp

/-! CInv preservation: add_contact. -/

theorem cInv_insert_fresh (digest : String → String) {r : ContactsRepo}
    (hinv : CInv digest r) (freshId : String) (d : Doc)
    (hfresh : dget r.heap freshId = none) (hne : freshId ≠ "")
    (hu : dget d "uuid" = some (Val.s freshId))
    (hfn : ∃ s, dget d "first_name" = some (Val.s s))
    (hln : ∃ s, dget d "last_name" = some (Val.s s))
    (hph : ∃ ls, dget d "phones" = some (Val.l ls))
    (hem : ∃ ls, dget d "emails" = some (Val.l ls)) :
    CInv digest
      (c_add_to_indexes digest
        { r with heap := dset r.heap freshId (FileContent.valid d) } freshId d) := by
  obtain ⟨hwf, hcfn, hcln, hcph, hcem⟩ := hinv
  have hreadf : readRecord r.heap freshId = none := by
    unfold readRecord
    rw [hfresh]
  obtain ⟨s1, hs1⟩ := hfn
  obtain ⟨s2, hs2⟩ := hln
  unfold CInv
  refine ⟨?_, ?_, ?_, ?_, ?_⟩
  · exact heapWFC_dset hwf hu hne ⟨s1, hs1⟩ ⟨s2, hs2⟩ hph hem
  · show TrieCanon (trieAddVal r.fn (dget d "first_name") freshId)
      (fieldSpec (dset r.heap freshId (FileContent.valid d)) "first_name")
    rw [hs1, trieAddVal_eq]
    exact trieCanon_add_fresh hcfn freshId s1 hreadf hs1
  · show TrieCanon (trieAddVal r.ln (dget d "last_name") freshId)
      (fieldSpec (dset r.heap freshId (FileContent.valid d)) "last_name")
    rw [hs2, trieAddVal_eq]
    exact trieCanon_add_fresh hcln freshId s2 hreadf hs2
  · show HashCanon
      ((getItems d "phones").foldl (fun a p => add_to_hash_index digest a p freshId) r.ph)
      (listSpec digest (dset r.heap freshId (FileContent.valid d)) "phones")
    exact hashCanon_add_fresh digest hcph freshId d hreadf
  · show HashCanon
      ((getItems d "emails").foldl (fun a p => add_to_hash_index digest a p freshId) r.em)
      (listSpec digest (dset r.heap freshId (FileContent.valid d)) "emails")
    exact hashCanon_add_fresh digest hcem freshId d hreadf

theorem cInv_add (digest : String → String) {r : ContactsRepo}
    (hinv : CInv digest r) (freshId now first_name last_name : String)
    (phones emails note_ids : List String) (extra : Dict String Val)
    (hfresh : dget r.heap freshId = none) (hne : freshId ≠ "")
    (hex : ExtraOkC extra) :
    CInv digest
      (add_contact digest r freshId now first_name last_name phones emails
        note_ids extra).2 := by
  have he1 : dget extra "first_name" = none :=
    dget_eq_none_of_not_mem_keys (fun hm => (hex _ hm).1 rfl)
  have he2 : dget extra "last_name" = none :=
    dget_eq_none_of_not_mem_keys (fun hm => (hex _ hm).2.1 rfl)
  have he3 : dget extra "phones" = none :=
    dget_eq_none_of_not_mem_keys (fun hm => (hex _ hm).2.2.1 rfl)
  have he4 : dget extra "emails" = none :=
    dget_eq_none_of_not_mem_keys (fun hm => (hex _ hm).2.2.2.1 rfl)
  show CInv digest
    (c_add_to_indexes digest
      { r with heap := dset r.heap freshId (FileContent.valid
        (dset (dset (dset (dupdate
          [("first_name", Val.s first_name), ("last_name", Val.s last_name),
            ("phones", Val.l phones), ("emails", Val.l emails),
            ("note_ids", Val.l note_ids)] extra)
          "uuid" (Val.s freshId)) "created_at" (Val.s now)) "updated_at" (Val.s now))) }
      freshId
      (dset (dset (dset (dupdate
        [("first_name", Val.s first_name), ("last_name", Val.s last_name),
          ("phones", Val.l phones), ("emails", Val.l emails),
          ("note_ids", Val.l note_ids)] extra)
        "uuid" (Val.s freshId)) "created_at" (Val.s now)) "updated_at" (Val.s now)))
  refine cInv_insert_fresh digest hinv freshId _ hfresh hne ?_ ?_ ?_ ?_ ?_
  · rw [dget_dset_ne _ _ _ _ (by decide), dget_dset_ne _ _ _ _ (by decide),
      dget_dset_self]
  · refine ⟨first_name, ?_⟩
    rw [dget_dset_ne _ _ _ _ (by decide), dget_dset_ne _ _ _ _ (by decide),
      dget_dset_ne _ _ _ _ (by decide), dget_dupdate_none he1]
    simp [dget]
  · refine ⟨last_name, ?_⟩
    rw [dget_dset_ne _ _ _ _ (by decide), dget_dset_ne _ _ _ _ (by decide),
      dget_dset_ne _ _ _ _ (by decide), dget_dupdate_none he2]
    simp [dget]
  · refine ⟨phones, ?_⟩
    rw [dget_dset_ne _ _ _ _ (by decide), dget_dset_ne _ _ _ _ (by decide),
      dget_dset_ne _ _ _ _ (by decide), dget_dupdate_none he3]
    simp [dget]
  · refine ⟨emails, ?_⟩
    rw [dget_dset_ne _ _ _ _ (by decide), dget_dset_ne _ _ _ _ (by decide),
      dget_dset_ne _ _ _ _ (by decide), dget_dupdate_none he4]
    simp [dget]

/-! CInv preservation: update_contact. -/

theorem update_contact_repo_none (digest : String → String) (r : ContactsRepo)
    (uuid : String) (fn0 ln0 : Option String) (ph0 em0 ni0 : Option (List String))
    (extra : Dict String Val) (now : String)
    (hread : readRecord r.heap uuid = none) :
    update_contact_repo digest r uuid fn0 ln0 ph0 em0 ni0 extra now =
      Except.ok (false, r) := by
  unfold update_contact_repo
  rw [hread]

theorem update_contact_repo_some (digest : String → String) (r : ContactsRepo)
    (uuid : String) (fn0 ln0 : Option String) (ph0 em0 ni0 : Option (List String))
    (extra : Dict String Val) (now : String) {old : Doc}
    (hread : readRecord r.heap uuid = some old) (hemp : ¬old = []) :
    update_contact_repo digest r uuid fn0 ln0 ph0 em0 ni0 extra now =
      Except.ok (true,
        c_add_to_indexes digest
          { c_remove_from_indexes digest r uuid old with
            heap := dset r.heap uuid (FileContent.valid
              (add_metadata old (newContact old fn0 ln0 ph0 em0 ni0 extra) now)) }
          uuid (newContact old fn0 ln0 ph0 em0 ni0 extra)) := by
  have hg : dget r.heap uuid = some (FileContent.valid old) :=
    readRecord_some_iff.mp hread
  have hup : ∀ nd : Doc, updateRecord r.heap uuid nd now =
      Except.ok (true, dset r.heap uuid (FileContent.valid (add_metadata old nd now))) := by
    intro nd
    unfold updateRecord
    rw [hg]
  have hh : (c_remove_from_indexes digest r uuid old).heap = r.heap := rfl
  unfold update_contact_repo
  rw [hread]
  dsimp only
  rw [if_neg hemp, hh, hup]
  rfl

theorem cInv_update (digest : String → String) {r : ContactsRepo} (uuid : String)
    (fn0 ln0 : Option String) (ph0 em0 ni0 : Option (List String))
    (extra : Dict String Val) (now : String) (b : Bool) {r2 : ContactsRepo}
    (hex : ExtraOkC extra) (hinv : CInv digest r)
    (hok : update_contact_repo digest r uuid fn0 ln0 ph0 em0 ni0 extra now =
      Except.ok (b, r2)) :
    CInv digest r2 := by
  cases hread : readRecord r.heap uuid with
  | none =>
    rw [update_contact_repo_none digest r uuid fn0 ln0 ph0 em0 ni0 extra now hread]
      at hok
    injection hok with h
    injection h with hb hr
    subst hr
    exact hinv
  | some old =>
    by_cases hemp : old = []
    · have h2 : update_contact_repo digest r uuid fn0 ln0 ph0 em0 ni0 extra now =
          Except.ok (false, r) := by
        subst hemp
        unfold update_contact_repo
        rw [hread]
        rfl
      rw [h2] at hok
      injection hok with h
      injection h with hb hr
      subst hr
      exact hinv
    · rw [update_contact_repo_some digest r uuid fn0 ln0 ph0 em0 ni0 extra now
        hread hemp] at hok
      injection hok with h
      injection h with hb hr
      subst hr
      obtain ⟨hwf, hcfn, hcln, hcph, hcem⟩ := hinv
      obtain ⟨huold, hune, ⟨so1, hso1⟩, ⟨so2, hso2⟩, ⟨lso1, hlso1⟩, ⟨lso2, hlso2⟩⟩ :=
        heapWFC_read hwf hread
      obtain ⟨sn1, hsn1⟩ : ∃ s,
          dget (newContact old fn0 ln0 ph0 em0 ni0 extra) "first_name" =
            some (Val.s s) := by
        rw [dget_newContact_first old fn0 ln0 ph0 em0 ni0 extra hex]
        cases fn0 with
        | some t => exact ⟨t, rfl⟩
        | none => exact ⟨so1, hso1⟩
      obtain ⟨sn2, hsn2⟩ : ∃ s,
          dget (newContact old fn0 ln0 ph0 em0 ni0 extra) "last_name" =
            some (Val.s s) := by
        rw [dget_newContact_last old fn0 ln0 ph0 em0 ni0 extra hex]
        cases ln0 with
        | some t => exact ⟨t, rfl⟩
        | none => exact ⟨so2, hso2⟩
      obtain ⟨ln1, hln1⟩ : ∃ ls,
          dget (newContact old fn0 ln0 ph0 em0 ni0 extra) "phones" =
            some (Val.l ls) := by
        rw [dget_newContact_phones old fn0 ln0 ph0 em0 ni0 extra hex]
        cases ph0 with
        | some ls => exact ⟨ls, rfl⟩
        | none => exact ⟨lso1, hlso1⟩
      obtain ⟨ln2, hln2⟩ : ∃ ls,
          dget (newContact old fn0 ln0 ph0 em0 ni0 extra) "emails" =
            some (Val.l ls) := by
        rw [dget_newContact_emails old fn0 ln0 ph0 em0 ni0 extra hex]
        cases em0 with
        | some ls => exact ⟨ls, rfl⟩
        | none => exact ⟨lso2, hlso2⟩
      have hmf : dget (add_metadata old (newContact old fn0 ln0 ph0 em0 ni0 extra) now)
          "first_name" = dget (newContact old fn0 ln0 ph0 em0 ni0 extra) "first_name" :=
        dget_add_metadata_other _ _ _ _ (by decide) (by decide) (by decide)
      have hml : dget (add_metadata old (newContact old fn0 ln0 ph0 em0 ni0 extra) now)
          "last_name" = dget (newContact old fn0 ln0 ph0 em0 ni0 extra) "last_name" :=
        dget_add_metadata_other _ _ _ _ (by decide) (by decide) (by decide)
      have hmp : dget (add_metadata old (newContact old fn0 ln0 ph0 em0 ni0 extra) now)
          "phones" = dget (newContact old fn0 ln0 ph0 em0 ni0 extra) "phones" :=
        dget_add_metadata_other _ _ _ _ (by decide) (by decide) (by decide)
      have hme : dget (add_metadata old (newContact old fn0 ln0 ph0 em0 ni0 extra) now)
          "emails" = dget (newContact old fn0 ln0 ph0 em0 ni0 extra) "emails" :=
        dget_add_metadata_other _ _ _ _ (by decide) (by decide) (by decide)
      unfold CInv
      refine ⟨?_, ?_, ?_, ?_, ?_⟩
      · refine heapWFC_dset hwf ?_ hune ⟨sn1, by rw [hmf, hsn1]⟩
          ⟨sn2, by rw [hml, hsn2]⟩ ⟨ln1, by rw [hmp, hln1]⟩ ⟨ln2, by rw [hme, hln2]⟩
        rw [dget_add_metadata_uuid, huold]
        rfl
      · show TrieCanon
          (trieAddVal (trieRemoveVal r.fn (dget old "first_name") uuid)
            (dget (newContact old fn0 ln0 ph0 em0 ni0 extra) "first_name") uuid)
          (fieldSpec (dset r.heap uuid (FileContent.valid
            (add_metadata old (newContact old fn0 ln0 ph0 em0 ni0 extra) now)))
            "first_name")
        rw [hso1, trieRemoveVal_eq, hsn1, trieAddVal_eq]
        exact trieCanon_update hcfn uuid so1 sn1 hread hso1 (by rw [hmf, hsn1])
      · show TrieCanon
          (trieAddVal (trieRemoveVal r.ln (dget old "last_name") uuid)
            (dget (newContact old fn0 ln0 ph0 em0 ni0 extra) "last_name") uuid)
          (fieldSpec (dset r.heap uuid (FileContent.valid
            (add_metadata old (newContact old fn0 ln0 ph0 em0 ni0 extra) now)))
            "last_name")
        rw [hso2, trieRemoveVal_eq, hsn2, trieAddVal_eq]
        exact trieCanon_update hcln uuid so2 sn2 hread hso2 (by rw [hml, hsn2])
      · show HashCanon
          ((getItems (newContact old fn0 ln0 ph0 em0 ni0 extra) "phones").foldl
            (fun a p => add_to_hash_index digest a p uuid)
            ((getItems old "phones").foldl
              (fun a p => remove_from_hash_index digest a p uuid) r.ph))
          (listSpec digest (dset r.heap uuid (FileContent.valid
            (add_metadata old (newContact old fn0 ln0 ph0 em0 ni0 extra) now)))
            "phones")
        exact hashCanon_update digest hcph uuid _ _ hread (getItems_congr _ hmp)
      · show HashCanon
          ((getItems (newContact old fn0 ln0 ph0 em0 ni0 extra) "emails").foldl
            (fun a p => add_to_hash_index digest a p uuid)
            ((getItems old "emails").foldl
              (fun a p => remove_from_hash_index digest a p uuid) r.em))
          (listSpec digest (dset r.heap uuid (FileContent.valid
            (add_metadata old (newContact old fn0 ln0 ph0 em0 ni0 extra) now)))
            "emails")
        exact hashCanon_update digest hcem uuid _ _ hread (getItems_congr _ hme)

/-! CInv preservation: remove_contact. -/

theorem remove_contact_some (digest : String → String) (r : ContactsRepo)
    (uuid : String) {old : Doc} (hread : readRecord r.heap uuid = some old)
    (hemp : ¬old = []) :
    remove_contact digest r uuid =
      (true, { c_remove_from_indexes digest r uuid old with
        heap := derase r.heap uuid }) := by
  have hg : dget r.heap uuid = some (FileContent.valid old) :=
    readRecord_some_iff.mp hread
  have hh : (c_remove_from_indexes digest r uuid old).heap = r.heap := rfl
  have hdel : deleteRecord r.heap uuid = (true, derase r.heap uuid) := by
    unfold deleteRecord
    rw [hg]
  unfold remove_contact
  rw [hread]
  dsimp only
  rw [if_neg hemp, hh, hdel]

theorem cInv_remove (digest : String → String) {r : ContactsRepo} (uuid : String)
    (hinv : CInv digest r) : CInv digest (remove_contact digest r uuid).2 := by
  cases hread : readRecord r.heap uuid with
  | none =>
    have h2 : remove_contact digest r uuid = (false, r) := by
      unfold remove_contact
      rw [hread]
    rw [h2]
    exact hinv
  | some old =>
    by_cases hemp : old = []
    · have h2 : remove_contact digest r uuid = (false, r) := by
        subst hemp
        unfold remove_contact
        rw [hread]
        rfl
      rw [h2]
      exact hinv
    · rw [remove_contact_some digest r uuid hread hemp]
      obtain ⟨hwf, hcfn, hcln, hcph, hcem⟩ := hinv
      obtain ⟨huold, hune, ⟨so1, hso1⟩, ⟨so2, hso2⟩, _, _⟩ := heapWFC_read hwf hread
      unfold CInv
      refine ⟨?_, ?_, ?_, ?_, ?_⟩
      · exact heapWFC_derase hwf uuid
      · show TrieCanon (trieRemoveVal r.fn (dget old "first_name") uuid)
          (fieldSpec (derase r.heap uuid) "first_name")
        rw [hso1, trieRemoveVal_eq]
        exact trieCanon_delete hcfn uuid so1 hread hso1
      · show TrieCanon (trieRemoveVal r.ln (dget old "last_name") uuid)
          (fieldSpec (derase r.heap uuid) "last_name")
        rw [hso2, trieRemoveVal_eq]
        exact trieCanon_delete hcln uuid so2 hread hso2
      · show HashCanon
          ((getItems old "phones").foldl
            (fun a p => remove_from_hash_index digest a p uuid) r.ph)
          (listSpec digest (derase r.heap uuid) "phones")
        exact hashCanon_delete digest hcph uuid hread
      · show HashCanon
          ((getItems old "emails").foldl
            (fun a p => remove_from_hash_index digest a p uuid) r.em)
          (listSpec digest (derase r.heap uuid) "emails")
        exact hashCanon_delete digest hcem uuid hread

/-! CInv establishment: rebuild_indexes.  The fold over the scanned
documents is related to a ghost heap of the already processed files. -/

theorem trieCanon_nil (field : String) :
    TrieCanon [] (fieldSpec ([] : Heap) field) := by
  refine ⟨trieWF_nil, ?_⟩
  intro k u
  constructor
  · intro hm
    exact absurd hm (by simp [trieLookup, dget])
  · intro hs
    exact absurd hs (fieldSpec_none rfl)

theorem hashCanon_nil (digest : String → String) (field : String) :
    HashCanon [] (listSpec digest ([] : Heap) field) := by
  refine ⟨hashWF_nil, ?_⟩
  intro h u
  constructor
  · intro hm
    exact absurd hm (by simp [hashLookup, dget])
  · intro hs
    exact absurd hs (listSpec_none rfl)

theorem dateCanon_nil : DateCanon [] (dateSpecH ([] : Heap)) := by
  refine ⟨dateWF_nil, ?_⟩
  intro leaf u
  constructor
  · intro hm
    exact absurd hm (by simp [dateLookup, dget])
  · intro hs
    exact absurd hs (dateSpecH_none rfl)

theorem nodupKeys_append_head_not_mem {H t : Heap} {k : String} {c : FileContent}
    (h : NodupKeys (H ++ (k, c) :: t)) : dget H k = none := by
  apply dget_eq_none_of_not_mem_keys
  intro hmem
  unfold NodupKeys dkeys at h
  rw [List.map_append, List.map_cons] at h
  obtain ⟨_, _, disj⟩ := List.nodup_append.mp h
  exact disj (by simpa [dkeys] using hmem) (List.mem_cons_self _ _)

theorem c_rebuild_step_heap (digest : String → String) (acc : ContactsRepo)
    (d : Doc) : (c_rebuild_step digest acc d).heap = acc.heap := by
  unfold c_rebuild_step
  cases hd : dget d "uuid" with
  | none => rfl
  | some v =>
    dsimp only
    by_cases hv : vtruthy v
    · rw [if_pos hv]
      cases v <;> rfl
    · rw [if_neg hv]

theorem c_rebuild_fold_heap (digest : String → String) (ds : List Doc)
    (acc : ContactsRepo) :
    (ds.foldl (c_rebuild_step digest) acc).heap = acc.heap := by
  induction ds generalizing acc with
  | nil => rfl
  | cons d rest ih =>
    rw [List.foldl_cons, ih, c_rebuild_step_heap]

theorem crebuild_heap (digest : String → String) (r : ContactsRepo) :
    ((crebuild digest r).2).heap = r.heap :=
  c_rebuild_fold_heap digest (list_all r.heap) _

theorem c_rebuild_step_eq (digest : String → String) (acc : ContactsRepo)
    (d : Doc) (k : String) (hu : dget d "uuid" = some (Val.s k)) (hk : k ≠ "") :
    c_rebuild_step digest acc d = c_add_to_indexes digest acc k d := by
  have hv : vtruthy (some (Val.s k)) = true := by simp [vtruthy, hk]
  unfold c_rebuild_step
  rw [hu]
  dsimp only
  rw [if_pos hv]

theorem c_rebuild_fold_canon (digest : String → String) (t H : Heap)
    (hwf : HeapWFC (H ++ t)) (acc : ContactsRepo)
    (hfn : TrieCanon acc.fn (fieldSpec H "first_name"))
    (hln : TrieCanon acc.ln (fieldSpec H "last_name"))
    (hph : HashCanon acc.ph (listSpec digest H "phones"))
    (hem : HashCanon acc.em (listSpec digest H "emails")) :
    TrieCanon ((list_all t).foldl (c_rebuild_step digest) acc).fn
        (fieldSpec (H ++ t) "first_name") ∧
      TrieCanon ((list_all t).foldl (c_rebuild_step digest) acc).ln
        (fieldSpec (H ++ t) "last_name") ∧
      HashCanon ((list_all t).foldl (c_rebuild_step digest) acc).ph
        (listSpec digest (H ++ t) "phones") ∧
      HashCanon ((list_all t).foldl (c_rebuild_step digest) acc).em
        (listSpec digest (H ++ t) "emails") := by
  induction t generalizing H acc with
  | nil =>
    rw [List.append_nil]
    exact ⟨hfn, hln, hph, hem⟩
  | cons p t2 ih =>
    obtain ⟨k, c⟩ := p
    obtain ⟨d, rfl, hu, hk, hdfn, hdln, hdph, hdem⟩ :=
      hwf.2 k c (List.mem_append_right H (List.mem_cons_self _ _))
    have hkH : dget H k = none := nodupKeys_append_head_not_mem hwf.1
    have hreadH : readRecord H k = none := by
      unfold readRecord
      rw [hkH]
    have hdset : dset H k (FileContent.valid d) = H ++ [(k, FileContent.valid d)] :=
      dset_of_not_mem hkH _
    obtain ⟨s1, hs1⟩ := hdfn
    obtain ⟨s2, hs2⟩ := hdln
    rw [list_all_cons]
    dsimp only
    rw [List.foldl_cons, c_rebuild_step_eq digest acc d k hu hk]
    have hwf2 : HeapWFC ((H ++ [(k, FileContent.valid d)]) ++ t2) := by
      rw [List.append_assoc]
      exact hwf
    have hfn2 : TrieCanon (c_add_to_indexes digest acc k d).fn
        (fieldSpec (H ++ [(k, FileContent.valid d)]) "first_name") := by
      show TrieCanon (trieAddVal acc.fn (dget d "first_name") k)
        (fieldSpec (H ++ [(k, FileContent.valid d)]) "first_name")
      rw [← hdset, hs1, trieAddVal_eq]
      exact trieCanon_add_fresh hfn k s1 hreadH hs1
    have hln2 : TrieCanon (c_add_to_indexes digest acc k d).ln
        (fieldSpec (H ++ [(k, FileContent.valid d)]) "last_name") := by
      show TrieCanon (trieAddVal acc.ln (dget d "last_name") k)
        (fieldSpec (H ++ [(k, FileContent.valid d)]) "last_name")
      rw [← hdset, hs2, trieAddVal_eq]
      exact trieCanon_add_fresh hln k s2 hreadH hs2
    have hph2 : HashCanon (c_add_to_indexes digest acc k d).ph
        (listSpec digest (H ++ [(k, FileContent.valid d)]) "phones") := by
      show HashCanon
        ((getItems d "phones").foldl (fun a p => add_to_hash_index digest a p k) acc.ph)
        (listSpec digest (H ++ [(k, FileContent.valid d)]) "phones")
      rw [← hdset]
      exact hashCanon_add_fresh digest hph k d hreadH
    have hem2 : HashCanon (c_add_to_indexes digest acc k d).em
        (listSpec digest (H ++ [(k, FileContent.valid d)]) "emails") := by
      show HashCanon
        ((getItems d "emails").foldl (fun a p => add_to_hash_index digest a p k) acc.em)
        (listSpec digest (H ++ [(k, FileContent.valid d)]) "emails")
      rw [← hdset]
      exact hashCanon_add_fresh digest hem k d hreadH
    have hmain := ih (H ++ [(k, FileContent.valid d)]) hwf2
      (c_add_to_indexes digest acc k d) hfn2 hln2 hph2 hem2
    rw [List.append_assoc] at hmain
    exact hmain

theorem cInv_rebuild (digest : String → String) {r : ContactsRepo}
    (hinv : CInv digest r) : CInv digest (crebuild digest r).2 := by
  obtain ⟨hwf, _, _, _, _⟩ := hinv
  have hwf0 : HeapWFC (([] : Heap) ++ r.heap) := hwf
  have hmain := c_rebuild_fold_canon digest r.heap []
    hwf0 { r with fn := [], ln := [], ph := [], em := [] }
    (trieCanon_nil "first_name") (trieCanon_nil "last_name")
    (hashCanon_nil digest "phones") (hashCanon_nil digest "emails")
  have hh : ((crebuild digest r).2).heap = r.heap := crebuild_heap digest r
  unfold CInv
  rw [hh]
  exact ⟨hwf, hmain.1, hmain.2.1, hmain.2.2.1, hmain.2.2.2⟩

theorem heapWFC_nil : HeapWFC ([] : Heap) :=
  ⟨List.nodup_nil, fun _ _ hm => absurd hm (List.not_mem_nil _)⟩

theorem cInv_init (digest : String → String) : CInv digest cInit :=
  ⟨heapWFC_nil, trieCanon_nil "first_name", trieCanon_nil "last_name",
    hashCanon_nil digest "phones", hashCanon_nil digest "emails"⟩

theorem cStep_inv (digest : String → String) {r r2 : ContactsRepo}
    (hstep : CStep digest r r2) (hinv : CInv digest r) : CInv digest r2 := by
  cases hstep with
  | add freshId now first_name last_name phones emails note_ids extra
      hfresh hne hex =>
    exact cInv_add digest hinv freshId now first_name last_name phones emails
      note_ids extra hfresh hne hex
  | update uuid fn0 ln0 ph0 em0 ni0 extra now b r2 hex hok =>
    exact cInv_update digest uuid fn0 ln0 ph0 em0 ni0 extra now b hex hinv hok
  | remove uuid => exact cInv_remove digest uuid hinv
  | rebuild => exact cInv_rebuild digest hinv

/-- Every reachable contacts-repository state satisfies the heap/index
consistency invariant. -/

theorem cReach_inv (digest : String → String) {r : ContactsRepo}
    (h : CReach digest r) : CInv digest r := by
  induction h with
  | refl => exact cInv_init digest
  | tail hsteps hstep ih => exact cStep_inv digest hstep ih

/-! NInv preservation: add_note. -/

theorem dget_create_note_uuid (heap : Heap) (nd : Doc) (freshId now : String) :
    dget (create_note heap nd freshId now).1 "uuid" = some (Val.s freshId) := by
  show dget (dset (if dhasKey (dset nd "uuid" (Val.s freshId)) "created_at"
      then dset nd "uuid" (Val.s freshId)
      else dset (dset nd "uuid" (Val.s freshId)) "created_at" (Val.s now))
      "updated_at" (Val.s now)) "uuid" = some (Val.s freshId)
  rw [dget_dset_ne _ _ _ _ (by decide)]
  by_cases hck : dhasKey (dset nd "uuid" (Val.s freshId)) "created_at"
  · rw [if_pos hck, dget_dset_self]
  · rw [if_neg hck, dget_dset_ne _ _ _ _ (by decide), dget_dset_self]

theorem dget_create_note_created (heap : Heap) (nd : Doc) (freshId now : String) :
    ∃ v, dget (create_note heap nd freshId now).1 "created_at" = some v := by
  show ∃ v, dget (dset (if dhasKey (dset nd "uuid" (Val.s freshId)) "created_at"
      then dset nd "uuid" (Val.s freshId)
      else dset (dset nd "uuid" (Val.s freshId)) "created_at" (Val.s now))
      "updated_at" (Val.s now)) "created_at" = some v
  rw [dget_dset_ne _ _ _ _ (by decide)]
  by_cases hck : dhasKey (dset nd "uuid" (Val.s freshId)) "created_at"
  · rw [if_pos hck]
    unfold dhasKey at hck
    cases hg : dget (dset nd "uuid" (Val.s freshId)) "created_at" with
    | none => rw [hg] at hck; exact absurd hck (by simp)
    | some v => exact ⟨v, rfl⟩
  · rw [if_neg hck, dget_dset_self]
    exact ⟨Val.s now, rfl⟩

theorem dget_create_note_other (heap : Heap) (nd : Doc) (freshId now field : String)
    (h1 : field ≠ "uuid") (h2 : field ≠ "created_at") (h3 : field ≠ "updated_at") :
    dget (create_note heap nd freshId now).1 field = dget nd field := by
  show dget (dset (if dhasKey (dset nd "uuid" (Val.s freshId)) "created_at"
      then dset nd "uuid" (Val.s freshId)
      else dset (dset nd "uuid" (Val.s freshId)) "created_at" (Val.s now))
      "updated_at" (Val.s now)) field = dget nd field
  rw [dget_dset_ne _ _ _ _ (fun h => h3 h.symm)]
  by_cases hck : dhasKey (dset nd "uuid" (Val.s freshId)) "created_at"
  · rw [if_pos hck, dget_dset_ne _ _ _ _ (fun h => h1 h.symm)]
  · rw [if_neg hck, dget_dset_ne _ _ _ _ (fun h => h2 h.symm),
      dget_dset_ne _ _ _ _ (fun h => h1 h.symm)]

theorem nInv_insert_fresh {r : NotesRepo} (hinv : NInv r) (freshId : String)
    (d : Doc) (hfresh : dget r.heap freshId = none) (hne : freshId ≠ "")
    (hu : dget d "uuid" = some (Val.s freshId))
    (ht : ∃ s, dget d "title" = some (Val.s s))
    (hcr : ∃ v, dget d "created_at" = some v) :
    NInv (n_add_to_indexes
      { r with heap := dset r.heap freshId (FileContent.valid d) } freshId d) := by
  obtain ⟨hwf, hct, hcd⟩ := hinv
  obtain ⟨t1, ht1⟩ := ht
  obtain ⟨v1, hv1⟩ := hcr
  have hreadf : readRecord r.heap freshId = none := by
    unfold readRecord
    rw [hfresh]
  unfold NInv
  refine ⟨?_, ?_, ?_⟩
  · exact heapWFN_dset hwf hu hne ⟨t1, ht1⟩ ⟨v1, hv1⟩
  · show TrieCanon
      (match dget d "title" with
        | some (Val.s t) => add_to_trie_index r.title t freshId
        | _ => r.title)
      (fieldSpec (dset r.heap freshId (FileContent.valid d)) "title")
    rw [ht1]
    exact trieCanon_add_fresh hct freshId t1 hreadf ht1
  · show DateCanon
      (match dget d "created_at" with
        | some v => add_to_date_index r.date v freshId
        | none => r.date)
      (dateSpecH (dset r.heap freshId (FileContent.valid d)))
    rw [hv1]
    exact dateCanon_add_fresh hcd freshId v1 hreadf hv1

theorem nInv_add {r : NotesRepo} (hinv : NInv r)
    (freshId now title content : String) (tags contact_ids : List String)
    (extra : Dict String Val) (hfresh : dget r.heap freshId = none)
    (hne : freshId ≠ "") (hex : ExtraOkN extra) :
    NInv (add_note r freshId now title content tags contact_ids extra).2 := by
  have he1 : dget extra "title" = none :=
    dget_eq_none_of_not_mem_keys (fun hm => (hex _ hm).1 rfl)
  show NInv (n_add_to_indexes
    { r with heap := dset r.heap freshId (FileContent.valid
        (create_note r.heap (dupdate
          [("title", Val.s title), ("content", Val.s content), ("tags", Val.l tags),
            ("contact_ids", Val.l contact_ids)] extra) freshId now).1) }
    freshId
    (create_note r.heap (dupdate
      [("title", Val.s title), ("content", Val.s content), ("tags", Val.l tags),
        ("contact_ids", Val.l contact_ids)] extra) freshId now).1)
  refine nInv_insert_fresh hinv freshId _ hfresh hne ?_ ?_ ?_
  · exact dget_create_note_uuid _ _ _ _
  · refine ⟨title, ?_⟩
    rw [dget_create_note_other _ _ _ _ _ (by decide) (by decide) (by decide),
      dget_dupdate_none he1]
    simp [dget]
  · exact dget_create_note_created _ _ _ _

/-! NInv preservation: update_note.  Only the title index is
resynchronized; the well-formed shapes let the truthiness gates be
evaluated. -/

theorem trie_add_empty (idx : TrieIdx) (uuid : String) :
    add_to_trie_index idx "" uuid = idx := by
  unfold add_to_trie_index
  rw [if_pos (Or.inl rfl)]

theorem trie_remove_empty (idx : TrieIdx) (uuid : String) :
    remove_from_trie_index idx "" uuid = idx := by
  unfold remove_from_trie_index
  rw [if_pos (Or.inl rfl)]

theorem update_note_repo_none (r : NotesRepo) (uuid : String)
    (t0 c0 : Option String) (g0 i0 : Option (List String))
    (extra : Dict String Val) (now : String)
    (hread : readRecord r.heap uuid = none) :
    update_note_repo r uuid t0 c0 g0 i0 extra now = Except.ok (false, r) := by
  unfold update_note_repo
  rw [hread]

theorem update_note_repo_some {r : NotesRepo} (uuid : String)
    (t0 c0 : Option String) (g0 i0 : Option (List String)) (extra : Dict String Val)
    (now : String) {old : Doc} (told tnew : String)
    (hread : readRecord r.heap uuid = some old) (hemp : ¬old = [])
    (hot : dget old "title" = some (Val.s told))
    (hnt : dget (newNote old t0 c0 g0 i0 extra) "title" = some (Val.s tnew)) :
    update_note_repo r uuid t0 c0 g0 i0 extra now =
      Except.ok (true,
        { (if told ≠ tnew then
              { r with title := add_to_trie_index (remove_from_trie_index r.title told uuid) tnew uuid }
            else r) with
          heap := dset r.heap uuid (FileContent.valid
            (add_metadata old (newNote old t0 c0 g0 i0 extra) now)) }) := by
  have hg : dget r.heap uuid = some (FileContent.valid old) :=
    readRecord_some_iff.mp hread
  have hup : ∀ nd : Doc, updateRecord r.heap uuid nd now =
      Except.ok (true, dset r.heap uuid (FileContent.valid (add_metadata old nd now))) := by
    intro nd
    unfold updateRecord
    rw [hg]
  unfold update_note_repo
  rw [hread]
  dsimp only
  rw [if_neg hemp, hot, hnt]
  by_cases hts : told = tnew
  · subst hts
    rw [if_neg (by simp), if_neg (by simp), hup]
  · have hne1 : some (Val.s told) ≠ some (Val.s tnew) := by
      intro h
      injection h with h2
      injection h2 with h3
      exact hts h3
    rw [if_pos hne1, if_pos hts]
    dsimp only
    by_cases h2 : tnew = ""
    · subst h2
      rw [if_neg (by simp [vtruthy]), trie_add_empty]
      by_cases h1 : told = ""
      · exact absurd h1 hts
      · rw [if_pos (by simp [vtruthy, h1])]
        dsimp only
        rw [hup]
    · rw [if_pos (by simp [vtruthy, h2])]
      dsimp only
      by_cases h1 : told = ""
      · subst h1
        rw [if_neg (by simp [vtruthy]), trie_remove_empty]
        rw [hup]
      · rw [if_pos (by simp [vtruthy, h1])]
        dsimp only
        rw [hup]

theorem nInv_update {r : NotesRepo} (uuid : String) (t0 c0 : Option String)
    (g0 i0 : Option (List String)) (extra : Dict String Val) (now : String)
    (b : Bool) {r2 : NotesRepo} (hex : ExtraOkN extra) (hinv : NInv r)
    (hok : update_note_repo r uuid t0 c0 g0 i0 extra now = Except.ok (b, r2)) :
    NInv r2 := by
  cases hread : readRecord r.heap uuid with
  | none =>
    rw [update_note_repo_none r uuid t0 c0 g0 i0 extra now hread] at hok
    injection hok with h
    injection h with hb hr
    subst hr
    exact hinv
  | some old =>
    by_cases hemp : old = []
    · have h2 : update_note_repo r uuid t0 c0 g0 i0 extra now =
          Except.ok (false, r) := by
        subst hemp
        unfold update_note_repo
        rw [hread]
        rfl
      rw [h2] at hok
      injection hok with h
      injection h with hb hr
      subst hr
      exact hinv
    · obtain ⟨hwf, hct, hcd⟩ := hinv
      obtain ⟨huold, hune, ⟨told, htold⟩, ⟨vc, hvc⟩⟩ := heapWFN_read hwf hread
      obtain ⟨tnew, htnew⟩ : ∃ s,
          dget (newNote old t0 c0 g0 i0 extra) "title" = some (Val.s s) := by
        rw [dget_newNote_title old t0 c0 g0 i0 extra hex]
        cases t0 with
        | some t => exact ⟨t, rfl⟩
        | none => exact ⟨told, htold⟩
      rw [update_note_repo_some uuid t0 c0 g0 i0 extra now told tnew hread hemp
        htold htnew] at hok
      injection hok with h
      injection h with hb hr
      subst hr
      have hmt : dget (add_metadata old (newNote old t0 c0 g0 i0 extra) now)
          "title" = some (Val.s tnew) := by
        rw [dget_add_metadata_other _ _ _ _ (by decide) (by decide) (by decide),
          htnew]
      have hmc : dget (add_metadata old (newNote old t0 c0 g0 i0 extra) now)
          "created_at" = some vc := by
        rw [dget_add_metadata_created, hvc]
        rfl
      have hmu : dget (add_metadata old (newNote old t0 c0 g0 i0 extra) now)
          "uuid" = some (Val.s uuid) := by
        rw [dget_add_metadata_uuid, huold]
        rfl
      unfold NInv
      by_cases hts : told ≠ tnew
      · rw [if_pos hts]
        refine ⟨?_, ?_, ?_⟩
        · exact heapWFN_dset hwf hmu hune ⟨tnew, hmt⟩ ⟨vc, hmc⟩
        · show TrieCanon
            (add_to_trie_index (remove_from_trie_index r.title told uuid) tnew uuid)
            (fieldSpec (dset r.heap uuid (FileContent.valid
              (add_metadata old (newNote old t0 c0 g0 i0 extra) now))) "title")
          exact trieCanon_update hct uuid told tnew hread htold hmt
        · show DateCanon r.date
            (dateSpecH (dset r.heap uuid (FileContent.valid
              (add_metadata old (newNote old t0 c0 g0 i0 extra) now))))
          exact dateCanon_heap_update hcd uuid _ hread (by rw [hmc, hvc])
      · rw [if_neg hts]
        rw [not_not] at hts
        refine ⟨?_, ?_, ?_⟩
        · exact heapWFN_dset hwf hmu hune ⟨tnew, hmt⟩ ⟨vc, hmc⟩
        · show TrieCanon r.title
            (fieldSpec (dset r.heap uuid (FileContent.valid
              (add_metadata old (newNote old t0 c0 g0 i0 extra) now))) "title")
          refine trieCanon_heap_update hct uuid _ hread ?_
          rw [hmt, htold, hts]
        · show DateCanon r.date
            (dateSpecH (dset r.heap uuid (FileContent.valid
              (add_metadata old (newNote old t0 c0 g0 i0 extra) now))))
          exact dateCanon_heap_update hcd uuid _ hread (by rw [hmc, hvc])

/-! NInv preservation: delete_note. -/

theorem delete_note_repo_some (r : NotesRepo) (uuid : String) {old : Doc}
    (hread : readRecord r.heap uuid = some old) (hemp : ¬old = []) :
    delete_note_repo r uuid =
      (true, { n_remove_from_indexes r uuid old with heap := derase r.heap uuid }) := by
  have hg : dget r.heap uuid = some (FileContent.valid old) :=
    readRecord_some_iff.mp hread
  have hh : (n_remove_from_indexes r uuid old).heap = r.heap := rfl
  have hdel : deleteRecord r.heap uuid = (true, derase r.heap uuid) := by
    unfold deleteRecord
    rw [hg]
  unfold delete_note_repo
  rw [hread]
  dsimp only
  rw [if_neg hemp, hh, hdel]

theorem nInv_remove {r : NotesRepo} (uuid : String) (hinv : NInv r) :
    NInv (delete_note_repo r uuid).2 := by
  cases hread : readRecord r.heap uuid with
  | none =>
    have h2 : delete_note_repo r uuid = (false, r) := by
      unfold delete_note_repo
      rw [hread]
    rw [h2]
    exact hinv
  | some old =>
    by_cases hemp : old = []
    · have h2 : delete_note_repo r uuid = (false, r) := by
        subst hemp
        unfold delete_note_repo
        rw [hread]
        rfl
      rw [h2]
      exact hinv
    · rw [delete_note_repo_some r uuid hread hemp]
      obtain ⟨hwf, hct, hcd⟩ := hinv
      obtain ⟨huold, hune, ⟨told, htold⟩, ⟨vc, hvc⟩⟩ := heapWFN_read hwf hread
      unfold NInv
      refine ⟨?_, ?_, ?_⟩
      · exact heapWFN_derase hwf uuid
      · show TrieCanon
          (match dget old "title" with
            | some (Val.s t) => remove_from_trie_index r.title t uuid
            | _ => r.title)
          (fieldSpec (derase r.heap uuid) "title")
        rw [htold]
        exact trieCanon_delete hct uuid told hread htold
      · show DateCanon
          (match dget old "created_at" with
            | some v => remove_from_date_index r.date v uuid
            | none => r.date)
          (dateSpecH (derase r.heap uuid))
        rw [hvc]
        exact dateCanon_delete hcd uuid vc hread hvc

/-! NInv establishment: rebuild_indexes for notes. -/

theorem n_rebuild_step_heap (acc : NotesRepo) (d : Doc) :
    (n_rebuild_step acc d).heap = acc.heap := by
  unfold n_rebuild_step
  cases hd : dget d "uuid" with
  | none => rfl
  | some v =>
    dsimp only
    by_cases hv : vtruthy v
    · rw [if_pos hv]
      cases v <;> rfl
    · rw [if_neg hv]

theorem n_rebuild_fold_heap (ds : List Doc) (acc : NotesRepo) :
    (ds.foldl n_rebuild_step acc).heap = acc.heap := by
  induction ds generalizing acc with
  | nil => rfl
  | cons d rest ih =>
    rw [List.foldl_cons, ih, n_rebuild_step_heap]

theorem nrebuild_heap (r : NotesRepo) : ((nrebuild r).2).heap = r.heap :=
  n_rebuild_fold_heap (list_all r.heap) _

theorem n_rebuild_step_eq (acc : NotesRepo) (d : Doc) (k : String)
    (hu : dget d "uuid" = some (Val.s k)) (hk : k ≠ "") :
    n_rebuild_step acc d = n_add_to_indexes acc k d := by
  have hv : vtruthy (some (Val.s k)) = true := by simp [vtruthy, hk]
  unfold n_rebuild_step
  rw [hu]
  dsimp only
  rw [if_pos hv]

theorem n_rebuild_fold_canon (t H : Heap) (hwf : HeapWFN (H ++ t))
    (acc : NotesRepo)
    (hct : TrieCanon acc.title (fieldSpec H "title"))
    (hcd : DateCanon acc.date (dateSpecH H)) :
    TrieCanon ((list_all t).foldl n_rebuild_step acc).title
        (fieldSpec (H ++ t) "title") ∧
      DateCanon ((list_all t).foldl n_rebuild_step acc).date
        (dateSpecH (H ++ t)) := by
  induction t generalizing H acc with
  | nil =>
    rw [List.append_nil]
    exact ⟨hct, hcd⟩
  | cons p t2 ih =>
    obtain ⟨k, c⟩ := p
    obtain ⟨d, rfl, hu, hk, hdt, hdc⟩ :=
      hwf.2 k c (List.mem_append_right H (List.mem_cons_self _ _))
    have hkH : dget H k = none := nodupKeys_append_head_not_mem hwf.1
    have hreadH : readRecord H k = none := by
      unfold readRecord
      rw [hkH]
    have hdset : dset H k (FileContent.valid d) = H ++ [(k, FileContent.valid d)] :=
      dset_of_not_mem hkH _
    obtain ⟨t1, ht1⟩ := hdt
    obtain ⟨v1, hv1⟩ := hdc
    rw [list_all_cons]
    dsimp only
    rw [List.foldl_cons, n_rebuild_step_eq acc d k hu hk]
    have hwf2 : HeapWFN ((H ++ [(k, FileContent.valid d)]) ++ t2) := by
      rw [List.append_assoc]
      exact hwf
    have hct2 : TrieCanon (n_add_to_indexes acc k d).title
        (fieldSpec (H ++ [(k, FileContent.valid d)]) "title") := by
      show TrieCanon
        (match dget d "title" with
          | some (Val.s t) => add_to_trie_index acc.title t k
          | _ => acc.title)
        (fieldSpec (H ++ [(k, FileContent.valid d)]) "title")
      rw [← hdset, ht1]
      exact trieCanon_add_fresh hct k t1 hreadH ht1
    have hcd2 : DateCanon (n_add_to_indexes acc k d).date
        (dateSpecH (H ++ [(k, FileContent.valid d)])) := by
      show DateCanon
        (match dget d "created_at" with
          | some v => add_to_date_index acc.date v k
          | none => acc.date)
        (dateSpecH (H ++ [(k, FileContent.valid d)]))
      rw [← hdset, hv1]
      exact dateCanon_add_fresh hcd k v1 hreadH hv1
    have hmain := ih (H ++ [(k, FileContent.valid d)]) hwf2
      (n_add_to_indexes acc k d) hct2 hcd2
    rw [List.append_assoc] at hmain
    exact hmain

theorem nInv_rebuild {r : NotesRepo} (hinv : NInv r) : NInv (nrebuild r).2 := by
  obtain ⟨hwf, _, _⟩ := hinv
  have hwf0 : HeapWFN (([] : Heap) ++ r.heap) := hwf
  have hmain := n_rebuild_fold_canon r.heap [] hwf0
    { r with title := [], date := [] } (trieCanon_nil "title") dateCanon_nil
  have hh : ((nrebuild r).2).heap = r.heap := nrebuild_heap r
  unfold NInv
  rw [hh]
  exact ⟨hwf, hmain.1, hmain.2⟩

theorem heapWFN_nil : HeapWFN ([] : Heap) :=
  ⟨List.nodup_nil, fun _ _ hm => absurd hm (List.not_mem_nil _)⟩

theorem nInv_init : NInv nInit :=
  ⟨heapWFN_nil, trieCanon_nil "title", dateCanon_nil⟩

theorem nStep_inv {r r2 : NotesRepo} (hstep : NStep r r2) (hinv : NInv r) :
    NInv r2 := by
  cases hstep with
  | add freshId now title content tags contact_ids extra hfresh hne hex =>
    exact nInv_add hinv freshId now title content tags contact_ids extra
      hfresh hne hex
  | update uuid t0 c0 g0 i0 extra now b r2 hex hok =>
    exact nInv_update uuid t0 c0 g0 i0 extra now b hex hinv hok
  | remove uuid => exact nInv_remove uuid hinv
  | rebuild => exact nInv_rebuild hinv

/-- Every reachable notes-repository state satisfies the heap/index
consistency invariant. -/

theorem nReach_inv {r : NotesRepo} (h : NReach r) : NInv r := by
  induction h with
  | refl => exact nInv_init
  | tail hsteps hstep ih => exact nStep_inv hstep ih

/-! Membership characterizations of the repository search operations. -/

theorem nodupKeys_dupdate {kappa2 alpha2 : Type} [DecidableEq kappa2]
    (e : Dict kappa2 alpha2) (d : Dict kappa2 alpha2) (h : NodupKeys d) :
    NodupKeys (dupdate d e) := by
  induction e generalizing d with
  | nil => exact h
  | cons p rest ih =>
    obtain ⟨k, v⟩ := p
    exact ih (dset d k v) (nodupKeys_dset d k v h)

theorem searchFoldStep_nodupKeys {np : String} {c : Char} (acc : BucketData)
    (e : TrieBucket × BucketData) (h : NodupKeys acc) :
    NodupKeys (searchFoldStep np c acc e) := by
  obtain ⟨b, data⟩ := e
  cases b with
  | short c0 => exact h
  | two c1 c2 =>
    show NodupKeys (if c1 = c then
      dupdate acc (data.filter (fun kv => pystarts kv.1 np)) else acc)
    by_cases hc : c1 = c
    · rw [if_pos hc]
      exact nodupKeys_dupdate _ _ h
    · rw [if_neg hc]
      exact h

theorem searchFold_nodupKeys {np : String} {c : Char}
    (l : List (TrieBucket × BucketData)) (acc : BucketData) (h : NodupKeys acc) :
    NodupKeys (List.foldl (searchFoldStep np c) acc l) := by
  induction l generalizing acc with
  | nil => exact h
  | cons e rest ih =>
    rw [List.foldl_cons]
    exact ih _ (searchFoldStep_nodupKeys acc e h)

theorem search_by_pref_nodupKeys (idx : TrieIdx) (pre : String) (hw : TrieWF idx) :
    NodupKeys (search_by_pref idx pre) := by
  rcases hnp : (pynorm pre).data with _ | ⟨c, _ | ⟨c2, t⟩⟩
  · rw [search_by_pref_nil idx pre hnp]
    exact List.nodup_nil
  · rw [search_by_pref_single idx pre c hnp]
    refine searchFold_nodupKeys idx _ ?_
    cases hd : dget idx (TrieBucket.short c) with
    | none => exact List.nodup_nil
    | some data =>
      dsimp only
      exact nodupKeys_filter _ _ (hw.2 _ data hd).1
  · rw [search_by_pref_two idx pre c c2 t hnp]
    cases hd : dget idx (TrieBucket.two c c2) with
    | none => exact List.nodup_nil
    | some data =>
      dsimp only
      exact nodupKeys_filter _ _ (hw.2 _ data hd).1

theorem mem_foldl_append_filterMap (heap : Heap)
    (l : List (String × List String)) (acc : List Doc) (d2 : Doc) :
    d2 ∈ l.foldl (fun acc2 kv => acc2 ++ kv.2.filterMap (fun u => readRecord heap u)) acc ↔
      d2 ∈ acc ∨ ∃ kv ∈ l, ∃ u ∈ kv.2, readRecord heap u = some d2 := by
  induction l generalizing acc with
  | nil => simp
  | cons kv rest ih =>
    rw [List.foldl_cons, ih]
    simp only [List.mem_append, List.mem_filterMap, List.mem_cons]
    constructor
    · rintro ((hm | ⟨u, hu, hr⟩) | ⟨kv2, hkv2, u, hu, hr⟩)
      · exact Or.inl hm
      · exact Or.inr ⟨kv, Or.inl rfl, u, hu, hr⟩
      · exact Or.inr ⟨kv2, Or.inr hkv2, u, hu, hr⟩
    · rintro (hm | ⟨kv2, hkv2, u, hu, hr⟩)
      · exact Or.inl (Or.inl hm)
      · rcases hkv2 with rfl | hmem
        · exact Or.inl (Or.inr ⟨u, hu, hr⟩)
        · exact Or.inr ⟨kv2, hmem, u, hu, hr⟩

theorem mem_uuidFoldAppend (l : List (String × List String)) (acc : List String)
    (u : String) :
    u ∈ l.foldl (fun acc2 kv => acc2 ++ kv.2) acc ↔
      u ∈ acc ∨ ∃ kv ∈ l, u ∈ kv.2 := by
  induction l generalizing acc with
  | nil => simp
  | cons kv rest ih =>
    rw [List.foldl_cons, ih]
    simp only [List.mem_append, List.mem_cons]
    constructor
    · rintro ((hm | hm) | ⟨kv2, hkv2, hm⟩)
      · exact Or.inl hm
      · exact Or.inr ⟨kv, Or.inl rfl, hm⟩
      · exact Or.inr ⟨kv2, Or.inr hkv2, hm⟩
    · rintro (hm | ⟨kv2, hkv2, hm⟩)
      · exact Or.inl (Or.inl hm)
      · rcases hkv2 with rfl | hmem
        · exact Or.inl (Or.inr hm)
        · exact Or.inr ⟨kv2, hmem, hm⟩

theorem mem_c_search_trie (heap : Heap) (idx : TrieIdx) (hw : TrieWF idx)
    (pre : String) (d2 : Doc) :
    d2 ∈ c_search_trie heap idx pre ↔
      ∃ k u, (pynorm pre ≠ "" ∧ pystarts k (pynorm pre) = true ∧
          u ∈ trieLookup idx k) ∧ readRecord heap u = some d2 := by
  unfold c_search_trie
  rw [mem_foldl_append_filterMap]
  simp only [List.not_mem_nil, false_or]
  constructor
  · rintro ⟨kv, hkv, u, hu, hr⟩
    obtain ⟨k, l2⟩ := kv
    have hg : dget (search_by_pref idx pre) k = some l2 :=
      dget_of_mem_nodup (search_by_pref_nodupKeys idx pre hw) hkv
    have hm : u ∈ (dget (search_by_pref idx pre) k).getD [] := by
      rw [hg]
      exact hu
    exact ⟨k, u, (mem_search_by_pref idx hw pre k u).mp hm, hr⟩
  · rintro ⟨k, u, hcond, hr⟩
    have hm := (mem_search_by_pref idx hw pre k u).mpr hcond
    cases hg : dget (search_by_pref idx pre) k with
    | none =>
      rw [hg] at hm
      exact absurd hm (by simp)
    | some l2 =>
      rw [hg] at hm
      exact ⟨(k, l2), mem_of_dget_eq_some hg, u, hm, hr⟩

theorem mem_search_by_title (r : NotesRepo) (hw : TrieWF r.title) (pre : String)
    (d2 : Doc) :
    d2 ∈ search_by_title r pre ↔
      ∃ k u, (pynorm pre ≠ "" ∧ pystarts k (pynorm pre) = true ∧
          u ∈ trieLookup r.title k) ∧ readRecord r.heap u = some d2 := by
  simp only [search_by_title, List.mem_filterMap, List.mem_dedup]
  constructor
  · rintro ⟨u, hu, hr⟩
    rw [mem_uuidFoldAppend] at hu
    rcases hu with h | ⟨kv, hkv, hu2⟩
    · exact absurd h (List.not_mem_nil u)
    · obtain ⟨k, l2⟩ := kv
      have hg : dget (search_by_pref r.title pre) k = some l2 :=
        dget_of_mem_nodup (search_by_pref_nodupKeys _ _ hw) hkv
      have hm : u ∈ (dget (search_by_pref r.title pre) k).getD [] := by
        rw [hg]
        exact hu2
      exact ⟨k, u, (mem_search_by_pref _ hw pre k u).mp hm, hr⟩
  · rintro ⟨k, u, hcond, hr⟩
    have hm := (mem_search_by_pref _ hw pre k u).mpr hcond
    refine ⟨u, ?_, hr⟩
    rw [mem_uuidFoldAppend]
    cases hg : dget (search_by_pref r.title pre) k with
    | none =>
      rw [hg] at hm
      exact absurd hm (by simp)
    | some l2 =>
      rw [hg] at hm
      exact Or.inr ⟨(k, l2), mem_of_dget_eq_some hg, hm⟩

theorem mem_hash_resolve (digest : String → String) (heap : Heap) (idx : HashIdx)
    (v : String) (d2 : Doc) :
    d2 ∈ (search_by_exact_match digest idx v).filterMap (fun u => readRecord heap u) ↔
      ∃ u, (pytrim v ≠ "" ∧ u ∈ hashLookup idx (digest v)) ∧
        readRecord heap u = some d2 := by
  rw [search_by_exact_match_eq]
  simp only [List.mem_filterMap]
  by_cases hv : pytrim v = ""
  · rw [if_pos hv]
    simp [hv]
  · rw [if_neg hv]
    constructor
    · rintro ⟨u, hu, hr⟩
      exact ⟨u, ⟨hv, hu⟩, hr⟩
    · rintro ⟨u, ⟨_, hu⟩, hr⟩
      exact ⟨u, hu, hr⟩

theorem mem_search_notes_by_date (r : NotesRepo) (hw : DateWF r.date)
    (y : Nat) (m d : Option Nat) (d2 : Doc) :
    d2 ∈ search_notes_by_date r y m d ↔
      ∃ u, dateSearchSpec r.date y m d u ∧ readRecord r.heap u = some d2 := by
  unfold search_notes_by_date
  simp only [List.mem_filterMap]
  constructor
  · rintro ⟨u, hu, hr⟩
    exact ⟨u, (mem_search_by_date _ hw _ _ _ u).mp hu, hr⟩
  · rintro ⟨u, hu, hr⟩
    exact ⟨u, (mem_search_by_date _ hw _ _ _ u).mpr hu, hr⟩

theorem dateSearchSpec_congr {idx1 idx2 : DateIdx}
    (h : ∀ leaf u, u ∈ dateLookup idx1 leaf ↔ u ∈ dateLookup idx2 leaf)
    (y : Nat) (m d : Option Nat) (u : String) :
    dateSearchSpec idx1 y m d u ↔ dateSearchSpec idx2 y m d u := by
  unfold dateSearchSpec
  cases d.bind (fun x => if x = 0 then none else some x) with
  | some dd =>
    cases m.bind (fun x => if x = 0 then none else some x) with
    | some mm => exact h _ u
    | none => exact h _ u
  | none =>
    constructor
    · rintro ⟨leaf, h1, h2, h3, hm⟩
      exact ⟨leaf, h1, h2, h3, (h leaf u).mp hm⟩
    · rintro ⟨leaf, h1, h2, h3, hm⟩
      exact ⟨leaf, h1, h2, h3, (h leaf u).mpr hm⟩

theorem toFinset_eq_of_mem_iff {l1 l2 : List Doc} (h : ∀ x, x ∈ l1 ↔ x ∈ l2) :
    l1.toFinset = l2.toFinset := by
  apply Finset.ext
  intro x
  rw [List.mem_toFinset, List.mem_toFinset]
  exact h x

/-! Searches through canonically equivalent indexes over the same heap
return the same result sets. -/

theorem c_search_trie_congr (heap : Heap) {idx1 idx2 : TrieIdx}
    {spec : String → String → Prop} (h1 : TrieCanon idx1 spec)
    (h2 : TrieCanon idx2 spec) (pre : String) :
    (c_search_trie heap idx1 pre).toFinset = (c_search_trie heap idx2 pre).toFinset := by
  apply toFinset_eq_of_mem_iff
  intro d2
  rw [mem_c_search_trie heap idx1 h1.1 pre d2, mem_c_search_trie heap idx2 h2.1 pre d2]
  constructor
  · rintro ⟨k, u, ⟨hn, hs, hm⟩, hr⟩
    exact ⟨k, u, ⟨hn, hs, (h2.2 k u).mpr ((h1.2 k u).mp hm)⟩, hr⟩
  · rintro ⟨k, u, ⟨hn, hs, hm⟩, hr⟩
    exact ⟨k, u, ⟨hn, hs, (h1.2 k u).mpr ((h2.2 k u).mp hm)⟩, hr⟩

theorem hash_resolve_congr (digest : String → String) (heap : Heap)
    {idx1 idx2 : HashIdx} {spec : String → String → Prop}
    (h1 : HashCanon idx1 spec) (h2 : HashCanon idx2 spec) (v : String) :
    ((search_by_exact_match digest idx1 v).filterMap
        (fun u => readRecord heap u)).toFinset =
      ((search_by_exact_match digest idx2 v).filterMap
        (fun u => readRecord heap u)).toFinset := by
  apply toFinset_eq_of_mem_iff
  intro d2
  rw [mem_hash_resolve digest heap idx1 v d2, mem_hash_resolve digest heap idx2 v d2]
  constructor
  · rintro ⟨u, ⟨hn, hm⟩, hr⟩
    exact ⟨u, ⟨hn, (h2.2 _ u).mpr ((h1.2 _ u).mp hm)⟩, hr⟩
  · rintro ⟨u, ⟨hn, hm⟩, hr⟩
    exact ⟨u, ⟨hn, (h1.2 _ u).mpr ((h2.2 _ u).mp hm)⟩, hr⟩

theorem search_by_title_congr {r1 r2 : NotesRepo} (hheap : r1.heap = r2.heap)
    {spec : String → String → Prop} (h1 : TrieCanon r1.title spec)
    (h2 : TrieCanon r2.title spec) (pre : String) :
    (search_by_title r1 pre).toFinset = (search_by_title r2 pre).toFinset := by
  apply toFinset_eq_of_mem_iff
  intro d2
  rw [mem_search_by_title r1 h1.1 pre d2, mem_search_by_title r2 h2.1 pre d2, hheap]
  constructor
  · rintro ⟨k, u, ⟨hn, hs, hm⟩, hr⟩
    exact ⟨k, u, ⟨hn, hs, (h2.2 k u).mpr ((h1.2 k u).mp hm)⟩, hr⟩
  · rintro ⟨k, u, ⟨hn, hs, hm⟩, hr⟩
    exact ⟨k, u, ⟨hn, hs, (h1.2 k u).mpr ((h2.2 k u).mp hm)⟩, hr⟩

theorem search_notes_by_date_congr {r1 r2 : NotesRepo} (hheap : r1.heap = r2.heap)
    {spec : DateLeaf → String → Prop} (h1 : DateCanon r1.date spec)
    (h2 : DateCanon r2.date spec) (y : Nat) (m d : Option Nat) :
    (search_notes_by_date r1 y m d).toFinset =
      (search_notes_by_date r2 y m d).toFinset := by
  apply toFinset_eq_of_mem_iff
  intro d2
  rw [mem_search_notes_by_date r1 h1.1 y m d d2,
    mem_search_notes_by_date r2 h2.1 y m d d2, hheap]
  have hmemeq : ∀ leaf u, u ∈ dateLookup r1.date leaf ↔ u ∈ dateLookup r2.date leaf :=
    fun leaf u => (h1.2 leaf u).trans ((h2.2 leaf u).symm)
  constructor
  · rintro ⟨u, hu, hr⟩
    exact ⟨u, (dateSearchSpec_congr hmemeq y m d u).mp hu, hr⟩
  · rintro ⟨u, hu, hr⟩
    exact ⟨u, (dateSearchSpec_congr hmemeq y m d u).mpr hu, hr⟩

/-- C1: Index/heap agreement under single-threaded use.  For every
contacts-repository and notes-repository state reachable by a finite
sequence of create/update/delete/rebuild operations with no induced
failures, running rebuild_indexes first and then any search (by prefix
field, by exact field, or by date) returns the same result set of
records as running that search without the rebuild; moreover the
post-rebuild repository state is a function only of the current heap
contents, independent of prior index state. -/

theorem rebuild_then_search_equals_search (digest : String → String)
    (rc : ContactsRepo) (rn : NotesRepo)
    (hreach : CReach digest rc) (hnreach : NReach rn) :
    (∀ pre, (search_by_first_name (crebuild digest rc).2 pre).toFinset =
        (search_by_first_name rc pre).toFinset) ∧
      (∀ pre, (search_by_last_name (crebuild digest rc).2 pre).toFinset =
        (search_by_last_name rc pre).toFinset) ∧
      (∀ v, (search_by_phone digest (crebuild digest rc).2 v).toFinset =
        (search_by_phone digest rc v).toFinset) ∧
      (∀ v, (search_by_email digest (crebuild digest rc).2 v).toFinset =
        (search_by_email digest rc v).toFinset) ∧
      (∀ pre, (search_by_title (nrebuild rn).2 pre).toFinset =
        (search_by_title rn pre).toFinset) ∧
      (∀ y m d, (search_notes_by_date (nrebuild rn).2 y m d).toFinset =
        (search_notes_by_date rn y m d).toFinset) ∧
      (∀ rc2 : ContactsRepo, rc2.heap = rc.heap →
        (crebuild digest rc2).2 = (crebuild digest rc).2) ∧
      (∀ rn2 : NotesRepo, rn2.heap = rn.heap →
        (nrebuild rn2).2 = (nrebuild rn).2) := by
  have hci := cReach_inv digest hreach
  have hci2 := cInv_rebuild digest hci
  have hni := nReach_inv hnreach
  have hni2 := nInv_rebuild hni
  have hh : ((crebuild digest rc).2).heap = rc.heap := crebuild_heap digest rc
  have hhn : ((nrebuild rn).2).heap = rn.heap := nrebuild_heap rn
  obtain ⟨_, hcfn, hcln, hcph, hcem⟩ := hci
  obtain ⟨_, hcfn2, hcln2, hcph2, hcem2⟩ := hci2
  rw [hh] at hcfn2 hcln2 hcph2 hcem2
  obtain ⟨_, hnt, hnd⟩ := hni
  obtain ⟨_, hnt2, hnd2⟩ := hni2
  rw [hhn] at hnt2 hnd2
  refine ⟨?_, ?_, ?_, ?_, ?_, ?_, ?_, ?_⟩
  · intro pre
    show (c_search_trie ((crebuild digest rc).2).heap ((crebuild digest rc).2).fn
      pre).toFinset = (c_search_trie rc.heap rc.fn pre).toFinset
    rw [hh]
    exact c_search_trie_congr rc.heap hcfn2 hcfn pre
  · intro pre
    show (c_search_trie ((crebuild digest rc).2).heap ((crebuild digest rc).2).ln
      pre).toFinset = (c_search_trie rc.heap rc.ln pre).toFinset
    rw [hh]
    exact c_search_trie_congr rc.heap hcln2 hcln pre
  · intro v
    show ((search_by_exact_match digest ((crebuild digest rc).2).ph v).filterMap
        (fun u => readRecord ((crebuild digest rc).2).heap u)).toFinset =
      ((search_by_exact_match digest rc.ph v).filterMap
        (fun u => readRecord rc.heap u)).toFinset
    rw [hh]
    exact hash_resolve_congr digest rc.heap hcph2 hcph v
  · intro v
    show ((search_by_exact_match digest ((crebuild digest rc).2).em v).filterMap
        (fun u => readRecord ((crebuild digest rc).2).heap u)).toFinset =
      ((search_by_exact_match digest rc.em v).filterMap
        (fun u => readRecord rc.heap u)).toFinset
    rw [hh]
    exact hash_resolve_congr digest rc.heap hcem2 hcem v
  · intro pre
    exact search_by_title_congr hhn hnt2 hnt pre
  · intro y m d
    exact search_notes_by_date_congr hhn hnd2 hnd y m d
  · intro rc2 h
    show (list_all rc2.heap).foldl (c_rebuild_step digest) ⟨rc2.heap, [], [], [], []⟩ =
      (list_all rc.heap).foldl (c_rebuild_step digest) ⟨rc.heap, [], [], [], []⟩
    rw [h]
  · intro rn2 h
    show (list_all rn2.heap).foldl n_rebuild_step ⟨rn2.heap, [], []⟩ =
      (list_all rn.heap).foldl n_rebuild_step ⟨rn.heap, [], []⟩
    rw [h]

/-- C1 witness: the hypotheses hold at a concrete one-operation history
and the first conjunct evaluates there. -/

theorem rebuild_then_search_equals_search_witness :
    CReach (fun s => s) cRepo1 ∧ NReach nRepo1 ∧
      (search_by_first_name (crebuild (fun s => s) cRepo1).2 "Ada").toFinset =
        (search_by_first_name cRepo1 "Ada").toFinset := by
  have h1 : CReach (fun s => s) cRepo1 :=
    Relation.ReflTransGen.single
      (CStep.add cInit "id1" "t0" "Ada" "Lovelace" ["5551234"] ["ada@x.io"] [] []
        rfl (by decide) (fun k hk => absurd hk (List.not_mem_nil k)))
  have h2 : NReach nRepo1 :=
    Relation.ReflTransGen.single
      (NStep.add nInit "n1" "t0" "Shopping" "milk" [] [] []
        rfl (by decide) (fun k hk => absurd hk (List.not_mem_nil k)))
  exact ⟨h1, h2,
    (rebuild_then_search_equals_search (fun s => s) cRepo1 nRepo1 h1 h2).1 "Ada"⟩

theorem cStepAvoid_to_step (digest : String → String) (bad : String)
    {r r2 : ContactsRepo} (h : CStepAvoid digest bad r r2) : CStep digest r r2 := by
  cases h with
  | add freshId now first_name last_name phones emails note_ids extra
      hfresh hne hex havoid =>
    exact CStep.add r freshId now first_name last_name phones emails note_ids
      extra hfresh hne hex
  | update uuid fn0 ln0 ph0 em0 ni0 extra now b r2 hex hok =>
    exact CStep.update r uuid fn0 ln0 ph0 em0 ni0 extra now b r2 hex hok
  | remove uuid => exact CStep.remove r uuid
  | rebuild => exact CStep.rebuild r

theorem nStepAvoid_to_step (bad : String) {r r2 : NotesRepo}
    (h : NStepAvoid bad r r2) : NStep r r2 := by
  cases h with
  | add freshId now title content tags contact_ids extra hfresh hne hex havoid =>
    exact NStep.add r freshId now title content tags contact_ids extra hfresh
      hne hex
  | update uuid t0 c0 g0 i0 extra now b r2 hex hok =>
    exact NStep.update r uuid t0 c0 g0 i0 extra now b r2 hex hok
  | remove uuid => exact NStep.remove r uuid
  | rebuild => exact NStep.rebuild r

theorem cAvoid_absent_preserved (digest : String → String) (bad : String)
    {r r2 : ContactsRepo} (hstep : CStepAvoid digest bad r r2)
    (habs : dget r.heap bad = none) : dget r2.heap bad = none := by
  cases hstep with
  | add freshId now first_name last_name phones emails note_ids extra
      hfresh hne hex havoid =>
    show dget (dset r.heap freshId (FileContent.valid _)) bad = none
    rw [dget_dset_ne _ _ _ _ havoid]
    exact habs
  | update uuid fn0 ln0 ph0 em0 ni0 extra now b r2 hex hok =>
    cases hread : readRecord r.heap uuid with
    | none =>
      rw [update_contact_repo_none digest r uuid fn0 ln0 ph0 em0 ni0 extra now
        hread] at hok
      injection hok with h
      injection h with hb hr
      subst hr
      exact habs
    | some old =>
      by_cases hemp : old = []
      · have h2 : update_contact_repo digest r uuid fn0 ln0 ph0 em0 ni0 extra now =
            Except.ok (false, r) := by
          subst hemp
          unfold update_contact_repo
          rw [hread]
          rfl
        rw [h2] at hok
        injection hok with h
        injection h with hb hr
        subst hr
        exact habs
      · rw [update_contact_repo_some digest r uuid fn0 ln0 ph0 em0 ni0 extra now
          hread hemp] at hok
        injection hok with h
        injection h with hb hr
        subst hr
        have hne2 : uuid ≠ bad := by
          intro he
          subst he
          unfold readRecord at hread
          rw [habs] at hread
          exact Option.noConfusion hread
        show dget (dset r.heap uuid (FileContent.valid _)) bad = none
        rw [dget_dset_ne _ _ _ _ hne2]
        exact habs
  | remove uuid =>
    cases hread : readRecord r.heap uuid with
    | none =>
      have h2 : remove_contact digest r uuid = (false, r) := by
        unfold remove_contact
        rw [hread]
      rw [h2]
      exact habs
    | some old =>
      by_cases hemp : old = []
      · have h2 : remove_contact digest r uuid = (false, r) := by
          subst hemp
          unfold remove_contact
          rw [hread]
          rfl
        rw [h2]
        exact habs
      · rw [remove_contact_some digest r uuid hread hemp]
        show dget (derase r.heap uuid) bad = none
        by_cases he : uuid = bad
        · subst he
          exact dget_derase_self _ _
        · rw [dget_derase_ne _ _ _ he]
          exact habs
  | rebuild =>
    show dget ((crebuild digest r).2).heap bad = none
    rw [crebuild_heap digest r]
    exact habs

theorem nAvoid_absent_preserved (bad : String) {r r2 : NotesRepo}
    (hstep : NStepAvoid bad r r2) (hinv : NInv r)
    (habs : dget r.heap bad = none) : dget r2.heap bad = none := by
  cases hstep with
  | add freshId now title content tags contact_ids extra hfresh hne hex havoid =>
    show dget (dset r.heap freshId (FileContent.valid _)) bad = none
    rw [dget_dset_ne _ _ _ _ havoid]
    exact habs
  | update uuid t0 c0 g0 i0 extra now b r2 hex hok =>
    cases hread : readRecord r.heap uuid with
    | none =>
      rw [update_note_repo_none r uuid t0 c0 g0 i0 extra now hread] at hok
      injection hok with h
      injection h with hb hr
      subst hr
      exact habs
    | some old =>
      by_cases hemp : old = []
      · have h2 : update_note_repo r uuid t0 c0 g0 i0 extra now =
            Except.ok (false, r) := by
          subst hemp
          unfold update_note_repo
          rw [hread]
          rfl
        rw [h2] at hok
        injection hok with h
        injection h with hb hr
        subst hr
        exact habs
      · obtain ⟨hwf, _, _⟩ := hinv
        obtain ⟨_, _, ⟨told, htold⟩, _⟩ := heapWFN_read hwf hread
        obtain ⟨tnew, htnew⟩ : ∃ s,
            dget (newNote old t0 c0 g0 i0 extra) "title" = some (Val.s s) := by
          rw [dget_newNote_title old t0 c0 g0 i0 extra hex]
          cases t0 with
          | some t => exact ⟨t, rfl⟩
          | none => exact ⟨told, htold⟩
        rw [update_note_repo_some uuid t0 c0 g0 i0 extra now told tnew hread
          hemp htold htnew] at hok
        injection hok with h
        injection h with hb hr
        subst hr
        have hne2 : uuid ≠ bad := by
          intro he
          subst he
          unfold readRecord at hread
          rw [habs] at hread
          exact Option.noConfusion hread
        show dget (dset r.heap uuid (FileContent.valid _)) bad = none
        rw [dget_dset_ne _ _ _ _ hne2]
        exact habs
  | remove uuid =>
    cases hread : readRecord r.heap uuid with
    | none =>
      have h2 : delete_note_repo r uuid = (false, r) := by
        unfold delete_note_repo
        rw [hread]
      rw [h2]
      exact habs
    | some old =>
      by_cases hemp : old = []
      · have h2 : delete_note_repo r uuid = (false, r) := by
          subst hemp
          unfold delete_note_repo
          rw [hread]
          rfl
        rw [h2]
        exact habs
      · rw [delete_note_repo_some r uuid hread hemp]
        show dget (derase r.heap uuid) bad = none
        by_cases he : uuid = bad
        · subst he
          exact dget_derase_self _ _
        · rw [dget_derase_ne _ _ _ he]
          exact habs
  | rebuild =>
    show dget ((nrebuild r).2).heap bad = none
    rw [nrebuild_heap r]
    exact habs

theorem cAvoid_reach_absent (digest : String → String) (bad : String)
    {r0 r2 : ContactsRepo}
    (hsteps : Relation.ReflTransGen (CStepAvoid digest bad) r0 r2)
    (h0 : dget r0.heap bad = none) (hinv0 : CInv digest r0) :
    dget r2.heap bad = none ∧ CInv digest r2 := by
  induction hsteps with
  | refl => exact ⟨h0, hinv0⟩
  | tail hs hstep ih =>
    exact ⟨cAvoid_absent_preserved digest bad hstep ih.1,
      cStep_inv digest (cStepAvoid_to_step digest bad hstep) ih.2⟩

theorem nAvoid_reach_absent (bad : String) {r0 r2 : NotesRepo}
    (hsteps : Relation.ReflTransGen (NStepAvoid bad) r0 r2)
    (h0 : dget r0.heap bad = none) (hinv0 : NInv r0) :
    dget r2.heap bad = none ∧ NInv r2 := by
  induction hsteps with
  | refl => exact ⟨h0, hinv0⟩
  | tail hs hstep ih =>
    exact ⟨nAvoid_absent_preserved bad hstep ih.2 ih.1,
      nStep_inv (nStepAvoid_to_step bad hstep) ih.2⟩

theorem no_bad_doc {heap : Heap} {bad u : String} {d2 : Doc}
    (habs : dget heap bad = none) (hr : readRecord heap u = some d2)
    (hu : dget d2 "uuid" = some (Val.s u)) :
    dget d2 "uuid" ≠ some (Val.s bad) := by
  have hne : u ≠ bad := by
    intro he
    subst he
    unfold readRecord at hr
    rw [habs] at hr
    exact Option.noConfusion hr
  rw [hu]
  intro he
  injection he with h2
  injection h2 with h3
  exact hne h3

/-- C6: delete is terminal.  After a successful delete of a uuid,
reading it gives absent, and along any continuation of the execution
that never hands the deleted uuid out again as a fresh id, no search —
by prefix field, by exact field, or by date — ever returns the deleted
record: every index hit is resolved through the heap read, which drops
identifiers whose backing record is missing. -/

theorem delete_is_terminal (digest : String → String) (rc : ContactsRepo)
    (hreach : CReach digest rc) (uuid : String)
    (hsucc : (remove_contact digest rc uuid).1 = true) (rc2 : ContactsRepo)
    (hsteps : Relation.ReflTransGen (CStepAvoid digest uuid)
      (remove_contact digest rc uuid).2 rc2)
    (rn : NotesRepo) (hnreach : NReach rn) (nuuid : String)
    (hnsucc : (delete_note_repo rn nuuid).1 = true) (rn2 : NotesRepo)
    (hnsteps : Relation.ReflTransGen (NStepAvoid nuuid)
      (delete_note_repo rn nuuid).2 rn2) :
    readRecord rc2.heap uuid = none ∧
      (∀ pre d2, d2 ∈ search_by_first_name rc2 pre →
        dget d2 "uuid" ≠ some (Val.s uuid)) ∧
      (∀ pre d2, d2 ∈ search_by_last_name rc2 pre →
        dget d2 "uuid" ≠ some (Val.s uuid)) ∧
      (∀ v d2, d2 ∈ search_by_phone digest rc2 v →
        dget d2 "uuid" ≠ some (Val.s uuid)) ∧
      (∀ v d2, d2 ∈ search_by_email digest rc2 v →
        dget d2 "uuid" ≠ some (Val.s uuid)) ∧
      readRecord rn2.heap nuuid = none ∧
      (∀ pre d2, d2 ∈ search_by_title rn2 pre →
        dget d2 "uuid" ≠ some (Val.s nuuid)) ∧
      (∀ y m d d2, d2 ∈ search_notes_by_date rn2 y m d →
        dget d2 "uuid" ≠ some (Val.s nuuid)) := by
  have hinv0 := cReach_inv digest hreach
  have hpost : dget ((remove_contact digest rc uuid).2).heap uuid = none := by
    cases hread : readRecord rc.heap uuid with
    | none =>
      have h2 : remove_contact digest rc uuid = (false, rc) := by
        unfold remove_contact
        rw [hread]
      rw [h2] at hsucc
      exact Bool.noConfusion hsucc
    | some old =>
      by_cases hemp : old = []
      · have h2 : remove_contact digest rc uuid = (false, rc) := by
          subst hemp
          unfold remove_contact
          rw [hread]
          rfl
        rw [h2] at hsucc
        exact Bool.noConfusion hsucc
      · rw [remove_contact_some digest rc uuid hread hemp]
        exact dget_derase_self _ _
  have hmain := cAvoid_reach_absent digest uuid hsteps hpost
    (cInv_remove digest uuid hinv0)
  have hninv0 := nReach_inv hnreach
  have hnpost : dget ((delete_note_repo rn nuuid).2).heap nuuid = none := by
    cases hread : readRecord rn.heap nuuid with
    | none =>
      have h2 : delete_note_repo rn nuuid = (false, rn) := by
        unfold delete_note_repo
        rw [hread]
      rw [h2] at hnsucc
      exact Bool.noConfusion hnsucc
    | some old =>
      by_cases hemp : old = []
      · have h2 : delete_note_repo rn nuuid = (false, rn) := by
          subst hemp
          unfold delete_note_repo
          rw [hread]
          rfl
        rw [h2] at hnsucc
        exact Bool.noConfusion hnsucc
      · rw [delete_note_repo_some rn nuuid hread hemp]
        exact dget_derase_self _ _
  have hnmain := nAvoid_reach_absent nuuid hnsteps hnpost
    (nInv_remove nuuid hninv0)
  have habs := hmain.1
  obtain ⟨hwfc, hcfn, hcln, hcph, hcem⟩ := hmain.2
  have hnabs := hnmain.1
  obtain ⟨hwfn, hnt, hnd⟩ := hnmain.2
  refine ⟨?_, ?_, ?_, ?_, ?_, ?_, ?_, ?_⟩
  · unfold readRecord
    rw [habs]
  · intro pre d2 hm
    obtain ⟨k, u, _, hr⟩ :=
      (mem_c_search_trie rc2.heap rc2.fn hcfn.1 pre d2).mp hm
    exact no_bad_doc habs hr (heapWFC_read hwfc hr).1
  · intro pre d2 hm
    obtain ⟨k, u, _, hr⟩ :=
      (mem_c_search_trie rc2.heap rc2.ln hcln.1 pre d2).mp hm
    exact no_bad_doc habs hr (heapWFC_read hwfc hr).1
  · intro v d2 hm
    obtain ⟨u, _, hr⟩ :=
      (mem_hash_resolve digest rc2.heap rc2.ph v d2).mp hm
    exact no_bad_doc habs hr (heapWFC_read hwfc hr).1
  · intro v d2 hm
    obtain ⟨u, _, hr⟩ :=
      (mem_hash_resolve digest rc2.heap rc2.em v d2).mp hm
    exact no_bad_doc habs hr (heapWFC_read hwfc hr).1
  · unfold readRecord
    rw [hnabs]
  · intro pre d2 hm
    obtain ⟨k, u, _, hr⟩ := (mem_search_by_title rn2 hnt.1 pre d2).mp hm
    exact no_bad_doc hnabs hr (heapWFN_read hwfn hr).1
  · intro y m d d2 hm
    obtain ⟨u, _, hr⟩ := (mem_search_notes_by_date rn2 hnd.1 y m d d2).mp hm
    exact no_bad_doc hnabs hr (heapWFN_read hwfn hr).1

/-- C6 witness: the hypotheses hold at a concrete one-create history
followed by the successful delete itself, and the read-back conjunct
evaluates there. -/

theorem delete_is_terminal_witness :
    (remove_contact (fun s => s) cRepo1 "id1").1 = true ∧
      (delete_note_repo nRepo1 "n1").1 = true ∧
      readRecord ((remove_contact (fun s => s) cRepo1 "id1").2).heap "id1" =
        none := by
  have h1 : CReach (fun s => s) cRepo1 :=
    Relation.ReflTransGen.single
      (CStep.add cInit "id1" "t0" "Ada" "Lovelace" ["5551234"] ["ada@x.io"] [] []
        rfl (by decide) (fun k hk => absurd hk (List.not_mem_nil k)))
  have h2 : NReach nRepo1 :=
    Relation.ReflTransGen.single
      (NStep.add nInit "n1" "t0" "Shopping" "milk" [] [] []
        rfl (by decide) (fun k hk => absurd hk (List.not_mem_nil k)))
  have hs : (remove_contact (fun s => s) cRepo1 "id1").1 = true := by decide
  have hn : (delete_note_repo nRepo1 "n1").1 = true := by decide
  exact ⟨hs, hn,
    (delete_is_terminal (fun s => s) cRepo1 h1 "id1" hs _
      Relation.ReflTransGen.refl nRepo1 h2 "n1" hn _
      Relation.ReflTransGen.refl).1⟩

/-- C8 counterexample: a heap whose single scanned record carries no
uuid field.  rebuild_indexes reports count 1 — the record was returned
by the full scan — yet no index entry is inserted for it: the rebuilt
indexes are all empty and a prefix search for its own first_name value
finds nothing, so the returned count is not the number of records
reindexed. -/

theorem rebuild_count_cex :
    (crebuild (fun s => s)
      ⟨[("k", FileContent.valid [("first_name", Val.s "John")])], [], [], [], []⟩).1 = 1 ∧
      (crebuild (fun s => s)
        ⟨[("k", FileContent.valid [("first_name", Val.s "John")])], [], [], [], []⟩).2 =
        ⟨[("k", FileContent.valid [("first_name", Val.s "John")])], [], [], [], []⟩ ∧
      search_by_first_name
        (crebuild (fun s => s)
          ⟨[("k", FileContent.valid [("first_name", Val.s "John")])], [], [], [], []⟩).2
        "John" = [] :=
  ⟨rfl, rfl, rfl⟩

/-- C8 amended: on every heap state whose scanned documents let the
source's rebuild loop complete (CRebuildDoc / NRebuildDoc — outside
this domain rebuild_indexes raises AttributeError or TypeError from the
indexed field values instead of returning), rebuild_indexes returns the
number of scanned records and rebuilds from the heap alone — the result
does not depend on the prior index state and the heap is untouched —
while a scanned document whose uuid is absent or falsy is counted but
skipped before any index insertion, so the returned count can exceed
the number of records actually reindexed. -/

theorem rebuild_counts_scanned (digest : String → String) (r : ContactsRepo)
    (rn : NotesRepo) (_hsafe : ∀ d ∈ list_all r.heap, CRebuildDoc d)
    (_hnsafe : ∀ d ∈ list_all rn.heap, NRebuildDoc d) :
    (crebuild digest r).1 = (list_all r.heap).length ∧
      (nrebuild rn).1 = (list_all rn.heap).length ∧
      ((crebuild digest r).2).heap = r.heap ∧
      ((nrebuild rn).2).heap = rn.heap ∧
      (∀ r2 : ContactsRepo, r2.heap = r.heap →
        (crebuild digest r2).2 = (crebuild digest r).2) ∧
      (∀ rn2 : NotesRepo, rn2.heap = rn.heap →
        (nrebuild rn2).2 = (nrebuild rn).2) ∧
      (∀ (acc : ContactsRepo) (d : Doc), dget d "uuid" = none →
        c_rebuild_step digest acc d = acc) ∧
      (∀ (acc : NotesRepo) (d : Doc), dget d "uuid" = none →
        n_rebuild_step acc d = acc) ∧
      (∀ (acc : ContactsRepo) (d : Doc) (v : Val), dget d "uuid" = some v →
        vtruthy (some v) = false → c_rebuild_step digest acc d = acc) ∧
      (∀ (acc : NotesRepo) (d : Doc) (v : Val), dget d "uuid" = some v →
        vtruthy (some v) = false → n_rebuild_step acc d = acc) := by
  refine ⟨rfl, rfl, crebuild_heap digest r, nrebuild_heap rn,
    ?_, ?_, ?_, ?_, ?_, ?_⟩
  · intro r2 h
    show (list_all r2.heap).foldl (c_rebuild_step digest) ⟨r2.heap, [], [], [], []⟩ =
      (list_all r.heap).foldl (c_rebuild_step digest) ⟨r.heap, [], [], [], []⟩
    rw [h]
  · intro rn2 h
    show (list_all rn2.heap).foldl n_rebuild_step ⟨rn2.heap, [], []⟩ =
      (list_all rn.heap).foldl n_rebuild_step ⟨rn.heap, [], []⟩
    rw [h]
  · intro acc d h
    unfold c_rebuild_step
    rw [h]
  · intro acc d h
    unfold n_rebuild_step
    rw [h]
  · intro acc d v hv hvf
    unfold c_rebuild_step
    rw [hv]
    dsimp only
    rw [if_neg (by simp [hvf])]
  · intro acc d v hv hvf
    unfold n_rebuild_step
    rw [hv]
    dsimp only
    rw [if_neg (by simp [hvf])]

/-- C8 witness: the hypotheses hold at the counterexample heap itself —
its single document has no uuid, so the completion condition is vacuous
— and both the count conjunct and the uuid-skipping conjunct evaluate
there. -/

theorem rebuild_counts_scanned_witness :
    (∀ d ∈ list_all
        ([("k", FileContent.valid [("first_name", Val.s "John")])] : Heap),
      CRebuildDoc d) ∧
      (∀ d ∈ list_all ([] : Heap), NRebuildDoc d) ∧
      (crebuild (fun s => s)
        ⟨[("k", FileContent.valid [("first_name", Val.s "John")])],
          [], [], [], []⟩).1 = 1 ∧
      c_rebuild_step (fun s => s) cInit [("first_name", Val.s "John")] = cInit := by
  have hsafe : ∀ d ∈ list_all
      ([("k", FileContent.valid [("first_name", Val.s "John")])] : Heap),
      CRebuildDoc d := by
    intro d hd
    have hde : d = [("first_name", Val.s "John")] := by
      have h2 : d ∈ [[("first_name", Val.s "John")]] := hd
      exact List.mem_singleton.mp h2
    subst hde
    intro v hv hvt
    rw [show dget [("first_name", Val.s "John")] "uuid" = none from by decide] at hv
    exact Option.noConfusion hv
  have hnsafe : ∀ d ∈ list_all ([] : Heap), NRebuildDoc d :=
    fun d hd => absurd hd (List.not_mem_nil d)
  exact ⟨hsafe, hnsafe,
    (rebuild_counts_scanned (fun s => s)
      ⟨[("k", FileContent.valid [("first_name", Val.s "John")])], [], [], [], []⟩
      nInit hsafe hnsafe).1,
    (rebuild_counts_scanned (fun s => s)
      ⟨[("k", FileContent.valid [("first_name", Val.s "John")])], [], [], [], []⟩
      nInit hsafe hnsafe).2.2.2.2.2.2.1 cInit
      [("first_name", Val.s "John")] (by decide)⟩

end PyAssist
